import Mathlib

/-!
# Relay: inferring query fields from data keys

A shallow embedding of `src/traversal/inferRelayFieldsFromData.js` and of the
platform pieces it calls (regular expressions, `String.prototype.split`,
`String.prototype.replace`, `JSON.parse`, `Object.keys`).

JavaScript strings are modelled as lists of characters (`Str`).  Errors raised
by `invariant` are modelled as the `Except.error` result.

The alias generator `generateRQLFieldAlias`, of which the sources hold the test
only, is modelled from its specification and that test.
-/

namespace Relay

/-- A JavaScript string, as the list of its characters. -/
abbrev Str := List Char

/-! ## Character classes of JavaScript regular expressions -/

/-- The class `\w`: ASCII letters, digits and the underscore. -/
def isWordChar (c : Char) : Bool :=
  ('a'.toNat ≤ c.toNat && c.toNat ≤ 'z'.toNat) || ('A'.toNat ≤ c.toNat && c.toNat ≤ 'Z'.toNat) ||
  ('0'.toNat ≤ c.toNat && c.toNat ≤ '9'.toNat) || c.toNat == '_'.toNat

/-- The line terminators of ECMAScript: LF, CR, U+2028 and U+2029. -/
def isLineTerminator (c : Char) : Bool :=
  c.toNat == 0x0A || c.toNat == 0x0D || c.toNat == 0x2028 || c.toNat == 0x2029

/-- The class `.` (without the `s` flag): anything but a line terminator. -/
def isDotChar (c : Char) : Bool := !isLineTerminator c

/-- The class `\s`: ECMAScript white space and line terminators. -/
def isSpaceChar (c : Char) : Bool :=
  c.toNat == 0x09 || c.toNat == 0x0B || c.toNat == 0x0C || c.toNat == 0x20 ||
  c.toNat == 0xA0 || c.toNat == 0x1680 || (0x2000 ≤ c.toNat && c.toNat ≤ 0x200A) ||
  c.toNat == 0x202F || c.toNat == 0x205F || c.toNat == 0x3000 || c.toNat == 0xFEFF ||
  isLineTerminator c

/-! ## A backtracking regular-expression matcher

`Regex.run r s` lists, in the priority order of a backtracking matcher, every
state in which `r` can finish when started in state `s`.  The first element is
the match that JavaScript reports. -/

/-- The state of a match attempt: position in the subject, the characters still
to be read, and the text of capture groups 1 and 2 (`none` is `undefined`). -/
structure MState where
  pos : Nat
  rest : Str
  cap1 : Option Str
  cap2 : Option Str
  deriving DecidableEq, Repr

/-- Record the text of capture group `i` (only groups 1 and 2 occur). -/
def MState.setCap (t : MState) (i : Nat) (text : Str) : MState :=
  if i = 1 then { t with cap1 := some text }
  else if i = 2 then { t with cap2 := some text }
  else t

/-- Regular expressions, as far as the patterns of this module need them. -/
inductive Regex where
  /-- The assertion `^` (no `m` flag): start of the subject. -/
  | bol
  /-- The assertion `$` (no `m` flag): end of the subject. -/
  | eol
  /-- A literal character. -/
  | chr (c : Char)
  /-- A character class such as `\w`, `\s` or `.`. -/
  | cls (p : Char → Bool)
  /-- Concatenation. -/
  | seq (r₁ r₂ : Regex)
  /-- Greedy option `r?`. -/
  | opt (r : Regex)
  /-- Repetition `r*` (or `r*?` when `lazy`). -/
  | star (lazy : Bool) (r : Regex)
  /-- Repetition `r+` (or `r+?` when `lazy`). -/
  | plus (lazy : Bool) (r : Regex)
  /-- Capture group number `i`. -/
  | group (i : Nat) (r : Regex)
  /-- Positive lookahead `(?=r)`. -/
  | ahead (r : Regex)

/-- Repeat `step` zero or more times.  An iteration that consumes nothing is
abandoned, as in ECMAScript's RepeatMatcher.  The fuel is the number of
characters left, which bounds the number of iterations. -/
def Regex.iterate (lazy : Bool) (step : MState → List MState) : Nat → MState → List MState
  | 0, s => [s]
  | n + 1, s =>
    let more := ((step s).filter (fun t => decide (t.rest.length < s.rest.length))).flatMap
      (Regex.iterate lazy step n)
    if lazy then s :: more else more ++ [s]

/-- All ways for `r` to match at state `s`, best first. -/
def Regex.run : Regex → MState → List MState
  | .bol, s => if s.pos = 0 then [s] else []
  | .eol, s => match s.rest with
    | [] => [s]
    | _ :: _ => []
  | .chr c, s => match s.rest with
    | [] => []
    | x :: xs => if x = c then [{ s with pos := s.pos + 1, rest := xs }] else []
  | .cls p, s => match s.rest with
    | [] => []
    | x :: xs => if p x then [{ s with pos := s.pos + 1, rest := xs }] else []
  | .seq r₁ r₂, s => (r₁.run s).flatMap r₂.run
  | .opt r, s => r.run s ++ [s]
  | .star lazy r, s => Regex.iterate lazy r.run s.rest.length s
  | .plus lazy r, s => (r.run s).flatMap (Regex.iterate lazy r.run s.rest.length)
  | .group i r, s => (r.run s).map (fun t => t.setCap i (s.rest.take (t.pos - s.pos)))
  | .ahead r, s => match r.run s with
    | [] => []
    | t :: _ => [{ s with cap1 := t.cap1, cap2 := t.cap2 }]

/-- The leftmost match of `r` in a subject of which `rest` remains from index
`i` on: the start index and the final state of the match. -/
def Regex.search (r : Regex) : Nat → Str → Option (Nat × MState)
  | i, [] => ((r.run ⟨i, [], none, none⟩).head?).map (fun t => (i, t))
  | i, c :: cs =>
    match (r.run ⟨i, c :: cs, none, none⟩).head? with
    | some t => some (i, t)
    | none => Regex.search r (i + 1) cs

/-- The method `RegExp.prototype.exec` (and `String.prototype.match` for a
pattern without the `g` flag): captures 1 and 2 of the leftmost match. -/
def Regex.exec (r : Regex) (s : Str) : Option (Option Str × Option Str) :=
  (r.search 0 s).map (fun m => (m.2.cap1, m.2.cap2))

/-- The method `RegExp.prototype.test`. -/
def Regex.test (r : Regex) (s : Str) : Bool := (r.search 0 s).isSome

/-- The call `s.replace(r, '"$1"')` for a pattern without the `g` flag: the
leftmost match, if any, is replaced by its first capture between double quotes;
nothing else changes. -/
def Regex.replaceQuoted (r : Regex) (s : Str) : Str :=
  match r.search 0 s with
  | none => s
  | some (i, t) => s.take i ++ ('"' :: (t.cap1.getD [] ++ ['"'])) ++ t.rest

/-- The method `String.prototype.split` with a one-character separator. -/
def split (sep : Char) : Str → List Str
  | [] => [[]]
  | c :: cs =>
    if c = sep then [] :: split sep cs
    else match split sep cs with
      | [] => [[c]]
      | p :: ps => (c :: p) :: ps

/-! ## The patterns of the module -/

/-- The pattern `\w+`. -/
def word : Regex := .plus false (.cls isWordChar)

/-- The pattern `/^(\w+)(?:\((.+?)\))?$/`. -/
def ARGUMENTS : Regex :=
  .seq .bol (.seq (.group 1 word)
    (.seq (.opt (.seq (.chr '(') (.seq (.group 2 (.plus true (.cls isDotChar))) (.chr ')'))))
      .eol))

/-- The pattern `/(\w+)(?=\s*:)/`. -/
def ARGUMENT_NAME : Regex :=
  .seq (.group 1 word) (.ahead (.seq (.star false (.cls isSpaceChar)) (.chr ':')))

/-- The pattern `/^\w+(?:\.\w+\(.*?\))+$/`. -/
def DEPRECATED_CALLS : Regex :=
  .seq .bol (.seq word
    (.seq (.plus false
        (.seq (.chr '.') (.seq word (.seq (.chr '(')
          (.seq (.star true (.cls isDotChar)) (.chr ')'))))))
      .eol))

/-- The pattern `/^(\w+)\((.*?)\)$/`. -/
def DEPRECATED_CALL : Regex :=
  .seq .bol (.seq (.group 1 word)
    (.seq (.chr '(') (.seq (.group 2 (.star true (.cls isDotChar))) (.seq (.chr ')') .eol))))

/-! ## JavaScript values and `JSON.parse` -/

/-- The values that occur in data records and in decoded arguments.  A number is
kept as the numeric literal that denotes it; an object is the list of its own
enumerable properties in enumeration order (the order of `for in` and of
`Object.keys`); arrays have no holes. -/
inductive Value where
  | null
  | bool (b : Bool)
  | num (lit : Str)
  | str (s : Str)
  | arr (items : List Value)
  | obj (props : List (Str × Value))

/-- The reason a `JSON.parse` call failed: the offending character, or the end
of the text.  (The wording of the engine's message is not modelled.) -/
inductive SyntaxError where
  | unexpectedToken (c : Char)
  | unexpectedEnd
  deriving DecidableEq, Repr

namespace JSON

/-- Fail at the point where `rest` remains. -/
def fail {α : Type} (rest : Str) : Except SyntaxError α :=
  match rest with
  | [] => .error .unexpectedEnd
  | c :: _ => .error (.unexpectedToken c)

/-- JSON white space: space, tab, line feed, carriage return. -/
def isWs (c : Char) : Bool := c == ' ' || c == '\t' || c == '\n' || c == '\r'

/-- Skip JSON white space. -/
def skipWs : Str → Str
  | [] => []
  | c :: cs => if isWs c then skipWs cs else c :: cs

/-- A decimal digit. -/
def isDigit (c : Char) : Bool := '0'.toNat ≤ c.toNat && c.toNat ≤ '9'.toNat

/-- The value of a hexadecimal digit. -/
def hexVal (c : Char) : Option Nat :=
  if '0'.toNat ≤ c.toNat ∧ c.toNat ≤ '9'.toNat then some (c.toNat - '0'.toNat)
  else if 'a'.toNat ≤ c.toNat ∧ c.toNat ≤ 'f'.toNat then some (c.toNat - 'a'.toNat + 10)
  else if 'A'.toNat ≤ c.toNat ∧ c.toNat ≤ 'F'.toNat then some (c.toNat - 'A'.toNat + 10)
  else none

/-- The character named by the four hexadecimal digits of a `\u` escape.
(A string is a list of characters here, so an escape naming half of a
surrogate pair is outside the model.) -/
def hex4 (a b c d : Char) : Option Char :=
  match hexVal a, hexVal b, hexVal c, hexVal d with
  | some x, some y, some z, some w => some (Char.ofNat (((x * 16 + y) * 16 + z) * 16 + w))
  | _, _, _, _ => none

/-- The character named by a one-letter escape. -/
def escape (e : Char) : Option Char :=
  if e = '"' then some '"'
  else if e = '\\' then some '\\'
  else if e = '/' then some '/'
  else if e = 'b' then some (Char.ofNat 8)
  else if e = 'f' then some (Char.ofNat 12)
  else if e = 'n' then some '\n'
  else if e = 'r' then some '\r'
  else if e = 't' then some '\t'
  else none

/-- Read a string literal whose opening quote has been consumed: the decoded
string and the text after the closing quote. -/
def parseString : Str → Except SyntaxError (Str × Str)
  | [] => .error .unexpectedEnd
  | c :: cs =>
    if c = '"' then .ok ([], cs)
    else if c = '\\' then
      match cs with
      | [] => .error .unexpectedEnd
      | e :: es =>
        if e = 'u' then
          match es with
          | h1 :: h2 :: h3 :: h4 :: r =>
            match hex4 h1 h2 h3 h4 with
            | some x =>
              match parseString r with
              | .ok (s, r') => .ok (x :: s, r')
              | .error err => .error err
            | none => .error (.unexpectedToken e)
          | _ => .error .unexpectedEnd
        else
          match escape e with
          | some x =>
            match parseString es with
            | .ok (s, r') => .ok (x :: s, r')
            | .error err => .error err
          | none => .error (.unexpectedToken e)
    else if c.toNat < 0x20 then .error (.unexpectedToken c)
    else
      match parseString cs with
      | .ok (s, r') => .ok (c :: s, r')
      | .error err => .error err

/-- The longest prefix of digits, and what follows it. -/
def digitsPrefix : Str → Str × Str
  | [] => ([], [])
  | c :: cs =>
    if isDigit c then (c :: (digitsPrefix cs).1, (digitsPrefix cs).2) else ([], c :: cs)

/-- Read a non-empty run of digits. -/
def parseDigits (s : Str) : Except SyntaxError (Str × Str) :=
  match digitsPrefix s with
  | ([], r) => fail r
  | (ds, r) => .ok (ds, r)

/-- Read the integer part of a number: `0` or a run of digits without a
leading zero. -/
def parseInt (s : Str) : Except SyntaxError (Str × Str) :=
  match s with
  | [] => .error .unexpectedEnd
  | d :: t => if d = '0' then .ok (['0'], t) else parseDigits (d :: t)

/-- Read an optional fraction `.digits`. -/
def parseFrac (s : Str) : Except SyntaxError (Str × Str) :=
  match s with
  | [] => .ok ([], [])
  | c :: t =>
    if c = '.' then
      match parseDigits t with
      | .ok (ds, r) => .ok ('.' :: ds, r)
      | .error err => .error err
    else .ok ([], c :: t)

/-- Read an optional exponent `e`, optional sign, digits. -/
def parseExp (s : Str) : Except SyntaxError (Str × Str) :=
  match s with
  | [] => .ok ([], [])
  | c :: t =>
    if c = 'e' ∨ c = 'E' then
      match t with
      | [] => .error .unexpectedEnd
      | g :: u =>
        if g = '+' ∨ g = '-' then
          match parseDigits u with
          | .ok (ds, r) => .ok (c :: g :: ds, r)
          | .error err => .error err
        else
          match parseDigits (g :: u) with
          | .ok (ds, r) => .ok (c :: ds, r)
          | .error err => .error err
    else .ok ([], c :: t)

/-- Read a number `-?(0|[1-9][0-9]*)(.[0-9]+)?([eE][+-]?[0-9]+)?`: its literal
and the text after it. -/
def parseNumber (s : Str) : Except SyntaxError (Str × Str) :=
  let signed : Str × Str := match s with
    | [] => ([], [])
    | c :: t => if c = '-' then (['-'], t) else ([], c :: t)
  match parseInt signed.2 with
  | .error err => .error err
  | .ok (i, r₁) =>
    match parseFrac r₁ with
    | .error err => .error err
    | .ok (f, r₂) =>
      match parseExp r₂ with
      | .error err => .error err
      | .ok (e, r₃) => .ok (signed.1 ++ i ++ f ++ e, r₃)

/-- Read the keyword `kw`, giving `v`. -/
def parseKeyword (kw : Str) (v : Value) (s : Str) : Except SyntaxError (Value × Str) :=
  if kw.isPrefixOf s then .ok (v, s.drop kw.length) else fail (s.drop 1)

/-- The index named by a property key that is an array index: a canonical
decimal numeral below `2^32 - 1`. -/
def arrayIndex (k : Str) : Option Nat :=
  match k with
  | [] => none
  | c :: cs =>
    if (c :: cs).all isDigit ∧ (c ≠ '0' ∨ cs = []) then
      let n := (c :: cs).foldl (fun acc d => acc * 10 + (d.toNat - '0'.toNat)) 0
      if n < 4294967295 then some n else none
    else none

/-- Whether a property list has a property named `k`. -/
def hasProp (props : List (Str × Value)) (k : Str) : Bool := props.any (fun p => p.1 == k)

/-- Replace the value of the property named `k`. -/
def setProp (k : Str) (v : Value) : List (Str × Value) → List (Str × Value)
  | [] => []
  | p :: ps => if p.1 = k then (k, v) :: ps else p :: setProp k v ps

/-- Insert the new array-index property `k` (index `i`) at its place in the
enumeration order: after the index properties that are not greater. -/
def insertIndex (i : Nat) (k : Str) (v : Value) : List (Str × Value) → List (Str × Value)
  | [] => [(k, v)]
  | p :: ps =>
    match arrayIndex p.1 with
    | some j => if j < i then p :: insertIndex i k v ps else (k, v) :: p :: ps
    | none => (k, v) :: p :: ps

/-- The operation CreateDataProperty on an ordinary object, keeping the property
list in enumeration order: an existing property keeps its place and takes the
new value; a new array-index key goes among the index keys in ascending order,
which come first; any other new key goes last. -/
def defineProp (props : List (Str × Value)) (k : Str) (v : Value) : List (Str × Value) :=
  if hasProp props k then setProp k v props
  else match arrayIndex k with
    | some i => insertIndex i k v props
    | none => props ++ [(k, v)]

mutual
/-- Read a JSON value at the start of the text (white space already skipped).
The fuel bounds the nesting depth; the length of the text plus one is enough. -/
def parseValue : Nat → Str → Except SyntaxError (Value × Str)
  | 0, s => fail s
  | _ + 1, [] => .error .unexpectedEnd
  | n + 1, c :: cs =>
    if c = '{' then
      match skipWs cs with
      | [] => .error .unexpectedEnd
      | d :: ds => if d = '}' then .ok (.obj [], ds) else parseMembers n [] (d :: ds)
    else if c = '[' then
      match skipWs cs with
      | [] => .error .unexpectedEnd
      | d :: ds => if d = ']' then .ok (.arr [], ds) else parseElements n [] (d :: ds)
    else if c = '"' then
      match parseString cs with
      | .ok (s, r) => .ok (.str s, r)
      | .error err => .error err
    else if c = '-' ∨ isDigit c then
      match parseNumber (c :: cs) with
      | .ok (lit, r) => .ok (.num lit, r)
      | .error err => .error err
    else if c = 't' then parseKeyword ['t', 'r', 'u', 'e'] (.bool true) (c :: cs)
    else if c = 'f' then parseKeyword ['f', 'a', 'l', 's', 'e'] (.bool false) (c :: cs)
    else if c = 'n' then parseKeyword ['n', 'u', 'l', 'l'] .null (c :: cs)
    else .error (.unexpectedToken c)
/-- Read the members of an object from the start of a member on, `acc` being
the properties created so far. -/
def parseMembers : Nat → List (Str × Value) → Str → Except SyntaxError (Value × Str)
  | 0, _, s => fail s
  | _ + 1, _, [] => .error .unexpectedEnd
  | n + 1, acc, c :: cs =>
    if c = '"' then
      match parseString cs with
      | .error err => .error err
      | .ok (k, r₁) =>
        match skipWs r₁ with
        | [] => .error .unexpectedEnd
        | d :: ds =>
          if d = ':' then
            match parseValue n (skipWs ds) with
            | .error err => .error err
            | .ok (v, r₂) =>
              match skipWs r₂ with
              | [] => .error .unexpectedEnd
              | e :: es =>
                if e = ',' then parseMembers n (defineProp acc k v) (skipWs es)
                else if e = '}' then .ok (.obj (defineProp acc k v), es)
                else .error (.unexpectedToken e)
          else .error (.unexpectedToken d)
    else .error (.unexpectedToken c)
/-- Read the elements of an array from the start of an element on, `acc` being
the elements read so far. -/
def parseElements : Nat → List Value → Str → Except SyntaxError (Value × Str)
  | 0, _, s => fail s
  | n + 1, acc, s =>
    match parseValue n s with
    | .error err => .error err
    | .ok (v, r) =>
      match skipWs r with
      | [] => .error .unexpectedEnd
      | e :: es =>
        if e = ',' then parseElements n (acc ++ [v]) (skipWs es)
        else if e = ']' then .ok (.arr (acc ++ [v]), es)
        else .error (.unexpectedToken e)
end

/-- The function `JSON.parse` (without reviver): the text must be one value
between optional white space. -/
def parse (text : Str) : Except SyntaxError Value :=
  match parseValue (text.length + 1) (skipWs text) with
  | .error err => .error err
  | .ok (v, r) =>
    match skipWs r with
    | [] => .ok v
    | c :: _ => .error (.unexpectedToken c)

end JSON

/-- The function `Object.keys` on a decoded object: the names of its own
enumerable properties, in enumeration order. -/
def Object.keys : Value → List Str
  | .obj props => props.map (fun p => p.1)
  | _ => []

/-- Property access `args[name]` for an own property of a decoded object
(`none` stands for `undefined`). -/
def Value.get : Value → Str → Option Value
  | .obj props, name => (props.find? (fun p => p.1 == name)).map (fun p => p.2)
  | _, _ => none

/-! ## Field descriptors -/

/-- The interface constants and the store predicate the module is configured
with: `RelayConnectionInterface.NODE` and `EDGES`, `RelayNodeInterface.ID` and
`NODE_TYPE`, and `GraphQLStoreDataHandler.isMetadataKey`. -/
structure Config where
  NODE : Str
  EDGES : Str
  ID : Str
  NODE_TYPE : Str
  isMetadataKey : Str → Bool

/-- One call of a field: `{name, value}`. -/
structure Call where
  name : Str
  value : Value

/-- The metadata object literal of a field: whether it has `plural: true`, and
its `parentType`, if any. -/
structure Metadata where
  plural : Bool
  parentType : Option Str
  deriving DecidableEq, Repr

/-- A field descriptor: name, calls (`none` when null or absent), children and
metadata (`none` when absent). -/
inductive Field where
  | mk (name : Str) (calls : Option (List Call)) (children : List Field)
      (metadata : Option Metadata)

/-- The name of a field descriptor. -/
def Field.name : Field → Str
  | .mk n _ _ _ => n

/-- The calls of a field descriptor. -/
def Field.calls : Field → Option (List Call)
  | .mk _ c _ _ => c

/-- The children of a field descriptor. -/
def Field.children : Field → List Field
  | .mk _ _ ch _ => ch

/-- The metadata of a field descriptor. -/
def Field.metadata : Field → Option Metadata
  | .mk _ _ _ m => m

/-- Modelled from the spec: `RelayQuery.Field.build(name, calls, children,
metadata)` is not among the sources; following the spec's data model it yields
the descriptor `{name, calls, children, metadata}` of its arguments, where absent
children are the empty sequence. -/
def Field.build (name : Str) (calls : Option (List Call)) (children : Option (List Field))
    (metadata : Option Metadata) : Field :=
  .mk name calls (children.getD []) metadata

/-- The two fatal errors, each carrying the offending key; the second also
carries the decoder's failure reason. -/
inductive RelayError where
  | MalformedKey (key : Str)
  | MalformedArguments (key : Str) (reason : SyntaxError)
  deriving DecidableEq, Repr

/-! ## The module -/

/-- The callback of `parts.map` in `buildField`: decode one legacy segment
`name(args)` of the key `key`. -/
def legacyCall (key : Str) (callString : Str) : Except RelayError Call :=
  match DEPRECATED_CALL.exec callString with
  | none => .error (.MalformedKey key)
  | some captures =>
    let value := split ',' (captures.2.getD [])
    .ok { name := captures.1.getD []
          value := match value with
            | [v] => .str v
            | _ => .arr (value.map Value.str) }

/-- The function `buildField(key, children, metadata)`. -/
def buildField (key : Str) (children : List Field) (metadata : Option Metadata) :
    Except RelayError Field :=
  if DEPRECATED_CALLS.test key then
    match split '.' key with
    | fieldName :: callStrings@(_ :: _) =>
      match callStrings.mapM (legacyCall key) with
      | .ok calls => .ok (Field.build fieldName (some calls) (some children) metadata)
      | .error err => .error err
    | _ => .ok (Field.build key none (some children) metadata)
  else
    match ARGUMENTS.exec key with
    | none => .error (.MalformedKey key)
    | some captures =>
      let fieldName := captures.1.getD []
      match captures.2 with
      | some (c :: cs) =>
        match JSON.parse ('{' :: (ARGUMENT_NAME.replaceQuoted (c :: cs) ++ ['}'])) with
        | .ok args =>
          .ok (Field.build fieldName
            (some ((Object.keys args).map
              (fun name => { name := name, value := (args.get name).getD .null })))
            (some children) metadata)
        | .error reason => .error (.MalformedArguments key reason)
      | _ => .ok (Field.build fieldName none (some children) metadata)

/-- The synthetic child pushed for the key `NODE`:
`RelayQuery.Field.build('id', null, null, {parentType: NODE_TYPE})`. -/
def idField (cfg : Config) : Field :=
  Field.build ['i', 'd'] none none (some { plural := false, parentType := some cfg.NODE_TYPE })

/-- The synthetic child pushed for the key `EDGES`:
`RelayQuery.Field.build('cursor')`. -/
def cursorField : Field := Field.build ['c', 'u', 'r', 's', 'o', 'r'] none none none

/-- The second half of `inferField` (lines 67 to 78): the special keys, then
`buildField`. -/
def finishField (cfg : Config) (key : Str) (children : List Field)
    (metadata : Option Metadata) : Except RelayError Field :=
  if key = cfg.NODE then buildField key (children ++ [idField cfg]) metadata
  else if key = cfg.EDGES then buildField key (children ++ [cursorField]) metadata
  else if key = cfg.ID then
    buildField key children (some { plural := false, parentType := some cfg.NODE_TYPE })
  else buildField key children metadata

mutual
/-- The `forEachObject` loop of `inferRelayFieldsFromData` over the own
properties of an object, in enumeration order. -/
def inferProps (cfg : Config) : List (Str × Value) → Except RelayError (List Field)
  | [] => .ok []
  | (key, value) :: rest =>
    if cfg.isMetadataKey key then inferProps cfg rest
    else
      match inferField cfg value key with
      | .error err => .error err
      | .ok field =>
        match inferProps cfg rest with
        | .error err => .error err
        | .ok fields => .ok (field :: fields)
/-- The `forEachObject` loop of `inferRelayFieldsFromData` over an array, whose
own properties are its elements, keyed by their indices, from index `i` on. -/
def inferItems (cfg : Config) : Nat → List Value → Except RelayError (List Field)
  | _, [] => .ok []
  | i, value :: rest =>
    if cfg.isMetadataKey (Nat.toDigits 10 i) then inferItems cfg (i + 1) rest
    else
      match inferField cfg value (Nat.toDigits 10 i) with
      | .error err => .error err
      | .ok field =>
        match inferItems cfg (i + 1) rest with
        | .error err => .error err
        | .ok fields => .ok (field :: fields)
/-- The children inferred from an array value (lines 55 to 60): those that
`inferRelayFieldsFromData` gives for its first element when that is an object
or an array, none otherwise. -/
def inferFirst (cfg : Config) : List Value → Except RelayError (List Field)
  | [] => .ok []
  | .obj props :: _ => inferProps cfg props
  | .arr items :: _ => inferItems cfg 0 items
  | _ :: _ => .ok []
/-- The function `inferField(value, key)`. -/
def inferField (cfg : Config) : Value → Str → Except RelayError Field
  | .arr items, key =>
    match inferFirst cfg items with
    | .error err => .error err
    | .ok children => finishField cfg key children (some { plural := true, parentType := none })
  | .obj props, key =>
    match inferProps cfg props with
    | .error err => .error err
    | .ok children => finishField cfg key children none
  | _, key => finishField cfg key [] none
end

/-- The function `inferRelayFieldsFromData(data)`: visit the own enumerable
properties of `data` in order.  (It is only ever called on objects and arrays;
inside `inferField` its two loops are called directly.) -/
def inferRelayFieldsFromData (cfg : Config) : Value → Except RelayError (List Field)
  | .obj props => inferProps cfg props
  | .arr items => inferItems cfg 0 items
  | _ => .ok []

/-! ## Definitions used to state the properties -/

/-- A non-empty string of word characters: what `\w+` matches in full. -/
def isWord (w : Str) : Prop := w ≠ [] ∧ w.all isWordChar = true

instance (w : Str) : Decidable (isWord w) := by unfold isWord; exact inferInstance

/-- A string without line terminators: what `.*` matches in full. -/
def isDotText (a : Str) : Prop := a.all isDotChar = true

instance (a : Str) : Decidable (isDotText a) := by unfold isDotText; exact inferInstance

/-- The part of `ARGUMENTS` after `^`. -/
def argumentsBody : Regex :=
  .seq (.group 1 word)
    (.seq (.opt (.seq (.chr '(') (.seq (.group 2 (.plus true (.cls isDotChar))) (.chr ')'))))
      .eol)

/-- The part of `DEPRECATED_CALL` after `^`. -/
def deprecatedCallBody : Regex :=
  .seq (.group 1 word)
    (.seq (.chr '(') (.seq (.group 2 (.star true (.cls isDotChar))) (.seq (.chr ')') .eol)))

/-- One repetition in `DEPRECATED_CALLS`: the pattern `\.\w+\(.*?\)`. -/
def deprecatedSegment : Regex :=
  .seq (.chr '.') (.seq word (.seq (.chr '(')
    (.seq (.star true (.cls isDotChar)) (.chr ')'))))

/-- The part of `DEPRECATED_CALLS` after `^`. -/
def deprecatedCallsBody : Regex :=
  .seq word (.seq (.plus false deprecatedSegment) .eol)

/-- The text `name(args)` of one legacy call. -/
def callText (p : Str × Str) : Str := p.1 ++ '(' :: (p.2 ++ [')'])

/-- The legacy key `f.c₁(a₁)…cₙ(aₙ)` with field name `f` and the calls
`(cᵢ, aᵢ)`. -/
def legacyKey (f : Str) (segs : List (Str × Str)) : Str :=
  f ++ (segs.map (fun p => '.' :: callText p)).flatten

/-- The value of a legacy call with argument text `a`: the text itself when it
has no comma, the sequence of its comma-separated parts otherwise. -/
def legacyValue (a : Str) : Value :=
  if ',' ∈ a then .arr ((split ',' a).map Value.str) else .str a

/-- The calls of a legacy key. -/
def legacyCalls (segs : List (Str × Str)) : List Call :=
  segs.map (fun p => { name := p.1, value := legacyValue p.2 })

/-- The children inferred from a value before the special keys are looked at
(lines 52 to 66 of `inferField`). -/
def structuralChildren (cfg : Config) : Value → Except RelayError (List Field)
  | .arr items => inferFirst cfg items
  | .obj props => inferRelayFieldsFromData cfg (.obj props)
  | _ => .ok []

/-- The metadata set before the special keys are looked at: `{plural: true}`
for an array, nothing otherwise. -/
def structuralMetadata : Value → Option Metadata
  | .arr _ => some { plural := true, parentType := none }
  | _ => none

/-- Whether a value is an array (`Array.isArray`). -/
def Value.isArray : Value → Bool
  | .arr _ => true
  | _ => false

/-- Whether a value is neither an object nor an array: a scalar or null. -/
def Value.isScalar : Value → Bool
  | .arr _ => false
  | .obj _ => false
  | _ => true

/-- The synthetic children that `inferField` appends for a key: the `id` child
for `NODE`, the `cursor` child for `EDGES`, none for any other key. -/
def augmentation (cfg : Config) (key : Str) : List Field :=
  if key = cfg.NODE then [idField cfg]
  else if key = cfg.EDGES then [cursorField]
  else []

/-- Whether the key is the one whose metadata `inferField` replaces: `ID`, when
it is neither `NODE` nor `EDGES`. -/
def isIdentityKey (cfg : Config) (key : Str) : Prop :=
  key = cfg.ID ∧ key ≠ cfg.NODE ∧ key ≠ cfg.EDGES

instance (cfg : Config) (key : Str) : Decidable (isIdentityKey cfg key) := by
  unfold isIdentityKey; exact inferInstance

/-- The metadata `inferField` passes to `buildField`. -/
def finalMetadata (cfg : Config) (key : Str) (metadata : Option Metadata) : Option Metadata :=
  if isIdentityKey cfg key then some { plural := false, parentType := some cfg.NODE_TYPE }
  else metadata

/-- The properties of a record that `inferRelayFieldsFromData` visits: those
whose key is not a reserved metadata key, in enumeration order. -/
def visitedProps (cfg : Config) (props : List (Str × Value)) : List (Str × Value) :=
  props.filter (fun p => !cfg.isMetadataKey p.1)

/-- A text that cannot continue a number: it is empty or starts with a
character other than a digit, `.`, `e` and `E`. -/
def Delimited (t : Str) : Prop :=
  ∀ c, t.head? = some c → JSON.isDigit c = false ∧ c ≠ '.' ∧ c ≠ 'e' ∧ c ≠ 'E'

/-- The text handed to `JSON.parse` for the argument text `args` of a modern
key: `'{' + args.replace(ARGUMENT_NAME, '"$1"') + '}'`. -/
def argumentsJSON (args : Str) : Str := '{' :: (ARGUMENT_NAME.replaceQuoted args ++ ['}'])

/-- The calls built from a decoded arguments object:
`Object.keys(args).map(name => ({name, value: args[name]}))`. -/
def callsOf (decoded : Value) : List Call :=
  (Object.keys decoded).map
    (fun name => { name := name, value := (decoded.get name).getD .null })

/-- An example configuration: the interface constants of Relay (`node`, `edges`,
`id`, `Node`) and a store predicate that reserves the keys starting with two
underscores. -/
def exampleConfig : Config where
  NODE := "node".toList
  EDGES := "edges".toList
  ID := "id".toList
  NODE_TYPE := "Node".toList
  isMetadataKey := fun key => "__".toList.isPrefixOf key

/-! ## Definitions used to state the properties of dialects, traversal and aliases -/

/-- The dialect of a key. -/
inductive Dialect where
  | legacy
  | modern
  | neither
  deriving DecidableEq, Repr

/-- The classification of a key as `buildField` makes it: the legacy pattern is
tested first, then the modern one. -/
def classify (key : Str) : Dialect :=
  if DEPRECATED_CALLS.test key then .legacy
  else if (ARGUMENTS.exec key).isSome then .modern
  else .neither

/-- The classification of a key with the two tests in the other order. -/
def classifyModernFirst (key : Str) : Dialect :=
  if (ARGUMENTS.exec key).isSome then .modern
  else if DEPRECATED_CALLS.test key then .legacy
  else .neither

/-- The key `f.c(x)`. -/
def dottedKey (f c x : Str) : Str := f ++ '.' :: (c ++ '(' :: (x ++ [')']))

mutual
/-- The descriptors of a tree: the descriptor itself and all those below it. -/
def Field.nodes : Field → List Field
  | .mk name calls children metadata =>
    .mk name calls children metadata :: Field.nodesOf children
/-- The descriptors of a sequence of trees. -/
def Field.nodesOf : List Field → List Field
  | [] => []
  | field :: fields => field.nodes ++ Field.nodesOf fields
end

mutual
/-- The keys that the loop over the properties of an object hands to
`buildField`, in the order of the calls. -/
def keysOfProps (cfg : Config) : List (Str × Value) → List Str
  | [] => []
  | (key, value) :: rest =>
    if cfg.isMetadataKey key then keysOfProps cfg rest
    else keysOfField cfg value key ++ keysOfProps cfg rest
/-- The keys that the loop over the elements of an array, from index `i` on,
hands to `buildField`. -/
def keysOfItems (cfg : Config) : Nat → List Value → List Str
  | _, [] => []
  | i, value :: rest =>
    if cfg.isMetadataKey (Nat.toDigits 10 i) then keysOfItems cfg (i + 1) rest
    else keysOfField cfg value (Nat.toDigits 10 i) ++ keysOfItems cfg (i + 1) rest
/-- The keys visited in the first element of an array value. -/
def keysOfFirst (cfg : Config) : List Value → List Str
  | [] => []
  | .obj props :: _ => keysOfProps cfg props
  | .arr items :: _ => keysOfItems cfg 0 items
  | _ :: _ => []
/-- The keys that `inferField(value, key)` hands to `buildField`: those visited
inside the value, then the key itself. -/
def keysOfField (cfg : Config) : Value → Str → List Str
  | .arr items, key => keysOfFirst cfg items ++ [key]
  | .obj props, key => keysOfProps cfg props ++ [key]
  | _, key => [key]
end

/-- The keys that `inferRelayFieldsFromData(data)` visits: the non-reserved keys
at the top level, in nested records and in the first element of array values, in
the order in which they reach `buildField`. -/
def visitedKeys (cfg : Config) : Value → List Str
  | .obj props => keysOfProps cfg props
  | .arr items => keysOfItems cfg 0 items
  | _ => []

/-- The error of a result, if it is one. -/
def errorOf {α : Type} : Except RelayError α → Option RelayError
  | .error err => some err
  | .ok _ => none

/-- The error with which `buildField` rejects the first rejected key of a list,
if any key is rejected. -/
def firstError : List Str → Option RelayError
  | [] => none
  | key :: keys =>
    match buildField key [] none with
    | .error err => some err
    | .ok _ => firstError keys

/-- The class `[\w-]`: word characters and the hyphen. -/
def isAliasChar (c : Char) : Bool := isWordChar c || c.toNat == '-'.toNat

/-- The pattern `/^[\w-]+$/` that the test of the alias generator applies to
every alias (`ALIAS_HEURISTIC`). -/
def ALIAS_HEURISTIC : Regex :=
  .seq .bol (.seq (.plus false (.cls isAliasChar)) .eol)

/-- Modelled from the spec: the function `generateRQLFieldAlias` is not among the
sources, only its test is.  Following the test, a field name without calls (a
bare name) is returned as it is.  Following the spec, any other input gets an
alias made from a content hash of the whole input and written in the identifier
alphabet; the digest is an implementation choice and a parameter here, and its
value is written in base 16. -/
def generateRQLFieldAlias (digest : Str → Nat) (input : Str) : Str :=
  if isWord input then input else Nat.toDigits 16 (digest input)

/-- An example digest: a polynomial hash of the code points of the input, modulo
`2^32`. -/
def exampleDigest (input : Str) : Nat :=
  input.foldl (fun h c => (h * 31 + c.toNat) % 4294967296) 0

namespace JSON

/-- Read the members of an object from the start of a member on, as
`parseMembers` does, but return them as they are written: one pair per member,
in the order of the text, nothing merged or moved. -/
def parseMemberList : Nat → Str → Except SyntaxError (List (Str × Value) × Str)
  | 0, s => fail s
  | _ + 1, [] => .error .unexpectedEnd
  | n + 1, c :: cs =>
    if c = '"' then
      match parseString cs with
      | .error err => .error err
      | .ok (k, r₁) =>
        match skipWs r₁ with
        | [] => .error .unexpectedEnd
        | d :: ds =>
          if d = ':' then
            match parseValue n (skipWs ds) with
            | .error err => .error err
            | .ok (v, r₂) =>
              match skipWs r₂ with
              | [] => .error .unexpectedEnd
              | e :: es =>
                if e = ',' then
                  match parseMemberList n (skipWs es) with
                  | .error err => .error err
                  | .ok (ms, r) => .ok ((k, v) :: ms, r)
                else if e = '}' then .ok ([(k, v)], es)
                else .error (.unexpectedToken e)
          else .error (.unexpectedToken d)
    else .error (.unexpectedToken c)

/-- The members of an object text `{ … }`, as they are written: one pair per
member, in the order of the text. -/
def members (text : Str) : Except SyntaxError (List (Str × Value)) :=
  match skipWs text with
  | [] => .error .unexpectedEnd
  | c :: cs =>
    if c = '{' then
      match skipWs cs with
      | [] => .error .unexpectedEnd
      | d :: ds =>
        if d = '}' then
          match skipWs ds with
          | [] => .ok []
          | x :: _ => .error (.unexpectedToken x)
        else
          match parseMemberList text.length (d :: ds) with
          | .error err => .error err
          | .ok (ms, r) =>
            match skipWs r with
            | [] => .ok ms
            | x :: _ => .error (.unexpectedToken x)
    else .error (.unexpectedToken c)

/-- The properties of the object that is built from members written in this
order, starting from the properties `acc`. -/
def defineAll (acc : List (Str × Value)) (ms : List (Str × Value)) : List (Str × Value) :=
  ms.foldl (fun props m => defineProp props m.1 m.2) acc

end JSON

/-- The call made from one argument. -/
def toCall (m : Str × Value) : Call := { name := m.1, value := m.2 }

end Relay

/-! # Theorems -/

namespace Relay

/-! ## Facts about the matcher -/

/-- A list whose elements all have the image `a` under `f`, and which has an
element, has `a` as the image of its head. -/
theorem head?_map_of_forall {α β : Type} (f : α → β) (a : β) (l : List α)
    (hne : ∃ x, x ∈ l) (hall : ∀ x ∈ l, f x = a) : (l.head?).map f = some a := by
  cases l with
  | nil => obtain ⟨x, hx⟩ := hne; cases hx
  | cons y ys => simp [hall y (List.mem_cons_self _ _)]

/-- A list without elements has no head. -/
theorem head?_eq_none_of_forall {α : Type} (l : List α) (h : ∀ x, x ∉ l) : l.head? = none := by
  cases l with
  | nil => rfl
  | cons y ys => exact absurd (List.mem_cons_self _ _) (h y)

/-- A pattern that starts with `^` matches nowhere but at index 0. -/
theorem search_bol_succ (r : Regex) (i : Nat) (cs : Str) :
    (Regex.seq .bol r).search (i + 1) cs = none := by
  induction cs generalizing i with
  | nil => simp [Regex.search, Regex.run]
  | cons c cs ih => simp [Regex.search, Regex.run, ih]

/-- For a pattern that starts with `^`, the match is the best way to match at
index 0. -/
theorem search_bol (r : Regex) (s : Str) :
    (Regex.seq .bol r).search 0 s = ((r.run ⟨0, s, none, none⟩).head?).map (fun t => (0, t)) := by
  cases s with
  | nil => simp [Regex.search, Regex.run]
  | cons c cs =>
    simp only [Regex.search, Regex.run, search_bol_succ]
    simp only [if_true, List.flatMap_cons, List.flatMap_nil, List.append_nil]
    cases (r.run ⟨0, c :: cs, none, none⟩).head? <;> rfl

/-- Membership in the result of a character class. -/
theorem mem_run_cls (p : Char → Bool) (s t : MState) :
    t ∈ (Regex.cls p).run s ↔
      ∃ x xs, s.rest = x :: xs ∧ p x = true ∧ t = ⟨s.pos + 1, xs, s.cap1, s.cap2⟩ := by
  obtain ⟨pos, rest, c1, c2⟩ := s
  cases rest with
  | nil => simp [Regex.run]
  | cons x xs =>
    by_cases hp : p x = true
    · simp only [Regex.run, hp, if_true, List.mem_singleton]
      constructor
      · rintro rfl; exact ⟨x, xs, rfl, hp, rfl⟩
      · rintro ⟨y, ys, h, _, rfl⟩
        cases h; rfl
    · have hp' : p x = false := by simpa using hp
      simp only [Regex.run, hp', Bool.false_eq_true, if_false, List.not_mem_nil, false_iff]
      rintro ⟨y, ys, h, hy, _⟩
      cases h; exact hp hy

/-- Membership in the result of a literal character. -/
theorem mem_run_chr (c : Char) (s t : MState) :
    t ∈ (Regex.chr c).run s ↔
      ∃ xs, s.rest = c :: xs ∧ t = ⟨s.pos + 1, xs, s.cap1, s.cap2⟩ := by
  obtain ⟨pos, rest, c1, c2⟩ := s
  cases rest with
  | nil => simp [Regex.run]
  | cons x xs =>
    by_cases hp : x = c
    · subst hp; simp [Regex.run]
    · have hp' : ¬ c = x := fun h => hp h.symm
      simp [Regex.run, hp, hp']

/-- Membership in the result of `$`. -/
theorem mem_run_eol (s t : MState) :
    t ∈ Regex.eol.run s ↔ s.rest = [] ∧ t = s := by
  obtain ⟨pos, rest, c1, c2⟩ := s
  cases rest with
  | nil => simp [Regex.run]
  | cons x xs => simp [Regex.run]

/-- Membership in the result of a concatenation. -/
theorem mem_run_seq (r₁ r₂ : Regex) (s t : MState) :
    t ∈ (Regex.seq r₁ r₂).run s ↔ ∃ m, m ∈ r₁.run s ∧ t ∈ r₂.run m := by
  simp [Regex.run, List.mem_flatMap]

/-- Membership in the result of an option. -/
theorem mem_run_opt (r : Regex) (s t : MState) :
    t ∈ (Regex.opt r).run s ↔ t ∈ r.run s ∨ t = s := by
  simp [Regex.run]

/-- Membership in the result of a capture group. -/
theorem mem_run_group (i : Nat) (r : Regex) (s t : MState) :
    t ∈ (Regex.group i r).run s ↔
      ∃ u, u ∈ r.run s ∧ t = u.setCap i (s.rest.take (u.pos - s.pos)) := by
  simp only [Regex.run, List.mem_map]
  constructor
  · rintro ⟨u, hu, rfl⟩; exact ⟨u, hu, rfl⟩
  · rintro ⟨u, hu, rfl⟩; exact ⟨u, hu, rfl⟩

/-- Membership in the result of `r+`: one round of `r`, then any number. -/
theorem mem_run_plus (lz : Bool) (r : Regex) (s t : MState) :
    t ∈ (Regex.plus lz r).run s ↔
      ∃ u, u ∈ r.run s ∧ t ∈ Regex.iterate lz r.run s.rest.length u := by
  show t ∈ (r.run s).flatMap (Regex.iterate lz r.run s.rest.length) ↔ _
  exact List.mem_flatMap

/-- Unfolding of one round of `iterate`, as membership. -/
theorem mem_iterate_succ (lz : Bool) (step : MState → List MState) (n : Nat) (s t : MState) :
    t ∈ Regex.iterate lz step (n + 1) s ↔
      t = s ∨ ∃ u, u ∈ step s ∧ u.rest.length < s.rest.length ∧ t ∈ Regex.iterate lz step n u := by
  cases lz <;>
    simp only [Regex.iterate, List.mem_append, List.mem_cons, List.mem_flatMap, List.mem_filter,
      List.mem_singleton, decide_eq_true_eq, Bool.false_eq_true, if_false, if_true,
      List.not_mem_nil, or_false] <;>
    constructor <;> intro h
  · rcases h with ⟨u, ⟨hu, hlt⟩, ht⟩ | h
    · exact Or.inr ⟨u, hu, hlt, ht⟩
    · exact Or.inl h
  · rcases h with h | ⟨u, hu, hlt, ht⟩
    · exact Or.inr h
    · exact Or.inl ⟨u, ⟨hu, hlt⟩, ht⟩
  · rcases h with h | ⟨u, ⟨hu, hlt⟩, ht⟩
    · exact Or.inl h
    · exact Or.inr ⟨u, hu, hlt, ht⟩
  · rcases h with h | ⟨u, hu, hlt, ht⟩
    · exact Or.inl h
    · exact Or.inr ⟨u, ⟨hu, hlt⟩, ht⟩

/-- The start state is always among the results of `iterate`. -/
theorem self_mem_iterate (lz : Bool) (step : MState → List MState) (n : Nat) (s : MState) :
    s ∈ Regex.iterate lz step n s := by
  cases n with
  | zero => simp [Regex.iterate]
  | succ n => exact (mem_iterate_succ lz step n s s).2 (Or.inl rfl)

/-- Repetition of a character class reads any prefix made of characters of the
class, and nothing else. -/
theorem mem_iterate_cls (lz : Bool) (p : Char → Bool) (n : Nat) (s t : MState)
    (hn : s.rest.length ≤ n) :
    t ∈ Regex.iterate lz (Regex.cls p).run n s ↔
      ∃ pre r, s.rest = pre ++ r ∧ (∀ c ∈ pre, p c = true) ∧
        t = ⟨s.pos + pre.length, r, s.cap1, s.cap2⟩ := by
  induction n generalizing s with
  | zero =>
    obtain ⟨pos, rest, c1, c2⟩ := s
    have hrest : rest = [] := List.eq_nil_of_length_eq_zero (Nat.le_zero.mp hn)
    subst hrest
    simp only [Regex.iterate, List.mem_singleton]
    constructor
    · rintro rfl; exact ⟨[], [], rfl, by simp, rfl⟩
    · rintro ⟨pre, r, h, _, rfl⟩
      have h' : pre = [] ∧ r = [] := by simpa using h.symm
      obtain ⟨rfl, rfl⟩ := h'
      rfl
  | succ n ih =>
    rw [mem_iterate_succ]
    obtain ⟨pos, rest, c1, c2⟩ := s
    constructor
    · rintro (rfl | ⟨u, hu, _, ht⟩)
      · exact ⟨[], rest, rfl, by simp, rfl⟩
      · obtain ⟨x, xs, hx, hpx, rfl⟩ := (mem_run_cls p _ u).1 hu
        simp only at hx
        subst hx
        have hlen : xs.length ≤ n := by simpa using hn
        obtain ⟨pre, r, h1, h2, rfl⟩ := (ih ⟨pos + 1, xs, c1, c2⟩ hlen).1 ht
        simp only at h1
        refine ⟨x :: pre, r, by simp [h1], ?_, ?_⟩
        · intro c hc
          rcases List.mem_cons.1 hc with rfl | hc
          · exact hpx
          · exact h2 c hc
        · simp [Nat.add_assoc, Nat.add_comm 1]
    · rintro ⟨pre, r, h1, h2, rfl⟩
      simp only at h1
      cases pre with
      | nil => left; simp at h1; subst h1; rfl
      | cons x pre =>
        right
        simp only [List.cons_append] at h1
        subst h1
        have hlen : (pre ++ r).length ≤ n := by simpa using hn
        refine ⟨⟨pos + 1, pre ++ r, c1, c2⟩, ?_, by simp, ?_⟩
        · exact (mem_run_cls p ⟨pos, x :: (pre ++ r), c1, c2⟩ _).2
            ⟨x, pre ++ r, rfl, h2 x (List.mem_cons_self _ _), rfl⟩
        · refine (ih ⟨pos + 1, pre ++ r, c1, c2⟩ hlen).2 ⟨pre, r, rfl, ?_, ?_⟩
          · intro c hc; exact h2 c (List.mem_cons_of_mem _ hc)
          · simp [Nat.add_assoc, Nat.add_comm 1]

/-- The pattern `p*` (greedy or lazy) reads any prefix of class `p`. -/
theorem mem_run_star_cls (lz : Bool) (p : Char → Bool) (s t : MState) :
    t ∈ (Regex.star lz (.cls p)).run s ↔
      ∃ pre r, s.rest = pre ++ r ∧ (∀ c ∈ pre, p c = true) ∧
        t = ⟨s.pos + pre.length, r, s.cap1, s.cap2⟩ := by
  simp only [Regex.run]
  exact mem_iterate_cls lz p _ s t (Nat.le_refl _)

/-- The pattern `p+` (greedy or lazy) reads any non-empty prefix of class `p`. -/
theorem mem_run_plus_cls (lz : Bool) (p : Char → Bool) (s t : MState) :
    t ∈ (Regex.plus lz (.cls p)).run s ↔
      ∃ pre r, pre ≠ [] ∧ s.rest = pre ++ r ∧ (∀ c ∈ pre, p c = true) ∧
        t = ⟨s.pos + pre.length, r, s.cap1, s.cap2⟩ := by
  simp only [Regex.run, List.mem_flatMap]
  obtain ⟨pos, rest, c1, c2⟩ := s
  constructor
  · rintro ⟨u, hu, ht⟩
    obtain ⟨x, xs, hx, hpx, rfl⟩ := (mem_run_cls p _ u).1 hu
    simp only at hx
    subst hx
    obtain ⟨pre, r, h1, h2, rfl⟩ :=
      (mem_iterate_cls lz p _ ⟨pos + 1, xs, c1, c2⟩ t (by simp)).1 ht
    simp only at h1
    refine ⟨x :: pre, r, by simp, by simp [h1], ?_, ?_⟩
    · intro c hc
      rcases List.mem_cons.1 hc with rfl | hc
      · exact hpx
      · exact h2 c hc
    · simp [Nat.add_assoc, Nat.add_comm 1]
  · rintro ⟨pre, r, hne, h1, h2, rfl⟩
    simp only at h1
    cases pre with
    | nil => exact absurd rfl hne
    | cons x pre =>
      simp only [List.cons_append] at h1
      subst h1
      refine ⟨⟨pos + 1, pre ++ r, c1, c2⟩, ?_, ?_⟩
      · exact (mem_run_cls p ⟨pos, x :: (pre ++ r), c1, c2⟩ _).2
          ⟨x, pre ++ r, rfl, h2 x (List.mem_cons_self _ _), rfl⟩
      · refine (mem_iterate_cls lz p _ ⟨pos + 1, pre ++ r, c1, c2⟩ _ (by simp)).2
          ⟨pre, r, rfl, ?_, ?_⟩
        · intro c hc; exact h2 c (List.mem_cons_of_mem _ hc)
        · simp [Nat.add_assoc, Nat.add_comm 1]

/-- A text splits in at most one way into a prefix of class `p` and a remainder
that does not start with a character of class `p`. -/
theorem prefix_unique (p : Char → Bool) :
    ∀ (w w' r r' : Str), (∀ c ∈ w, p c = true) → (∀ c ∈ w', p c = true) →
      (∀ c, r.head? = some c → p c = false) → (∀ c, r'.head? = some c → p c = false) →
      w ++ r = w' ++ r' → w = w' ∧ r = r' := by
  intro w
  induction w with
  | nil =>
    intro w' r r' _ hw' hr _ h
    cases w' with
    | nil => exact ⟨rfl, by simpa using h⟩
    | cons y ys =>
      simp only [List.nil_append, List.cons_append] at h
      have h1 := hr y (by simp [h])
      have h2 := hw' y (List.mem_cons_self _ _)
      rw [h1] at h2; cases h2
  | cons x xs ih =>
    intro w' r r' hw hw' hr hr' h
    cases w' with
    | nil =>
      simp only [List.nil_append, List.cons_append] at h
      have h1 := hr' x (by simp [← h])
      have h2 := hw x (List.mem_cons_self _ _)
      rw [h1] at h2; cases h2
    | cons y ys =>
      simp only [List.cons_append, List.cons.injEq] at h
      obtain ⟨rfl, h⟩ := h
      obtain ⟨h3, h4⟩ := ih ys r r' (fun c hc => hw c (List.mem_cons_of_mem _ hc))
        (fun c hc => hw' c (List.mem_cons_of_mem _ hc)) hr hr' h
      exact ⟨by rw [h3], h4⟩

/-- The pattern `(\w+)` as group 1 reads a non-empty prefix of word characters
and records it. -/
theorem mem_run_group_word (s t : MState) :
    t ∈ (Regex.group 1 word).run s ↔
      ∃ w r, w ≠ [] ∧ s.rest = w ++ r ∧ (∀ c ∈ w, isWordChar c = true) ∧
        t = ⟨s.pos + w.length, r, some w, s.cap2⟩ := by
  rw [mem_run_group]
  constructor
  · rintro ⟨u, hu, rfl⟩
    obtain ⟨w, r, hne, h1, h2, rfl⟩ := (mem_run_plus_cls false isWordChar s u).1 hu
    refine ⟨w, r, hne, h1, h2, ?_⟩
    simp [MState.setCap, h1]
  · rintro ⟨w, r, hne, h1, h2, rfl⟩
    refine ⟨⟨s.pos + w.length, r, s.cap1, s.cap2⟩, ?_, ?_⟩
    · exact (mem_run_plus_cls false isWordChar s _).2 ⟨w, r, hne, h1, h2, rfl⟩
    · simp [MState.setCap, h1]

/-- The pattern `\w+` reads a non-empty prefix of word characters. -/
theorem mem_run_word (s t : MState) :
    t ∈ word.run s ↔
      ∃ w r, w ≠ [] ∧ s.rest = w ++ r ∧ (∀ c ∈ w, isWordChar c = true) ∧
        t = ⟨s.pos + w.length, r, s.cap1, s.cap2⟩ :=
  mem_run_plus_cls false isWordChar s t

/-- The character `(` is not a word character, whatever follows the word. -/
theorem head_paren_not_word (r : Str) (c : Char) (h : ('(' :: r).head? = some c) :
    isWordChar c = false := by
  simp only [List.head?_cons, Option.some.injEq] at h
  subst h; decide

/-- The character `.` is not a word character, whatever follows the word. -/
theorem head_dot_not_word (r : Str) (c : Char) (h : ('.' :: r).head? = some c) :
    isWordChar c = false := by
  simp only [List.head?_cons, Option.some.injEq] at h
  subst h; decide

/-- The empty remainder starts with no character. -/
theorem head_nil_not (p : Char → Bool) (c : Char) (h : ([] : Str).head? = some c) :
    p c = false := by
  simp at h

/-- The exec method returns the captures of the head of the result list, for a
pattern that starts with `^`. -/
theorem exec_bol (r : Regex) (s : Str) :
    (Regex.seq .bol r).exec s =
      ((r.run ⟨0, s, none, none⟩).head?).map (fun t => (t.cap1, t.cap2)) := by
  unfold Regex.exec
  rw [search_bol]
  cases (r.run ⟨0, s, none, none⟩).head? <;> rfl

/-- The test method says whether the result list is non-empty, for a pattern
that starts with `^`. -/
theorem test_bol (r : Regex) (s : Str) :
    (Regex.seq .bol r).test s = ((r.run ⟨0, s, none, none⟩).head?).isSome := by
  unfold Regex.test
  rw [search_bol]
  cases (r.run ⟨0, s, none, none⟩).head? <;> rfl

/-- Every way of matching `ARGUMENTS` splits the key into a word and either
nothing or a parenthesised non-empty text without line terminators. -/
theorem mem_run_arguments (key : Str) (t : MState)
    (h : t ∈ argumentsBody.run ⟨0, key, none, none⟩) :
    ∃ w r, w ≠ [] ∧ key = w ++ r ∧ (∀ c ∈ w, isWordChar c = true) ∧ t.cap1 = some w ∧
      ((r = [] ∧ t.cap2 = none) ∨
        ∃ body, body ≠ [] ∧ (∀ c ∈ body, isDotChar c = true) ∧ r = '(' :: (body ++ [')']) ∧
          t.cap2 = some body) := by
  unfold argumentsBody at h
  obtain ⟨m₁, hm₁, h⟩ := (mem_run_seq _ _ _ _).1 h
  obtain ⟨w, r, hne, hkey, hw, rfl⟩ := (mem_run_group_word _ _).1 hm₁
  simp only at hkey
  obtain ⟨m₂, hm₂, h⟩ := (mem_run_seq _ _ _ _).1 h
  obtain ⟨hrest, rfl⟩ := (mem_run_eol _ _).1 h
  refine ⟨w, r, hne, hkey, hw, ?_⟩
  rcases (mem_run_opt _ _ _).1 hm₂ with hm₂ | rfl
  · obtain ⟨a, ha, hm₂⟩ := (mem_run_seq _ _ _ _).1 hm₂
    obtain ⟨xs, hxs, rfl⟩ := (mem_run_chr _ _ _).1 ha
    simp only at hxs
    obtain ⟨b, hb, hm₂⟩ := (mem_run_seq _ _ _ _).1 hm₂
    obtain ⟨u, hu, rfl⟩ := (mem_run_group _ _ _ _).1 hb
    obtain ⟨body, r', hbne, hbody, hdot, rfl⟩ := (mem_run_plus_cls _ _ _ _).1 hu
    simp only at hbody
    obtain ⟨ys, hys, rfl⟩ := (mem_run_chr _ _ _).1 hm₂
    simp only [MState.setCap] at hys hrest
    simp only [if_true, OfNat.ofNat_ne_one, if_false] at hys hrest
    subst hrest
    subst hys
    subst hbody
    refine ⟨?_, Or.inr ⟨body, hbne, hdot, hxs, ?_⟩⟩
    · simp [MState.setCap]
    · simp [MState.setCap]
  · simp only at hrest
    exact ⟨rfl, Or.inl ⟨hrest, rfl⟩⟩

/-- A bare word matches `ARGUMENTS`. -/
theorem run_arguments_word (w : Str) (hne : w ≠ []) (hw : ∀ c ∈ w, isWordChar c = true) :
    ∃ t, t ∈ argumentsBody.run ⟨0, w, none, none⟩ := by
  refine ⟨⟨0 + w.length, [], some w, none⟩, ?_⟩
  unfold argumentsBody
  refine (mem_run_seq _ _ _ _).2 ⟨⟨0 + w.length, [], some w, none⟩, ?_, ?_⟩
  · exact (mem_run_group_word _ _).2 ⟨w, [], hne, by simp, hw, rfl⟩
  · refine (mem_run_seq _ _ _ _).2 ⟨⟨0 + w.length, [], some w, none⟩, ?_, ?_⟩
    · exact (mem_run_opt _ _ _).2 (Or.inr rfl)
    · exact (mem_run_eol _ _).2 ⟨rfl, rfl⟩

/-- A word followed by a parenthesised text matches `ARGUMENTS`. -/
theorem run_arguments_args (w body : Str) (hne : w ≠ []) (hw : ∀ c ∈ w, isWordChar c = true)
    (hbne : body ≠ []) (hdot : ∀ c ∈ body, isDotChar c = true) :
    ∃ t, t ∈ argumentsBody.run ⟨0, w ++ '(' :: (body ++ [')']), none, none⟩ := by
  refine ⟨⟨0 + w.length + 1 + body.length + 1, [], some w, some body⟩, ?_⟩
  unfold argumentsBody
  refine (mem_run_seq _ _ _ _).2
    ⟨⟨0 + w.length, '(' :: (body ++ [')']), some w, none⟩, ?_, ?_⟩
  · exact (mem_run_group_word _ _).2 ⟨w, _, hne, rfl, hw, rfl⟩
  · refine (mem_run_seq _ _ _ _).2
      ⟨⟨0 + w.length + 1 + body.length + 1, [], some w, some body⟩, ?_, ?_⟩
    · refine (mem_run_opt _ _ _).2 (Or.inl ?_)
      refine (mem_run_seq _ _ _ _).2 ⟨⟨0 + w.length + 1, body ++ [')'], some w, none⟩, ?_, ?_⟩
      · exact (mem_run_chr _ _ _).2 ⟨_, rfl, rfl⟩
      · refine (mem_run_seq _ _ _ _).2
          ⟨⟨0 + w.length + 1 + body.length, [')'], some w, some body⟩, ?_, ?_⟩
        · refine (mem_run_group _ _ _ _).2
            ⟨⟨0 + w.length + 1 + body.length, [')'], some w, none⟩, ?_, ?_⟩
          · exact (mem_run_plus_cls _ _ _ _).2 ⟨body, [')'], hbne, rfl, hdot, rfl⟩
          · simp [MState.setCap]
        · exact (mem_run_chr _ _ _).2 ⟨_, rfl, rfl⟩
    · exact (mem_run_eol _ _).2 ⟨rfl, rfl⟩

/-- On a bare word `ARGUMENTS` captures the word and no arguments. -/
theorem ARGUMENTS_exec_word (w : Str) (h : isWord w) :
    ARGUMENTS.exec w = some (some w, none) := by
  obtain ⟨hne, hall⟩ := h
  have hw : ∀ c ∈ w, isWordChar c = true := by simpa [List.all_eq_true] using hall
  show (Regex.seq .bol argumentsBody).exec w = _
  rw [exec_bol]
  apply head?_map_of_forall _ _ _ (run_arguments_word w hne hw)
  intro t ht
  obtain ⟨w', r, _, hkey, hw', hc1, hc2⟩ := mem_run_arguments w t ht
  have hkey' : w ++ [] = w' ++ r := by simpa using hkey
  rcases hc2 with ⟨rfl, hc2⟩ | ⟨body, _, _, rfl, _⟩
  · have : w = w' := by simpa using hkey'
    subst this
    rw [Prod.mk.injEq]; exact ⟨hc1, hc2⟩
  · obtain ⟨_, h2⟩ := prefix_unique isWordChar w w' [] _ hw hw' (head_nil_not _)
      (head_paren_not_word _) hkey'
    cases h2

/-- On `word(text)` the pattern `ARGUMENTS` captures the word and the text. -/
theorem ARGUMENTS_exec_args (w body : Str) (h : isWord w) (hbne : body ≠ [])
    (hb : isDotText body) :
    ARGUMENTS.exec (w ++ '(' :: (body ++ [')'])) = some (some w, some body) := by
  obtain ⟨hne, hall⟩ := h
  have hw : ∀ c ∈ w, isWordChar c = true := by simpa [List.all_eq_true] using hall
  have hdot : ∀ c ∈ body, isDotChar c = true := by
    simpa [isDotText, List.all_eq_true] using hb
  show (Regex.seq .bol argumentsBody).exec _ = _
  rw [exec_bol]
  apply head?_map_of_forall _ _ _ (run_arguments_args w body hne hw hbne hdot)
  intro t ht
  obtain ⟨w', r, _, hkey, hw', hc1, hc2⟩ := mem_run_arguments _ t ht
  rcases hc2 with ⟨rfl, _⟩ | ⟨body', _, _, rfl, hc2⟩
  · obtain ⟨_, h2⟩ := prefix_unique isWordChar w w' _ [] hw hw' (head_paren_not_word _)
      (head_nil_not _) hkey
    cases h2
  · obtain ⟨h1, h2⟩ := prefix_unique isWordChar w w' _ _ hw hw' (head_paren_not_word _)
      (head_paren_not_word _) hkey
    subst h1
    have h3 : body = body' := by
      have := List.cons.inj h2
      exact List.append_cancel_right this.2
    subst h3
    rw [Prod.mk.injEq]; exact ⟨hc1, hc2⟩

/-- Whatever `ARGUMENTS` matches is a word, alone or followed by a parenthesised
non-empty text without line terminators; the captures are these two parts. -/
theorem ARGUMENTS_exec_inv (key : Str) (c₁ c₂ : Option Str)
    (h : ARGUMENTS.exec key = some (c₁, c₂)) :
    ∃ w, isWord w ∧ c₁ = some w ∧
      ((key = w ∧ c₂ = none) ∨
        ∃ body, body ≠ [] ∧ isDotText body ∧ key = w ++ '(' :: (body ++ [')']) ∧
          c₂ = some body) := by
  have h' : (Regex.seq .bol argumentsBody).exec key = some (c₁, c₂) := h
  rw [exec_bol] at h'
  cases hrun : argumentsBody.run ⟨0, key, none, none⟩ with
  | nil => rw [hrun] at h'; cases h'
  | cons t ts =>
    rw [hrun] at h'
    simp only [List.head?_cons, Option.map_some', Option.some.injEq, Prod.mk.injEq] at h'
    obtain ⟨h1, h2⟩ := h'
    have ht : t ∈ argumentsBody.run ⟨0, key, none, none⟩ := by rw [hrun]; exact List.mem_cons_self _ _
    obtain ⟨w, r, hne, hkey, hw, hc1, hc2⟩ := mem_run_arguments key t ht
    refine ⟨w, ⟨hne, by simpa [List.all_eq_true] using hw⟩, by rw [← h1, hc1], ?_⟩
    rcases hc2 with ⟨rfl, hc2⟩ | ⟨body, hbne, hdot, rfl, hc2⟩
    · exact Or.inl ⟨by simpa using hkey, by rw [← h2, hc2]⟩
    · exact Or.inr ⟨body, hbne, by simpa [isDotText, List.all_eq_true] using hdot, hkey,
        by rw [← h2, hc2]⟩

/-- Every way of matching `DEPRECATED_CALL` splits the text into a word and a
parenthesised text without line terminators. -/
theorem mem_run_deprecatedCall (s : Str) (t : MState)
    (h : t ∈ deprecatedCallBody.run ⟨0, s, none, none⟩) :
    ∃ w a, w ≠ [] ∧ (∀ c ∈ w, isWordChar c = true) ∧ (∀ c ∈ a, isDotChar c = true) ∧
      s = w ++ '(' :: (a ++ [')']) ∧ t.cap1 = some w ∧ t.cap2 = some a := by
  unfold deprecatedCallBody at h
  obtain ⟨m₁, hm₁, h⟩ := (mem_run_seq _ _ _ _).1 h
  obtain ⟨w, r, hne, hkey, hw, rfl⟩ := (mem_run_group_word _ _).1 hm₁
  simp only at hkey
  obtain ⟨m₂, hm₂, h⟩ := (mem_run_seq _ _ _ _).1 h
  obtain ⟨xs, hxs, rfl⟩ := (mem_run_chr _ _ _).1 hm₂
  simp only at hxs
  obtain ⟨b, hb, h⟩ := (mem_run_seq _ _ _ _).1 h
  obtain ⟨u, hu, rfl⟩ := (mem_run_group _ _ _ _).1 hb
  obtain ⟨a, r', ha, hdot, rfl⟩ := (mem_run_star_cls _ _ _ _).1 hu
  simp only at ha
  obtain ⟨m₃, hm₃, h⟩ := (mem_run_seq _ _ _ _).1 h
  obtain ⟨ys, hys, rfl⟩ := (mem_run_chr _ _ _).1 hm₃
  obtain ⟨hrest, rfl⟩ := (mem_run_eol _ _).1 h
  simp only [MState.setCap] at hys hrest
  simp only [if_true, OfNat.ofNat_ne_one, if_false] at hys hrest
  subst hrest
  subst hys
  subst ha
  subst hxs
  refine ⟨w, a, hne, hw, hdot, hkey, ?_, ?_⟩
  · simp [MState.setCap]
  · simp [MState.setCap]

/-- A word followed by a parenthesised text matches `DEPRECATED_CALL`. -/
theorem run_deprecatedCall (w a : Str) (hne : w ≠ []) (hw : ∀ c ∈ w, isWordChar c = true)
    (hdot : ∀ c ∈ a, isDotChar c = true) :
    ∃ t, t ∈ deprecatedCallBody.run ⟨0, w ++ '(' :: (a ++ [')']), none, none⟩ := by
  refine ⟨⟨0 + w.length + 1 + a.length + 1, [], some w, some a⟩, ?_⟩
  unfold deprecatedCallBody
  refine (mem_run_seq _ _ _ _).2
    ⟨⟨0 + w.length, '(' :: (a ++ [')']), some w, none⟩, ?_, ?_⟩
  · exact (mem_run_group_word _ _).2 ⟨w, _, hne, rfl, hw, rfl⟩
  · refine (mem_run_seq _ _ _ _).2 ⟨⟨0 + w.length + 1, a ++ [')'], some w, none⟩, ?_, ?_⟩
    · exact (mem_run_chr _ _ _).2 ⟨_, rfl, rfl⟩
    · refine (mem_run_seq _ _ _ _).2
        ⟨⟨0 + w.length + 1 + a.length, [')'], some w, some a⟩, ?_, ?_⟩
      · refine (mem_run_group _ _ _ _).2
          ⟨⟨0 + w.length + 1 + a.length, [')'], some w, none⟩, ?_, ?_⟩
        · exact (mem_run_star_cls _ _ _ _).2 ⟨a, [')'], rfl, hdot, rfl⟩
        · simp [MState.setCap]
      · refine (mem_run_seq _ _ _ _).2
          ⟨⟨0 + w.length + 1 + a.length + 1, [], some w, some a⟩, ?_, ?_⟩
        · exact (mem_run_chr _ _ _).2 ⟨_, rfl, rfl⟩
        · exact (mem_run_eol _ _).2 ⟨rfl, rfl⟩

/-- On `word(text)` the pattern `DEPRECATED_CALL` captures the word and the
text. -/
theorem DEPRECATED_CALL_exec (w a : Str) (h : isWord w) (ha : isDotText a) :
    DEPRECATED_CALL.exec (w ++ '(' :: (a ++ [')'])) = some (some w, some a) := by
  obtain ⟨hne, hall⟩ := h
  have hw : ∀ c ∈ w, isWordChar c = true := by simpa [List.all_eq_true] using hall
  have hdot : ∀ c ∈ a, isDotChar c = true := by
    simpa [isDotText, List.all_eq_true] using ha
  show (Regex.seq .bol deprecatedCallBody).exec _ = _
  rw [exec_bol]
  apply head?_map_of_forall _ _ _ (run_deprecatedCall w a hne hw hdot)
  intro t ht
  obtain ⟨w', a', _, hw', _, hkey, hc1, hc2⟩ := mem_run_deprecatedCall _ t ht
  obtain ⟨h1, h2⟩ := prefix_unique isWordChar w w' _ _ hw hw' (head_paren_not_word _)
    (head_paren_not_word _) hkey
  subst h1
  have h3 : a = a' := List.append_cancel_right (List.cons.inj h2).2
  subst h3
  rw [Prod.mk.injEq]; exact ⟨hc1, hc2⟩

/-- Whatever `DEPRECATED_CALL` matches is a word followed by a parenthesised
text without line terminators; the captures are these two parts. -/
theorem DEPRECATED_CALL_exec_inv (s : Str) (c₁ c₂ : Option Str)
    (h : DEPRECATED_CALL.exec s = some (c₁, c₂)) :
    ∃ w a, isWord w ∧ isDotText a ∧ s = w ++ '(' :: (a ++ [')']) ∧ c₁ = some w ∧
      c₂ = some a := by
  have h' : (Regex.seq .bol deprecatedCallBody).exec s = some (c₁, c₂) := h
  rw [exec_bol] at h'
  cases hrun : deprecatedCallBody.run ⟨0, s, none, none⟩ with
  | nil => rw [hrun] at h'; cases h'
  | cons t ts =>
    rw [hrun] at h'
    simp only [List.head?_cons, Option.map_some', Option.some.injEq, Prod.mk.injEq] at h'
    obtain ⟨h1, h2⟩ := h'
    have ht : t ∈ deprecatedCallBody.run ⟨0, s, none, none⟩ := by
      rw [hrun]; exact List.mem_cons_self _ _
    obtain ⟨w, a, hne, hw, hdot, hkey, hc1, hc2⟩ := mem_run_deprecatedCall s t ht
    exact ⟨w, a, ⟨hne, by simpa [List.all_eq_true] using hw⟩,
      by simpa [isDotText, List.all_eq_true] using hdot, hkey, by rw [← h1, hc1],
      by rw [← h2, hc2]⟩

/-- One repetition of `DEPRECATED_CALLS` reads `.word(text)`. -/
theorem mem_run_deprecatedSegment (s t : MState) :
    t ∈ deprecatedSegment.run s ↔
      ∃ c a r, c ≠ [] ∧ (∀ x ∈ c, isWordChar x = true) ∧ (∀ x ∈ a, isDotChar x = true) ∧
        s.rest = '.' :: (c ++ '(' :: (a ++ ')' :: r)) ∧
        t = ⟨s.pos + 1 + c.length + 1 + a.length + 1, r, s.cap1, s.cap2⟩ := by
  unfold deprecatedSegment
  constructor
  · intro h
    obtain ⟨m₁, hm₁, h⟩ := (mem_run_seq _ _ _ _).1 h
    obtain ⟨xs, hxs, rfl⟩ := (mem_run_chr _ _ _).1 hm₁
    obtain ⟨m₂, hm₂, h⟩ := (mem_run_seq _ _ _ _).1 h
    obtain ⟨c, r₁, hne, hc, hw, rfl⟩ := (mem_run_word _ _).1 hm₂
    simp only at hc
    obtain ⟨m₃, hm₃, h⟩ := (mem_run_seq _ _ _ _).1 h
    obtain ⟨ys, hys, rfl⟩ := (mem_run_chr _ _ _).1 hm₃
    simp only at hys
    obtain ⟨m₄, hm₄, h⟩ := (mem_run_seq _ _ _ _).1 h
    obtain ⟨a, r₂, ha, hdot, rfl⟩ := (mem_run_star_cls _ _ _ _).1 hm₄
    simp only at ha
    obtain ⟨zs, hzs, rfl⟩ := (mem_run_chr _ _ _).1 h
    simp only at hzs
    subst hzs; subst ha; subst hys; subst hc
    exact ⟨c, a, zs, hne, hw, hdot, hxs, rfl⟩
  · rintro ⟨c, a, r, hne, hw, hdot, hrest, rfl⟩
    refine (mem_run_seq _ _ _ _).2
      ⟨⟨s.pos + 1, c ++ '(' :: (a ++ ')' :: r), s.cap1, s.cap2⟩, ?_, ?_⟩
    · exact (mem_run_chr _ _ _).2 ⟨_, hrest, rfl⟩
    · refine (mem_run_seq _ _ _ _).2
        ⟨⟨s.pos + 1 + c.length, '(' :: (a ++ ')' :: r), s.cap1, s.cap2⟩, ?_, ?_⟩
      · exact (mem_run_word _ _).2 ⟨c, _, hne, rfl, hw, rfl⟩
      · refine (mem_run_seq _ _ _ _).2
          ⟨⟨s.pos + 1 + c.length + 1, a ++ ')' :: r, s.cap1, s.cap2⟩, ?_, ?_⟩
        · exact (mem_run_chr _ _ _).2 ⟨_, rfl, rfl⟩
        · refine (mem_run_seq _ _ _ _).2
            ⟨⟨s.pos + 1 + c.length + 1 + a.length, ')' :: r, s.cap1, s.cap2⟩, ?_, ?_⟩
          · exact (mem_run_star_cls _ _ _ _).2 ⟨a, _, rfl, hdot, rfl⟩
          · exact (mem_run_chr _ _ _).2 ⟨_, rfl, rfl⟩

/-- Whatever `DEPRECATED_CALLS` matches starts with a word followed by a dot. -/
theorem DEPRECATED_CALLS_test_inv (key : Str) (h : DEPRECATED_CALLS.test key = true) :
    ∃ w r, isWord w ∧ key = w ++ '.' :: r := by
  have h' : (Regex.seq .bol deprecatedCallsBody).test key = true := h
  rw [test_bol] at h'
  cases hrun : deprecatedCallsBody.run ⟨0, key, none, none⟩ with
  | nil => rw [hrun] at h'; cases h'
  | cons t ts =>
    have ht : t ∈ deprecatedCallsBody.run ⟨0, key, none, none⟩ := by
      rw [hrun]; exact List.mem_cons_self _ _
    unfold deprecatedCallsBody at ht
    obtain ⟨m₁, hm₁, ht⟩ := (mem_run_seq _ _ _ _).1 ht
    obtain ⟨w, r, hne, hkey, hw, rfl⟩ := (mem_run_word _ _).1 hm₁
    simp only at hkey
    obtain ⟨m₂, hm₂, _⟩ := (mem_run_seq _ _ _ _).1 ht
    obtain ⟨u, hu, _⟩ := (mem_run_plus _ _ _ _).1 hm₂
    obtain ⟨c, a, r', _, _, _, hrest, _⟩ := (mem_run_deprecatedSegment _ _).1 hu
    simp only at hrest
    exact ⟨w, _, ⟨hne, by simpa [List.all_eq_true] using hw⟩, by rw [hkey, hrest]⟩

/-! ### Splitting -/

/-- The split method never returns the empty list. -/
theorem split_ne_nil (sep : Char) (s : Str) : split sep s ≠ [] := by
  cases s with
  | nil => simp [split]
  | cons c cs =>
    simp only [split]
    split
    · simp
    · split <;> simp

/-- A text without the separator is its own single part. -/
theorem split_of_not_mem (sep : Char) (s : Str) (h : sep ∉ s) : split sep s = [s] := by
  induction s with
  | nil => rfl
  | cons c cs ih =>
    have hc : ¬ c = sep := fun e => h (by simp [e])
    have hcs : sep ∉ cs := fun e => h (List.mem_cons_of_mem _ e)
    simp [split, hc, ih hcs]

/-- Splitting at the first separator. -/
theorem split_append_sep (sep : Char) (a b : Str) (h : sep ∉ a) :
    split sep (a ++ sep :: b) = a :: split sep b := by
  induction a with
  | nil => simp [split]
  | cons c cs ih =>
    have hc : ¬ c = sep := fun e => h (by simp [e])
    have hcs : sep ∉ cs := fun e => h (List.mem_cons_of_mem _ e)
    simp [split, hc, ih hcs]

/-- A text with the separator has at least two parts. -/
theorem split_of_mem (sep : Char) (s : Str) (h : sep ∈ s) :
    ∃ p q qs, split sep s = p :: q :: qs := by
  obtain ⟨a, b, rfl⟩ := List.append_of_mem h
  induction a with
  | nil =>
    simp only [List.nil_append, split, if_true]
    cases hb : split sep b with
    | nil => exact absurd hb (split_ne_nil sep b)
    | cons q qs => exact ⟨[], q, qs, rfl⟩
  | cons c cs ih =>
    obtain ⟨p, q, qs, hs⟩ := ih (by simp)
    have e : split sep (c :: (cs ++ sep :: b)) =
        if c = sep then [] :: split sep (cs ++ sep :: b)
        else match split sep (cs ++ sep :: b) with
          | [] => [[c]]
          | p :: ps => (c :: p) :: ps := rfl
    rw [List.cons_append, e, hs]
    by_cases hc : c = sep
    · exact ⟨[], p, q :: qs, by simp [hc]⟩
    · exact ⟨c :: p, q, qs, by simp [hc]⟩

/-- The split of a legacy key on dots: the field name, then the call texts. -/
theorem split_legacy (x : Str) (segs : List (Str × Str)) (hx : '.' ∉ x)
    (hsegs : ∀ p ∈ segs, '.' ∉ callText p) :
    split '.' (x ++ (segs.map (fun p => '.' :: callText p)).flatten) = x :: segs.map callText := by
  induction segs generalizing x with
  | nil => simp [split_of_not_mem _ _ hx]
  | cons p ps ih =>
    simp only [List.map_cons, List.flatten_cons, List.cons_append]
    rw [split_append_sep _ _ _ hx, ih (callText p) (hsegs p (List.mem_cons_self _ _))
      (fun q hq => hsegs q (List.mem_cons_of_mem _ hq))]

/-- A word has no dot. -/
theorem dot_not_mem_word (w : Str) (h : isWord w) : '.' ∉ w := by
  intro hmem
  have := List.all_eq_true.1 h.2 _ hmem
  revert this; decide

/-- A line terminator is not a word character, so a word character is matched
by `.`. -/
theorem isDotChar_of_isWordChar (c : Char) (h : isWordChar c = true) : isDotChar c = true := by
  by_contra hd
  have hl : isLineTerminator c = true := by simpa [isDotChar] using hd
  simp only [isLineTerminator, Bool.or_eq_true, beq_iff_eq] at hl
  have hc : c = Char.ofNat 0x0A ∨ c = Char.ofNat 0x0D ∨ c = Char.ofNat 0x2028 ∨
      c = Char.ofNat 0x2029 := by
    rcases hl with ((hl | hl) | hl) | hl
    · left; rw [← hl, Char.ofNat_toNat]
    · right; left; rw [← hl, Char.ofNat_toNat]
    · right; right; left; rw [← hl, Char.ofNat_toNat]
    · right; right; right; rw [← hl, Char.ofNat_toNat]
  rcases hc with rfl | rfl | rfl | rfl <;> revert h <;> decide

/-- Repetitions of `\.\w+\(.*?\)` read no line terminator. -/
theorem iterate_segment_dot (lz : Bool) (n : Nat) (s t : MState)
    (h : t ∈ Regex.iterate lz deprecatedSegment.run n s) :
    ∃ pre, s.rest = pre ++ t.rest ∧ ∀ c ∈ pre, isDotChar c = true := by
  induction n generalizing s with
  | zero =>
    simp only [Regex.iterate, List.mem_singleton] at h
    subst h
    exact ⟨[], rfl, by simp⟩
  | succ n ih =>
    rcases (mem_iterate_succ _ _ _ _ _).1 h with rfl | ⟨u, hu, _, ht⟩
    · exact ⟨[], rfl, by simp⟩
    · obtain ⟨c, a, r, _, hw, hdot, hrest, rfl⟩ := (mem_run_deprecatedSegment _ _).1 hu
      obtain ⟨pre, hpre, hall⟩ := ih _ ht
      simp only at hpre
      refine ⟨'.' :: (c ++ '(' :: (a ++ ')' :: pre)), ?_, ?_⟩
      · rw [hrest, hpre]; simp
      · intro x hx
        simp only [List.mem_cons, List.mem_append] at hx
        rcases hx with rfl | hx | rfl | hx | rfl | hx
        · decide
        · exact isDotChar_of_isWordChar _ (hw x hx)
        · decide
        · exact hdot x hx
        · decide
        · exact hall x hx

/-- Whatever `DEPRECATED_CALLS` matches has no line terminator. -/
theorem DEPRECATED_CALLS_test_dot (key : Str) (h : DEPRECATED_CALLS.test key = true) :
    ∀ c ∈ key, isDotChar c = true := by
  have h' : (Regex.seq .bol deprecatedCallsBody).test key = true := h
  rw [test_bol] at h'
  cases hrun : deprecatedCallsBody.run ⟨0, key, none, none⟩ with
  | nil => rw [hrun] at h'; cases h'
  | cons t ts =>
    have ht : t ∈ deprecatedCallsBody.run ⟨0, key, none, none⟩ := by
      rw [hrun]; exact List.mem_cons_self _ _
    unfold deprecatedCallsBody at ht
    obtain ⟨m₁, hm₁, ht⟩ := (mem_run_seq _ _ _ _).1 ht
    obtain ⟨w, r, _, hkey, hw, rfl⟩ := (mem_run_word _ _).1 hm₁
    simp only at hkey
    obtain ⟨m₂, hm₂, ht⟩ := (mem_run_seq _ _ _ _).1 ht
    obtain ⟨hend, rfl⟩ := (mem_run_eol _ _).1 ht
    obtain ⟨u, hu, hm₂⟩ := (mem_run_plus _ _ _ _).1 hm₂
    obtain ⟨c, a, r', _, hc, hdot, hrest, rfl⟩ := (mem_run_deprecatedSegment _ _).1 hu
    obtain ⟨pre, hpre, hall⟩ := iterate_segment_dot _ _ _ _ hm₂
    simp only at hrest hpre
    rw [hend, List.append_nil] at hpre
    subst hpre
    subst hrest
    subst hkey
    intro x hx
    simp only [List.mem_cons, List.mem_append] at hx
    rcases hx with hx | rfl | hx | rfl | hx | rfl | hx
    · exact isDotChar_of_isWordChar _ (hw x hx)
    · decide
    · exact isDotChar_of_isWordChar _ (hc x hx)
    · decide
    · exact hdot x hx
    · decide
    · exact hall x hx

/-- Repetitions of `\.\w+\(.*?\)` can read a sequence of legacy calls to the
end. -/
theorem iterate_segments (lz : Bool) (segs : List (Str × Str))
    (hsegs : ∀ p ∈ segs, isWord p.1 ∧ isDotText p.2) (n : Nat) (u : MState)
    (hu : u.rest = (segs.map (fun p => '.' :: callText p)).flatten) (hn : u.rest.length ≤ n) :
    ∃ t, t ∈ Regex.iterate lz deprecatedSegment.run n u ∧ t.rest = [] := by
  induction segs generalizing n u with
  | nil => exact ⟨u, self_mem_iterate _ _ _ _, by simpa using hu⟩
  | cons p ps ih =>
    obtain ⟨hw, hd⟩ := hsegs p (List.mem_cons_self _ _)
    have hrest : u.rest = '.' :: (p.1 ++ '(' :: (p.2 ++ ')' ::
        (ps.map (fun p => '.' :: callText p)).flatten)) := by
      rw [hu]; simp [callText]
    cases n with
    | zero => rw [hrest] at hn; simp at hn
    | succ n =>
      have hlen : ((ps.map (fun p => '.' :: callText p)).flatten).length < u.rest.length := by
        rw [hrest]; simp; omega
      obtain ⟨t, ht, hte⟩ := ih (fun q hq => hsegs q (List.mem_cons_of_mem _ hq)) n
        ⟨u.pos + 1 + p.1.length + 1 + p.2.length + 1,
          (ps.map (fun p => '.' :: callText p)).flatten, u.cap1, u.cap2⟩ rfl
        (by simp only; omega)
      refine ⟨t, (mem_iterate_succ _ _ _ _ _).2 (Or.inr ⟨_, ?_, ?_, ht⟩), hte⟩
      · exact (mem_run_deprecatedSegment _ _).2 ⟨p.1, p.2, _, hw.1,
          by simpa [List.all_eq_true] using hw.2,
          by simpa [isDotText, List.all_eq_true] using hd, hrest, rfl⟩
      · exact hlen

/-- A legacy key matches `DEPRECATED_CALLS`. -/
theorem DEPRECATED_CALLS_test_legacy (f : Str) (segs : List (Str × Str)) (hf : isWord f)
    (hne : segs ≠ []) (hsegs : ∀ p ∈ segs, isWord p.1 ∧ isDotText p.2) :
    DEPRECATED_CALLS.test (legacyKey f segs) = true := by
  show (Regex.seq .bol deprecatedCallsBody).test _ = true
  rw [test_bol]
  cases segs with
  | nil => exact absurd rfl hne
  | cons p ps =>
    obtain ⟨hw, hd⟩ := hsegs p (List.mem_cons_self _ _)
    obtain ⟨t, ht, hte⟩ := iterate_segments false ps
      (fun q hq => hsegs q (List.mem_cons_of_mem _ hq))
      (('.' :: callText p) ++ (ps.map (fun p => '.' :: callText p)).flatten).length
      ⟨0 + f.length + 1 + p.1.length + 1 + p.2.length + 1,
        (ps.map (fun p => '.' :: callText p)).flatten, none, none⟩ rfl
      (by simp only [List.length_append, List.length_cons]; omega)
    have hmem : t ∈ deprecatedCallsBody.run ⟨0, legacyKey f (p :: ps), none, none⟩ := by
      unfold deprecatedCallsBody
      refine (mem_run_seq _ _ _ _).2 ⟨⟨0 + f.length,
        ('.' :: callText p) ++ (ps.map (fun p => '.' :: callText p)).flatten, none, none⟩, ?_, ?_⟩
      · exact (mem_run_word _ _).2 ⟨f, _, hf.1, by simp [legacyKey],
          by simpa [List.all_eq_true] using hf.2, rfl⟩
      · refine (mem_run_seq _ _ _ _).2 ⟨t, ?_, (mem_run_eol _ _).2 ⟨hte, rfl⟩⟩
        refine (mem_run_plus _ _ _ _).2 ⟨_, ?_, ht⟩
        exact (mem_run_deprecatedSegment _ _).2 ⟨p.1, p.2, _, hw.1,
          by simpa [List.all_eq_true] using hw.2,
          by simpa [isDotText, List.all_eq_true] using hd, by simp [callText], rfl⟩
    cases hrun : deprecatedCallsBody.run ⟨0, legacyKey f (p :: ps), none, none⟩ with
    | nil => rw [hrun] at hmem; cases hmem
    | cons _ _ => rfl

/-- On an object `inferRelayFieldsFromData` is the loop over its properties. -/
theorem inferRelayFieldsFromData_obj (cfg : Config) (props : List (Str × Value)) :
    inferRelayFieldsFromData cfg (.obj props) = inferProps cfg props := rfl

/-- The function `inferField` is the structural step followed by the special
keys and `buildField`. -/
theorem inferField_eq (cfg : Config) (value : Value) (key : Str) :
    inferField cfg value key =
      match structuralChildren cfg value with
      | .error err => .error err
      | .ok children => finishField cfg key children (structuralMetadata value) := by
  cases value with
  | arr items =>
    simp only [inferField, structuralChildren, structuralMetadata]
  | obj props =>
    simp only [inferField, structuralChildren, structuralMetadata, inferRelayFieldsFromData]
  | _ => simp only [inferField, structuralChildren, structuralMetadata]

/-- The result of `buildField` on a key that matches neither pattern. -/
theorem buildField_unmatched (key : Str) (children : List Field) (metadata : Option Metadata)
    (h₁ : DEPRECATED_CALLS.test key = false) (h₂ : ARGUMENTS.exec key = none) :
    buildField key children metadata = .error (.MalformedKey key) := by
  simp only [buildField, h₁, h₂, Bool.false_eq_true, if_false]

/-- The result of `buildField` on a key that matches `ARGUMENTS` without
arguments. -/
theorem buildField_plain (key : Str) (children : List Field) (metadata : Option Metadata)
    (c₁ : Option Str) (h₁ : DEPRECATED_CALLS.test key = false)
    (h₂ : ARGUMENTS.exec key = some (c₁, none)) :
    buildField key children metadata = .ok (.mk (c₁.getD []) none children metadata) := by
  simp only [buildField, h₁, h₂, Bool.false_eq_true, if_false, Field.build, Option.getD_some]

/-- A key that matches `ARGUMENTS` does not match `DEPRECATED_CALLS`. -/
theorem not_legacy_of_modern (key : Str) (c : Option Str × Option Str)
    (h : ARGUMENTS.exec key = some c) : DEPRECATED_CALLS.test key = false := by
  cases htest : DEPRECATED_CALLS.test key with
  | false => rfl
  | true =>
    exfalso
    obtain ⟨w', r', hw', hkey'⟩ := DEPRECATED_CALLS_test_inv key htest
    obtain ⟨w, hw, _, hkey⟩ := ARGUMENTS_exec_inv key c.1 c.2 h
    have hw1 : ∀ c ∈ w, isWordChar c = true := by simpa [List.all_eq_true] using hw.2
    have hw2 : ∀ c ∈ w', isWordChar c = true := by simpa [List.all_eq_true] using hw'.2
    rcases hkey with ⟨hkey, _⟩ | ⟨body, _, _, hkey, _⟩
    · have e : w ++ [] = w' ++ '.' :: r' := by rw [List.append_nil, ← hkey, hkey']
      obtain ⟨_, h2⟩ := prefix_unique isWordChar w w' _ _ hw1 hw2 (head_nil_not _)
        (head_dot_not_word _) e
      cases h2
    · have e : w ++ '(' :: (body ++ [')']) = w' ++ '.' :: r' := by rw [← hkey, hkey']
      obtain ⟨_, h2⟩ := prefix_unique isWordChar w w' _ _ hw1 hw2 (head_paren_not_word _)
        (head_dot_not_word _) e
      cases h2

/-- One legacy call text decodes to its name and value. -/
theorem legacyCall_callText (key : Str) (p : Str × Str) (hw : isWord p.1) (hd : isDotText p.2) :
    legacyCall key (callText p) = .ok { name := p.1, value := legacyValue p.2 } := by
  unfold legacyCall callText
  rw [DEPRECATED_CALL_exec p.1 p.2 hw hd]
  simp only [Option.getD_some, legacyValue]
  by_cases hc : ',' ∈ p.2
  · obtain ⟨x, y, ys, hs⟩ := split_of_mem ',' p.2 hc
    rw [hs]; simp [hc, hs]
  · rw [split_of_not_mem ',' p.2 hc]; simp [hc]

/-- The call texts of a legacy key decode, in order, to its calls. -/
theorem mapM_legacyCall (key : Str) (segs : List (Str × Str))
    (hsegs : ∀ p ∈ segs, isWord p.1 ∧ isDotText p.2) :
    (segs.map callText).mapM (legacyCall key) = .ok (legacyCalls segs) := by
  induction segs with
  | nil => rfl
  | cons p ps ih =>
    obtain ⟨hw, hd⟩ := hsegs p (List.mem_cons_self _ _)
    rw [List.map_cons, List.mapM_cons, legacyCall_callText key p hw hd,
      ih (fun q hq => hsegs q (List.mem_cons_of_mem _ hq))]
    rfl

/-- C2. Take a key `f.c₁(a₁)…cₙ(aₙ)` with `n ≥ 1`, where `f` and the `cᵢ` are
words and no `aᵢ` has a dot.  It is a legacy-dialect key (`DEPRECATED_CALLS`
matches it) exactly when no `aᵢ` has a line terminator; and for every such
legacy-dialect key `buildField` returns the field name `f` and exactly `n` calls,
the i-th with name `cᵢ` and with the value got by splitting `aᵢ` on commas: the
text `aᵢ` itself, as a string, when it has no comma, and the sequence of the
parts otherwise. -/
theorem buildField_legacy (f : Str) (segs : List (Str × Str)) (children : List Field)
    (metadata : Option Metadata) (hf : isWord f) (hne : segs ≠ [])
    (hsegs : ∀ p ∈ segs, isWord p.1 ∧ '.' ∉ p.2) :
    (DEPRECATED_CALLS.test (legacyKey f segs) = true ↔ ∀ p ∈ segs, isDotText p.2) ∧
      (DEPRECATED_CALLS.test (legacyKey f segs) = true →
        buildField (legacyKey f segs) children metadata =
          .ok (.mk f (some (legacyCalls segs)) children metadata)) := by
  have hdotText : DEPRECATED_CALLS.test (legacyKey f segs) = true → ∀ p ∈ segs, isDotText p.2 := by
    intro hlegacy p hp
    have hdot := DEPRECATED_CALLS_test_dot _ hlegacy
    simp only [isDotText, List.all_eq_true]
    intro c hc
    apply hdot
    simp only [legacyKey, List.mem_append, List.mem_flatten, List.mem_map]
    exact Or.inr ⟨_, ⟨p, hp, rfl⟩, by simp [callText, hc]⟩
  refine ⟨⟨hdotText, fun h => DEPRECATED_CALLS_test_legacy f segs hf hne
    (fun p hp => ⟨(hsegs p hp).1, h p hp⟩)⟩, ?_⟩
  intro hlegacy
  have hsegs' : ∀ p ∈ segs, isWord p.1 ∧ isDotText p.2 :=
    fun p hp => ⟨(hsegs p hp).1, hdotText hlegacy p hp⟩
  have hsplit : split '.' (legacyKey f segs) = f :: segs.map callText := by
    apply split_legacy _ _ (dot_not_mem_word f hf)
    intro p hp hmem
    simp only [callText, List.mem_append, List.mem_cons, List.mem_singleton] at hmem
    rcases hmem with h | h | h | h | h
    · exact dot_not_mem_word _ (hsegs p hp).1 h
    · revert h; decide
    · exact (hsegs p hp).2 h
    · revert h; decide
    · cases h
  cases segs with
  | nil => exact absurd rfl hne
  | cons p ps =>
    have hmap := mapM_legacyCall (legacyKey f (p :: ps)) (p :: ps) hsegs'
    simp only [List.map_cons] at hsplit hmap
    simp only [buildField, hlegacy, if_true, hsplit, hmap, Field.build, Option.getD_some]

/-- C3. For every key that is a bare word, `buildField` returns a descriptor
whose name is the key and whose calls are absent, whatever the children and
metadata; so does `inferField`, whatever the value stored at the key. -/
theorem buildField_bare_word (key : Str) (children : List Field) (metadata : Option Metadata)
    (hne : key ≠ []) (hword : key.all isWordChar = true) :
    buildField key children metadata = .ok (.mk key none children metadata) ∧
      ∀ (cfg : Config) (value : Value) (field : Field),
        inferField cfg value key = .ok field → field.name = key ∧ field.calls = none := by
  have hexec := ARGUMENTS_exec_word key ⟨hne, hword⟩
  have htest := not_legacy_of_modern key _ hexec
  have hb : ∀ ch md, buildField key ch md = .ok (.mk key none ch md) := by
    intro ch md
    rw [buildField_plain key ch md _ htest hexec]; rfl
  refine ⟨hb _ _, ?_⟩
  intro cfg value field h
  rw [inferField_eq] at h
  cases hs : structuralChildren cfg value with
  | error err => rw [hs] at h; cases h
  | ok ch =>
    rw [hs] at h
    simp only [finishField, hb] at h
    split at h <;> [skip; split at h <;> [skip; split at h]] <;>
      · cases h; exact ⟨rfl, rfl⟩

/-- C4. For every key that matches neither the legacy pattern nor the modern
pattern, `buildField` raises `MalformedKey` with the full key and returns no
descriptor. -/
theorem buildField_malformedKey (key : Str) (children : List Field) (metadata : Option Metadata)
    (hlegacy : DEPRECATED_CALLS.test key = false) (hmodern : ARGUMENTS.exec key = none) :
    buildField key children metadata = .error (.MalformedKey key) :=
  buildField_unmatched key children metadata hlegacy hmodern

/-- The special keys only change the children and the metadata that reach
`buildField`. -/
theorem finishField_eq (cfg : Config) (key : Str) (children : List Field)
    (metadata : Option Metadata) :
    finishField cfg key children metadata =
      buildField key (children ++ augmentation cfg key) (finalMetadata cfg key metadata) := by
  unfold finishField augmentation finalMetadata isIdentityKey
  by_cases h₁ : key = cfg.NODE
  · rw [if_pos h₁, if_pos h₁, if_neg (fun h => h.2.1 h₁)]
  · by_cases h₂ : key = cfg.EDGES
    · rw [if_neg h₁, if_pos h₂, if_neg h₁, if_pos h₂, if_neg (fun h => h.2.2 h₂)]
    · by_cases h₃ : key = cfg.ID
      · rw [if_neg h₁, if_neg h₂, if_pos h₃, if_neg h₁, if_neg h₂, if_pos ⟨h₃, h₁, h₂⟩,
          List.append_nil]
      · rw [if_neg h₁, if_neg h₂, if_neg h₃, if_neg h₁, if_neg h₂, if_neg (fun h => h₃ h.1),
          List.append_nil]

/-- The outcome of `buildField` depends on the children and the metadata only
in that they are stored in the descriptor. -/
theorem buildField_ok_iff (key : Str) (children : List Field) (metadata : Option Metadata)
    (field : Field) :
    buildField key children metadata = .ok field ↔
      ∃ base, buildField key [] none = .ok base ∧
        field = .mk base.name base.calls children metadata := by
  unfold buildField
  split
  · split
    · split
      · simp only [Field.build, Option.getD_some, Except.ok.injEq]
        constructor
        · rintro rfl; exact ⟨_, rfl, rfl⟩
        · rintro ⟨base, rfl, rfl⟩; rfl
      · simp
    · simp only [Field.build, Option.getD_some, Except.ok.injEq]
      constructor
      · rintro rfl; exact ⟨_, rfl, rfl⟩
      · rintro ⟨base, rfl, rfl⟩; rfl
  · split
    · simp
    · split
      · split
        · simp only [Field.build, Option.getD_some, Except.ok.injEq]
          constructor
          · rintro rfl; exact ⟨_, rfl, rfl⟩
          · rintro ⟨base, rfl, rfl⟩; rfl
        · simp
      · simp only [Field.build, Option.getD_some, Except.ok.injEq]
        constructor
        · rintro rfl; exact ⟨_, rfl, rfl⟩
        · rintro ⟨base, rfl, rfl⟩; rfl

/-- C7. For the key `NODE` and every value, `inferField` returns a descriptor
exactly when the structural inference of the value and the decoding of the key
succeed, and then its children are the structurally inferred children followed
by one synthetic child named `id`, without calls or children and with metadata
`parentType = NODE_TYPE`: the last child is that `id` and the child count is the
inferred count plus one. -/
theorem inferField_node (cfg : Config) (value : Value) (field : Field) :
    inferField cfg value cfg.NODE = .ok field ↔
      ∃ children base, structuralChildren cfg value = .ok children ∧
        buildField cfg.NODE [] none = .ok base ∧
        field = .mk base.name base.calls
          (children ++ [.mk ['i', 'd'] none []
            (some { plural := false, parentType := some cfg.NODE_TYPE })])
          (structuralMetadata value) ∧
        field.children.getLast? = some (.mk ['i', 'd'] none []
            (some { plural := false, parentType := some cfg.NODE_TYPE })) ∧
        field.children.length = children.length + 1 := by
  rw [inferField_eq]
  have haug : augmentation cfg cfg.NODE = [.mk ['i', 'd'] none []
      (some { plural := false, parentType := some cfg.NODE_TYPE })] := by
    simp [augmentation, idField, Field.build]
  have hmeta : ∀ m, finalMetadata cfg cfg.NODE m = m := by
    intro m; simp [finalMetadata, isIdentityKey]
  cases hs : structuralChildren cfg value with
  | error err =>
    simp only
    constructor
    · intro h; cases h
    · rintro ⟨_, _, h, _⟩; cases h
  | ok children =>
    simp only
    rw [finishField_eq, haug, hmeta, buildField_ok_iff]
    constructor
    · rintro ⟨base, hb, rfl⟩
      exact ⟨children, base, rfl, hb, rfl, by simp [Field.children],
        by simp [Field.children]⟩
    · rintro ⟨children', base, hc, hb, rfl, _, _⟩
      cases hc
      exact ⟨base, hb, rfl⟩

/-- C8, amended. Whenever `inferField` emits a descriptor, its metadata has
`plural = true` exactly when the value is an array and the key is not the
identity key; for the identity key the metadata is `{parentType: NODE_TYPE}`
alone, also for an array value; for any other key and a value that is not an
array there is no metadata at all. -/
theorem inferField_plural (cfg : Config) (value : Value) (key : Str) (field : Field)
    (h : inferField cfg value key = .ok field) :
    (field.metadata.map Metadata.plural = some true ↔
        value.isArray = true ∧ ¬ isIdentityKey cfg key) ∧
      (isIdentityKey cfg key →
        field.metadata = some { plural := false, parentType := some cfg.NODE_TYPE }) ∧
      (¬ isIdentityKey cfg key → value.isArray = false → field.metadata = none) := by
  rw [inferField_eq] at h
  cases hs : structuralChildren cfg value with
  | error err => rw [hs] at h; cases h
  | ok children =>
    rw [hs] at h
    simp only at h
    rw [finishField_eq, buildField_ok_iff] at h
    obtain ⟨base, _, rfl⟩ := h
    simp only [Field.metadata, finalMetadata]
    by_cases hid : isIdentityKey cfg key
    · simp [hid]
    · cases value <;> simp [hid, structuralMetadata, Value.isArray]

/-- C9. For an array value the result of `inferField` depends on the first
element only: two arrays with the same first element give the same result; when
the first element is a record, the children are those that
`inferRelayFieldsFromData` infers from it, followed by the synthetic child of a
special key; when the array is empty or starts with a scalar or null, the
inferred children are empty. -/
theorem inferField_array_first (cfg : Config) (key : Str) :
    (∀ first rest₁ rest₂,
        inferField cfg (.arr (first :: rest₁)) key = inferField cfg (.arr (first :: rest₂)) key) ∧
      (∀ props rest field, inferField cfg (.arr (.obj props :: rest)) key = .ok field ↔
        ∃ children base, inferRelayFieldsFromData cfg (.obj props) = .ok children ∧
          buildField key [] none = .ok base ∧
          field = .mk base.name base.calls (children ++ augmentation cfg key)
            (finalMetadata cfg key (some { plural := true, parentType := none }))) ∧
      (∀ items field, (items = [] ∨ ∃ first rest, items = first :: rest ∧ first.isScalar = true) →
        (inferField cfg (.arr items) key = .ok field ↔
          ∃ base, buildField key [] none = .ok base ∧
            field = .mk base.name base.calls ([] ++ augmentation cfg key)
              (finalMetadata cfg key (some { plural := true, parentType := none })))) := by
  refine ⟨?_, ?_, ?_⟩
  · intro first rest₁ rest₂
    rw [inferField_eq, inferField_eq]
    cases first <;> simp only [structuralChildren, inferFirst, structuralMetadata]
  · intro props rest field
    rw [inferField_eq]
    simp only [structuralChildren, inferFirst, structuralMetadata]
    rw [← inferRelayFieldsFromData_obj]
    cases hs : inferRelayFieldsFromData cfg (.obj props) with
    | error err =>
      simp only
      constructor
      · intro h; cases h
      · rintro ⟨_, _, h, _⟩; cases h
    | ok children =>
      simp only
      rw [finishField_eq, buildField_ok_iff]
      constructor
      · rintro ⟨base, hb, rfl⟩; exact ⟨children, base, rfl, hb, rfl⟩
      · rintro ⟨children', base, hc, hb, rfl⟩
        cases hc
        exact ⟨base, hb, rfl⟩
  · intro items field hitems
    rw [inferField_eq]
    have hfirst : structuralChildren cfg (.arr items) = .ok [] := by
      rcases hitems with rfl | ⟨first, rest, rfl, hsc⟩
      · simp only [structuralChildren, inferFirst]
      · cases first <;> simp only [structuralChildren, inferFirst] <;> cases hsc
    rw [hfirst]
    simp only [structuralMetadata]
    rw [finishField_eq, buildField_ok_iff]

/-- Reserved keys do not take part in the loop over the properties. -/
theorem inferProps_visited (cfg : Config) (props : List (Str × Value)) :
    inferProps cfg props = inferProps cfg (visitedProps cfg props) := by
  induction props with
  | nil => rfl
  | cons p ps ih =>
    obtain ⟨key, value⟩ := p
    by_cases hk : cfg.isMetadataKey key = true
    · simp only [visitedProps, List.filter, hk, Bool.not_true, inferProps, if_true]
      exact ih
    · have hk' : cfg.isMetadataKey key = false := by simpa using hk
      simp only [visitedProps, List.filter, hk', Bool.not_false, inferProps, Bool.false_eq_true,
        if_false]
      rw [ih]
      rfl

/-- The loop over the properties emits one descriptor per visited property, in
order. -/
theorem inferProps_ok (cfg : Config) (props : List (Str × Value)) (fields : List Field)
    (h : inferProps cfg props = .ok fields) :
    fields.length = (visitedProps cfg props).length ∧
      ∀ (i : Nat) (p : Str × Value), (visitedProps cfg props)[i]? = some p →
        ∃ f, fields[i]? = some f ∧ inferField cfg p.2 p.1 = .ok f := by
  induction props generalizing fields with
  | nil =>
    simp only [inferProps, Except.ok.injEq] at h
    subst h
    simp [visitedProps]
  | cons p ps ih =>
    obtain ⟨key, value⟩ := p
    by_cases hk : cfg.isMetadataKey key = true
    · simp only [inferProps, hk, if_true] at h
      have hv : visitedProps cfg ((key, value) :: ps) = visitedProps cfg ps := by
        simp [visitedProps, List.filter, hk]
      rw [hv]
      exact ih fields h
    · have hk' : cfg.isMetadataKey key = false := by simpa using hk
      simp only [inferProps, hk', Bool.false_eq_true, if_false] at h
      cases hf : inferField cfg value key with
      | error err => rw [hf] at h; cases h
      | ok field =>
        rw [hf] at h
        cases hr : inferProps cfg ps with
        | error err => rw [hr] at h; cases h
        | ok rest =>
          rw [hr] at h
          simp only [Except.ok.injEq] at h
          subst h
          obtain ⟨hlen, hget⟩ := ih rest hr
          have hv : visitedProps cfg ((key, value) :: ps) = (key, value) :: visitedProps cfg ps := by
            simp [visitedProps, List.filter, hk']
          rw [hv]
          refine ⟨by simp [hlen], ?_⟩
          intro i p hp
          cases i with
          | zero =>
            simp only [List.getElem?_cons_zero, Option.some.injEq] at hp
            subst hp
            exact ⟨field, List.getElem?_cons_zero, hf⟩
          | succ i =>
            simp only [List.getElem?_cons_succ] at hp ⊢
            exact hget i p hp

/-- C10. When `inferRelayFieldsFromData` succeeds on a record it returns one
descriptor per own key that is not a reserved metadata key, in enumeration
order: the result is as long as the list of such keys, its i-th descriptor is
what `inferField` returns for the i-th such key and its value, and the record
without its reserved keys gives the same result. -/
theorem inferRelayFieldsFromData_fields (cfg : Config) (props : List (Str × Value))
    (fields : List Field) (h : inferRelayFieldsFromData cfg (.obj props) = .ok fields) :
    fields.length = (visitedProps cfg props).length ∧
      (∀ (i : Nat) (p : Str × Value), (visitedProps cfg props)[i]? = some p →
        ∃ f, fields[i]? = some f ∧ inferField cfg p.2 p.1 = .ok f) ∧
      inferRelayFieldsFromData cfg (.obj (visitedProps cfg props)) = .ok fields := by
  simp only [inferRelayFieldsFromData] at h ⊢
  obtain ⟨h₁, h₂⟩ := inferProps_ok cfg props fields h
  exact ⟨h₁, h₂, by rw [← inferProps_visited]; exact h⟩

namespace JSON

/-- A failure is not a result. -/
theorem fail_ne_ok {α : Type} (rest : Str) (a : α) : (fail rest : Except SyntaxError α) ≠ .ok a := by
  cases rest <;> simp [fail]

/-- Skipping white space in front of a longer text. -/
theorem skipWs_append (s t : Str) (d : Char) (ds : Str) (h : skipWs s = d :: ds) :
    skipWs (s ++ t) = d :: (ds ++ t) := by
  induction s with
  | nil => simp [skipWs] at h
  | cons c cs ih =>
    by_cases hc : isWs c = true
    · simp only [skipWs, hc, if_true, List.cons_append] at h ⊢
      exact ih h
    · simp only [skipWs, hc, if_false, List.cons_append, Bool.false_eq_true] at h ⊢
      cases h; rfl

/-- Skipping white space that is all of the text, in front of a longer text. -/
theorem skipWs_append_nil (s t : Str) (h : skipWs s = []) : skipWs (s ++ t) = skipWs t := by
  induction s with
  | nil => rfl
  | cons c cs ih =>
    by_cases hc : isWs c = true
    · simp only [skipWs, hc, if_true, List.cons_append] at h ⊢
      exact ih h
    · simp [skipWs, hc] at h

/-- Reading a string literal in front of a longer text. -/
theorem parseString_append (t : Str) :
    ∀ (n : Nat) (s str r : Str), s.length ≤ n → parseString s = .ok (str, r) →
      parseString (s ++ t) = .ok (str, r ++ t) := by
  intro n
  induction n with
  | zero =>
    intro s str r hn h
    have : s = [] := List.eq_nil_of_length_eq_zero (Nat.le_zero.mp hn)
    subst this
    simp [parseString] at h
  | succ n ih =>
    intro s str r hn h
    cases s with
    | nil => simp [parseString] at h
    | cons c cs =>
      have hlen : cs.length ≤ n := by simpa using hn
      rw [List.cons_append]
      unfold parseString at h ⊢
      by_cases h1 : c = '"'
      · simp only [h1, if_true, Except.ok.injEq, Prod.mk.injEq] at h ⊢
        obtain ⟨rfl, rfl⟩ := h
        exact ⟨rfl, rfl⟩
      · simp only [h1, if_false] at h ⊢
        by_cases h2 : c = '\\'
        · simp only [h2, if_true] at h ⊢
          cases cs with
          | nil => simp at h
          | cons e es =>
            rw [List.cons_append]
            simp only at h ⊢
            by_cases h3 : e = 'u'
            · simp only [h3, if_true] at h ⊢
              match es, h, hlen with
              | h1 :: h2 :: h3 :: h4 :: rest, h, hlen =>
                simp only [List.cons_append] at h ⊢
                cases hx : hex4 h1 h2 h3 h4 with
                | none => rw [hx] at h; simp at h
                | some x =>
                  rw [hx] at h
                  simp only at h ⊢
                  cases hp : parseString rest with
                  | error err => rw [hp] at h; simp at h
                  | ok p =>
                    obtain ⟨s', r'⟩ := p
                    rw [hp] at h
                    simp only [Except.ok.injEq, Prod.mk.injEq] at h
                    obtain ⟨rfl, rfl⟩ := h
                    rw [ih rest s' r' (by simp at hlen; omega) hp]
              | [], h, _ => simp at h
              | [_], h, _ => simp at h
              | [_, _], h, _ => simp at h
              | [_, _, _], h, _ => simp at h
            · simp only [h3, if_false] at h ⊢
              cases hx : escape e with
              | none => rw [hx] at h; simp at h
              | some x =>
                rw [hx] at h
                simp only at h ⊢
                cases hp : parseString es with
                | error err => rw [hp] at h; simp at h
                | ok p =>
                  obtain ⟨s', r'⟩ := p
                  rw [hp] at h
                  simp only [Except.ok.injEq, Prod.mk.injEq] at h
                  obtain ⟨rfl, rfl⟩ := h
                  rw [ih es s' r' (by simp at hlen; omega) hp]
        · simp only [h2, if_false] at h ⊢
          by_cases h3 : c.toNat < 0x20
          · simp [h3] at h
          · simp only [h3, if_false] at h ⊢
            cases hp : parseString cs with
            | error err => rw [hp] at h; simp at h
            | ok p =>
              obtain ⟨s', r'⟩ := p
              rw [hp] at h
              simp only [Except.ok.injEq, Prod.mk.injEq] at h
              obtain ⟨rfl, rfl⟩ := h
              rw [ih cs s' r' hlen hp]

/-- The digits in front of a text that cannot continue a number. -/
theorem digitsPrefix_append (s t : Str) (ht : Delimited t) :
    digitsPrefix (s ++ t) = ((digitsPrefix s).1, (digitsPrefix s).2 ++ t) := by
  induction s with
  | nil =>
    cases t with
    | nil => rfl
    | cons c r =>
      have hc := (ht c rfl).1
      simp [digitsPrefix, hc]
  | cons c cs ih =>
    rw [List.cons_append]
    by_cases hc : isDigit c = true
    · simp only [digitsPrefix, hc, if_true, ih]
    · simp only [digitsPrefix, hc, if_false, Bool.false_eq_true, List.cons_append]

/-- Reading digits in front of a text that cannot continue a number. -/
theorem parseDigits_append (s t ds r : Str) (ht : Delimited t)
    (h : parseDigits s = .ok (ds, r)) : parseDigits (s ++ t) = .ok (ds, r ++ t) := by
  unfold parseDigits at h ⊢
  rw [digitsPrefix_append s t ht]
  cases hd : digitsPrefix s with
  | mk a b =>
    rw [hd] at h
    cases a with
    | nil => exact absurd h (fail_ne_ok _ _)
    | cons x xs =>
      simp only [Except.ok.injEq, Prod.mk.injEq] at h ⊢
      obtain ⟨rfl, rfl⟩ := h
      exact ⟨rfl, rfl⟩

/-- Reading the integer part in front of a text that cannot continue a number. -/
theorem parseInt_append (s t i r : Str) (ht : Delimited t)
    (h : parseInt s = .ok (i, r)) : parseInt (s ++ t) = .ok (i, r ++ t) := by
  cases s with
  | nil => simp [parseInt] at h
  | cons d u =>
    rw [List.cons_append]
    unfold parseInt at h ⊢
    by_cases hd : d = '0'
    · simp only [hd, if_true, Except.ok.injEq, Prod.mk.injEq] at h ⊢
      obtain ⟨rfl, rfl⟩ := h
      exact ⟨rfl, rfl⟩
    · simp only [hd, if_false] at h ⊢
      exact parseDigits_append (d :: u) t i r ht h

/-- Reading the fraction in front of a text that cannot continue a number. -/
theorem parseFrac_append (s t f r : Str) (ht : Delimited t)
    (h : parseFrac s = .ok (f, r)) : parseFrac (s ++ t) = .ok (f, r ++ t) := by
  cases s with
  | nil =>
    simp only [parseFrac, Except.ok.injEq, Prod.mk.injEq] at h
    obtain ⟨rfl, rfl⟩ := h
    cases t with
    | nil => rfl
    | cons c r =>
      have hc := (ht c rfl).2.1
      simp [parseFrac, hc]
  | cons c u =>
    rw [List.cons_append]
    unfold parseFrac at h ⊢
    by_cases hc : c = '.'
    · simp only [hc, if_true] at h ⊢
      cases hp : parseDigits u with
      | error err => rw [hp] at h; simp at h
      | ok p =>
        obtain ⟨ds, r'⟩ := p
        rw [hp] at h
        simp only [Except.ok.injEq, Prod.mk.injEq] at h
        obtain ⟨rfl, rfl⟩ := h
        rw [parseDigits_append u t ds r' ht hp]
    · simp only [hc, if_false, Except.ok.injEq, Prod.mk.injEq] at h ⊢
      obtain ⟨rfl, rfl⟩ := h
      exact ⟨rfl, rfl⟩

/-- Reading the exponent in front of a text that cannot continue a number. -/
theorem parseExp_append (s t e r : Str) (ht : Delimited t)
    (h : parseExp s = .ok (e, r)) : parseExp (s ++ t) = .ok (e, r ++ t) := by
  cases s with
  | nil =>
    simp only [parseExp, Except.ok.injEq, Prod.mk.injEq] at h
    obtain ⟨rfl, rfl⟩ := h
    cases t with
    | nil => rfl
    | cons c r =>
      have hc := (ht c rfl).2.2
      simp [parseExp, hc.1, hc.2]
  | cons c u =>
    rw [List.cons_append]
    unfold parseExp at h ⊢
    by_cases hc : c = 'e' ∨ c = 'E'
    · simp only [hc, if_true] at h ⊢
      cases u with
      | nil => simp at h
      | cons g w =>
        rw [List.cons_append]
        simp only at h ⊢
        by_cases hg : g = '+' ∨ g = '-'
        · simp only [hg, if_true] at h ⊢
          cases hp : parseDigits w with
          | error err => rw [hp] at h; simp at h
          | ok p =>
            obtain ⟨ds, r'⟩ := p
            rw [hp] at h
            simp only [Except.ok.injEq, Prod.mk.injEq] at h
            obtain ⟨rfl, rfl⟩ := h
            rw [parseDigits_append w t ds r' ht hp]
        · simp only [hg, if_false] at h ⊢
          cases hp : parseDigits (g :: w) with
          | error err => rw [hp] at h; simp at h
          | ok p =>
            obtain ⟨ds, r'⟩ := p
            rw [hp] at h
            simp only [Except.ok.injEq, Prod.mk.injEq] at h
            obtain ⟨rfl, rfl⟩ := h
            have := parseDigits_append (g :: w) t ds r' ht hp
            rw [List.cons_append] at this
            rw [this]
    · simp only [hc, if_false, Except.ok.injEq, Prod.mk.injEq] at h ⊢
      obtain ⟨rfl, rfl⟩ := h
      exact ⟨rfl, rfl⟩

/-- Reading a number in front of a text that cannot continue it. -/
theorem parseNumber_append (c : Char) (cs t lit r : Str) (ht : Delimited t)
    (h : parseNumber (c :: cs) = .ok (lit, r)) :
    parseNumber (c :: (cs ++ t)) = .ok (lit, r ++ t) := by
  unfold parseNumber at h ⊢
  simp only at h ⊢
  by_cases hc : c = '-'
  · simp only [hc, if_true] at h ⊢
    cases h1 : parseInt cs with
    | error err => rw [h1] at h; simp at h
    | ok p1 =>
      obtain ⟨i, r₁⟩ := p1
      rw [h1] at h
      rw [parseInt_append cs t i r₁ ht h1]
      simp only at h ⊢
      cases h2 : parseFrac r₁ with
      | error err => rw [h2] at h; simp at h
      | ok p2 =>
        obtain ⟨f, r₂⟩ := p2
        rw [h2] at h
        rw [parseFrac_append r₁ t f r₂ ht h2]
        simp only at h ⊢
        cases h3 : parseExp r₂ with
        | error err => rw [h3] at h; simp at h
        | ok p3 =>
          obtain ⟨e, r₃⟩ := p3
          rw [h3] at h
          rw [parseExp_append r₂ t e r₃ ht h3]
          simp only [Except.ok.injEq, Prod.mk.injEq] at h ⊢
          obtain ⟨rfl, rfl⟩ := h
          exact ⟨rfl, rfl⟩
  · simp only [hc, if_false] at h ⊢
    cases h1 : parseInt (c :: cs) with
    | error err => rw [h1] at h; simp at h
    | ok p1 =>
      obtain ⟨i, r₁⟩ := p1
      rw [h1] at h
      have h1' := parseInt_append (c :: cs) t i r₁ ht h1
      rw [List.cons_append] at h1'
      rw [h1']
      simp only at h ⊢
      cases h2 : parseFrac r₁ with
      | error err => rw [h2] at h; simp at h
      | ok p2 =>
        obtain ⟨f, r₂⟩ := p2
        rw [h2] at h
        rw [parseFrac_append r₁ t f r₂ ht h2]
        simp only at h ⊢
        cases h3 : parseExp r₂ with
        | error err => rw [h3] at h; simp at h
        | ok p3 =>
          obtain ⟨e, r₃⟩ := p3
          rw [h3] at h
          rw [parseExp_append r₂ t e r₃ ht h3]
          simp only [Except.ok.injEq, Prod.mk.injEq] at h ⊢
          obtain ⟨rfl, rfl⟩ := h
          exact ⟨rfl, rfl⟩

/-- Reading a keyword in front of a longer text. -/
theorem parseKeyword_append (kw : Str) (v w : Value) (s t r : Str)
    (h : parseKeyword kw v s = .ok (w, r)) :
    parseKeyword kw v (s ++ t) = .ok (w, r ++ t) := by
  unfold parseKeyword at h ⊢
  by_cases hp : kw.isPrefixOf s = true
  · have hp' : kw <+: s := List.isPrefixOf_iff_prefix.1 hp
    have hp2 : kw.isPrefixOf (s ++ t) = true :=
      List.isPrefixOf_iff_prefix.2 (hp'.trans (List.prefix_append s t))
    simp only [hp, hp2, if_true, Except.ok.injEq, Prod.mk.injEq] at h ⊢
    obtain ⟨rfl, rfl⟩ := h
    refine ⟨rfl, ?_⟩
    obtain ⟨u, rfl⟩ := hp'
    simp
  · simp only [hp, if_false, Bool.false_eq_true] at h
    exact absurd h (fail_ne_ok _ _)

/-- No value starts at the end of the text. -/
theorem parseValue_nil (n : Nat) (p : Value × Str) : parseValue n [] ≠ .ok p := by
  cases n <;> simp [parseValue, fail]

/-- No member starts at the end of the text. -/
theorem parseMembers_nil (n : Nat) (acc : List (Str × Value)) (p : Value × Str) :
    parseMembers n acc [] ≠ .ok p := by
  cases n <;> simp [parseMembers, fail]

/-- No element starts at the end of the text. -/
theorem parseElements_nil (n : Nat) (acc : List Value) (p : Value × Str) :
    parseElements n acc [] ≠ .ok p := by
  cases n with
  | zero => simp [parseElements, fail]
  | succ n =>
    simp only [parseElements]
    cases h : parseValue n [] with
    | error err => simp
    | ok q => exact absurd h (parseValue_nil n q)

/-- Skipping white space in front of a longer text, when something is left. -/
theorem skipWs_append_of_ne (s t : Str) (h : skipWs s ≠ []) :
    skipWs (s ++ t) = skipWs s ++ t := by
  cases hs : skipWs s with
  | nil => exact absurd hs h
  | cons d ds => rw [skipWs_append s t d ds hs]; rfl

/-- A successful parse is not affected by more fuel nor by text added after the
input, as long as that text cannot continue a number. -/
theorem parse_append (t : Str) (ht : Delimited t) : ∀ n : Nat,
    (∀ s v r m, parseValue n s = .ok (v, r) → n ≤ m →
      parseValue m (s ++ t) = .ok (v, r ++ t)) ∧
    (∀ acc s v r m, parseMembers n acc s = .ok (v, r) → n ≤ m →
      parseMembers m acc (s ++ t) = .ok (v, r ++ t)) ∧
    (∀ acc s v r m, parseElements n acc s = .ok (v, r) → n ≤ m →
      parseElements m acc (s ++ t) = .ok (v, r ++ t)) := by
  intro n
  induction n with
  | zero =>
    refine ⟨?_, ?_, ?_⟩
    · intro s v r m h _
      simp only [parseValue] at h
      exact absurd h (fail_ne_ok _ _)
    · intro acc s v r m h _
      simp only [parseMembers] at h
      exact absurd h (fail_ne_ok _ _)
    · intro acc s v r m h _
      simp only [parseElements] at h
      exact absurd h (fail_ne_ok _ _)
  | succ n ih =>
    obtain ⟨ihV, ihM, ihE⟩ := ih
    refine ⟨?_, ?_, ?_⟩
    · intro s v r m h hm
      obtain ⟨m, rfl⟩ : ∃ k, m = k + 1 := ⟨m - 1, by omega⟩
      have hnm : n ≤ m := by omega
      cases s with
      | nil => exact absurd h (parseValue_nil _ _)
      | cons c cs =>
        rw [List.cons_append]
        simp only [parseValue] at h ⊢
        by_cases h1 : c = '{'
        · simp only [h1, if_true] at h ⊢
          cases hs : skipWs cs with
          | nil => rw [hs] at h; simp at h
          | cons d ds =>
            rw [hs] at h
            rw [skipWs_append cs t d ds hs]
            simp only at h ⊢
            by_cases h2 : d = '}'
            · simp only [h2, if_true, Except.ok.injEq, Prod.mk.injEq] at h ⊢
              obtain ⟨rfl, rfl⟩ := h
              exact ⟨rfl, rfl⟩
            · simp only [h2, if_false] at h ⊢
              exact ihM [] (d :: ds) v r m h hnm
        · simp only [h1, if_false] at h ⊢
          by_cases h2 : c = '['
          · simp only [h2, if_true] at h ⊢
            cases hs : skipWs cs with
            | nil => rw [hs] at h; simp at h
            | cons d ds =>
              rw [hs] at h
              rw [skipWs_append cs t d ds hs]
              simp only at h ⊢
              by_cases h3 : d = ']'
              · simp only [h3, if_true, Except.ok.injEq, Prod.mk.injEq] at h ⊢
                obtain ⟨rfl, rfl⟩ := h
                exact ⟨rfl, rfl⟩
              · simp only [h3, if_false] at h ⊢
                exact ihE [] (d :: ds) v r m h hnm
          · simp only [h2, if_false] at h ⊢
            by_cases h3 : c = '"'
            · simp only [h3, if_true] at h ⊢
              cases hp : parseString cs with
              | error err => rw [hp] at h; simp at h
              | ok p =>
                obtain ⟨str, r'⟩ := p
                rw [hp] at h
                rw [parseString_append t cs.length cs str r' (Nat.le_refl _) hp]
                simp only [Except.ok.injEq, Prod.mk.injEq] at h ⊢
                obtain ⟨rfl, rfl⟩ := h
                exact ⟨rfl, rfl⟩
            · simp only [h3, if_false] at h ⊢
              by_cases h4 : c = '-' ∨ isDigit c = true
              · simp only [h4, if_true] at h ⊢
                cases hp : parseNumber (c :: cs) with
                | error err => rw [hp] at h; simp at h
                | ok p =>
                  obtain ⟨lit, r'⟩ := p
                  rw [hp] at h
                  rw [parseNumber_append c cs t lit r' ht hp]
                  simp only [Except.ok.injEq, Prod.mk.injEq] at h ⊢
                  obtain ⟨rfl, rfl⟩ := h
                  exact ⟨rfl, rfl⟩
              · simp only [h4, if_false] at h ⊢
                by_cases h5 : c = 't'
                · simp only [h5, if_true] at h ⊢
                  exact parseKeyword_append _ _ _ _ t _ h
                · simp only [h5, if_false] at h ⊢
                  by_cases h6 : c = 'f'
                  · simp only [h6, if_true] at h ⊢
                    exact parseKeyword_append _ _ _ _ t _ h
                  · simp only [h6, if_false] at h ⊢
                    by_cases h7 : c = 'n'
                    · simp only [h7, if_true] at h ⊢
                      exact parseKeyword_append _ _ _ _ t _ h
                    · simp [h7] at h
    · intro acc s v r m h hm
      obtain ⟨m, rfl⟩ : ∃ k, m = k + 1 := ⟨m - 1, by omega⟩
      have hnm : n ≤ m := by omega
      cases s with
      | nil => exact absurd h (parseMembers_nil _ _ _)
      | cons c cs =>
        rw [List.cons_append]
        simp only [parseMembers] at h ⊢
        by_cases h1 : c = '"'
        · simp only [h1, if_true] at h ⊢
          cases hp : parseString cs with
          | error err => rw [hp] at h; simp at h
          | ok p =>
            obtain ⟨k, r₁⟩ := p
            rw [hp] at h
            rw [parseString_append t cs.length cs k r₁ (Nat.le_refl _) hp]
            simp only at h ⊢
            cases hs : skipWs r₁ with
            | nil => rw [hs] at h; simp at h
            | cons d ds =>
              rw [hs] at h
              rw [skipWs_append r₁ t d ds hs]
              simp only at h ⊢
              by_cases h2 : d = ':'
              · simp only [h2, if_true] at h ⊢
                cases hv : parseValue n (skipWs ds) with
                | error err => rw [hv] at h; simp at h
                | ok q =>
                  obtain ⟨w, r₂⟩ := q
                  rw [hv] at h
                  have hne : skipWs ds ≠ [] := by
                    intro e; rw [e] at hv; exact parseValue_nil _ _ hv
                  rw [skipWs_append_of_ne ds t hne, ihV (skipWs ds) w r₂ m hv hnm]
                  simp only at h ⊢
                  cases hs₂ : skipWs r₂ with
                  | nil => rw [hs₂] at h; simp at h
                  | cons e es =>
                    rw [hs₂] at h
                    rw [skipWs_append r₂ t e es hs₂]
                    simp only at h ⊢
                    by_cases h3 : e = ','
                    · simp only [h3, if_true] at h ⊢
                      have hne₂ : skipWs es ≠ [] := by
                        intro e'; rw [e'] at h; exact parseMembers_nil _ _ _ h
                      rw [skipWs_append_of_ne es t hne₂]
                      exact ihM _ _ v r m h hnm
                    · simp only [h3, if_false] at h ⊢
                      by_cases h4 : e = '}'
                      · simp only [h4, if_true, Except.ok.injEq, Prod.mk.injEq] at h ⊢
                        obtain ⟨rfl, rfl⟩ := h
                        exact ⟨rfl, rfl⟩
                      · simp [h4] at h
              · simp [h2] at h
        · simp [h1] at h
    · intro acc s v r m h hm
      obtain ⟨m, rfl⟩ : ∃ k, m = k + 1 := ⟨m - 1, by omega⟩
      have hnm : n ≤ m := by omega
      simp only [parseElements] at h ⊢
      cases hv : parseValue n s with
      | error err => rw [hv] at h; simp at h
      | ok q =>
        obtain ⟨w, r₂⟩ := q
        rw [hv] at h
        rw [ihV s w r₂ m hv hnm]
        simp only at h ⊢
        cases hs₂ : skipWs r₂ with
        | nil => rw [hs₂] at h; simp at h
        | cons e es =>
          rw [hs₂] at h
          rw [skipWs_append r₂ t e es hs₂]
          simp only at h ⊢
          by_cases h3 : e = ','
          · simp only [h3, if_true] at h ⊢
            have hne₂ : skipWs es ≠ [] := by
              intro e'; rw [e'] at h; exact parseElements_nil _ _ _ h
            rw [skipWs_append_of_ne es t hne₂]
            exact ihE _ _ v r m h hnm
          · simp only [h3, if_false] at h ⊢
            by_cases h4 : e = ']'
            · simp only [h4, if_true, Except.ok.injEq, Prod.mk.injEq] at h ⊢
              obtain ⟨rfl, rfl⟩ := h
              exact ⟨rfl, rfl⟩
            · simp [h4] at h

end JSON

/-- The code points that bound the word characters. -/
theorem word_bounds : 'a'.toNat = 97 ∧ 'z'.toNat = 122 ∧ 'A'.toNat = 65 ∧ 'Z'.toNat = 90 ∧
    '0'.toNat = 48 ∧ '9'.toNat = 57 ∧ '_'.toNat = 95 :=
  ⟨rfl, rfl, rfl, rfl, rfl, rfl, rfl⟩

/-- A word character has a code point between 48 and 122. -/
theorem isWordChar_range (c : Char) (h : isWordChar c = true) :
    48 ≤ c.toNat ∧ c.toNat ≤ 122 := by
  simp only [isWordChar, Bool.or_eq_true, Bool.and_eq_true, decide_eq_true_eq, beq_iff_eq] at h
  obtain ⟨e1, e2, e3, e4, e5, e6, e7⟩ := word_bounds
  rw [e1, e2, e3, e4, e5, e6, e7] at h
  omega

/-- White space is not a word character. -/
theorem isSpace_not_word (c : Char) (h₁ : isSpaceChar c = true) (h₂ : isWordChar c = true) :
    False := by
  simp only [isWordChar, isSpaceChar, isLineTerminator, Bool.or_eq_true, Bool.and_eq_true,
    decide_eq_true_eq, beq_iff_eq] at h₁ h₂
  obtain ⟨e1, e2, e3, e4, e5, e6, e7⟩ := word_bounds
  rw [e1, e2, e3, e4, e5, e6, e7] at h₂
  omega

/-- Membership in the result of a lookahead. -/
theorem mem_run_ahead (r : Regex) (s t : MState) :
    t ∈ (Regex.ahead r).run s ↔
      ∃ u, (r.run s).head? = some u ∧ t = { s with cap1 := u.cap1, cap2 := u.cap2 } := by
  simp only [Regex.run]
  cases r.run s with
  | nil => simp
  | cons u us => simp

/-- The lookahead `(?=\s*:)` holds in front of a colon. -/
theorem colonAhead_run (s : MState) (v : Str) (h : s.rest = ':' :: v) :
    (Regex.ahead (.seq (.star false (.cls isSpaceChar)) (.chr ':'))).run s = [s] := by
  have hmem : ∀ u, u ∈ (Regex.seq (.star false (.cls isSpaceChar)) (.chr ':')).run s →
      u.cap1 = s.cap1 ∧ u.cap2 = s.cap2 := by
    intro u hu
    obtain ⟨m, hm, hu⟩ := (mem_run_seq _ _ _ _).1 hu
    obtain ⟨pre, r, _, _, rfl⟩ := (mem_run_star_cls _ _ _ _).1 hm
    obtain ⟨xs, _, rfl⟩ := (mem_run_chr _ _ _).1 hu
    exact ⟨rfl, rfl⟩
  have hex : ⟨s.pos + 0 + 1, v, s.cap1, s.cap2⟩ ∈
      (Regex.seq (.star false (.cls isSpaceChar)) (.chr ':')).run s := by
    refine (mem_run_seq _ _ _ _).2 ⟨⟨s.pos + 0, ':' :: v, s.cap1, s.cap2⟩, ?_, ?_⟩
    · exact (mem_run_star_cls _ _ _ _).2 ⟨[], ':' :: v, by simp [h], by simp, rfl⟩
    · exact (mem_run_chr _ _ _).2 ⟨v, rfl, rfl⟩
  show (match (Regex.seq (.star false (.cls isSpaceChar)) (.chr ':')).run s with
    | [] => []
    | t :: _ => [{ s with cap1 := t.cap1, cap2 := t.cap2 }]) = [s]
  cases hrun : (Regex.seq (.star false (.cls isSpaceChar)) (.chr ':')).run s with
  | nil => rw [hrun] at hex; cases hex
  | cons u us =>
    obtain ⟨h1, h2⟩ := hmem u (by rw [hrun]; exact List.mem_cons_self _ _)
    simp only [h1, h2]

/-- The lookahead `(?=\s*:)` fails in front of a word character. -/
theorem colonAhead_run_word (s : MState) (c : Char) (cs : Str) (h : s.rest = c :: cs)
    (hc : isWordChar c = true) :
    (Regex.ahead (.seq (.star false (.cls isSpaceChar)) (.chr ':'))).run s = [] := by
  have hmem : ∀ u, u ∉ (Regex.seq (.star false (.cls isSpaceChar)) (.chr ':')).run s := by
    intro u hu
    obtain ⟨m, hm, hu⟩ := (mem_run_seq _ _ _ _).1 hu
    obtain ⟨pre, r, hpre, hsp, rfl⟩ := (mem_run_star_cls _ _ _ _).1 hm
    obtain ⟨xs, hxs, rfl⟩ := (mem_run_chr _ _ _).1 hu
    simp only at hxs
    subst hxs
    rw [h] at hpre
    cases pre with
    | nil =>
      simp only [List.nil_append, List.cons.injEq] at hpre
      rw [hpre.1] at hc
      revert hc; decide
    | cons x xs' =>
      simp only [List.cons_append, List.cons.injEq] at hpre
      have hx := hsp x (List.mem_cons_self _ _)
      rw [← hpre.1] at hx
      exact isSpace_not_word c hx hc
  apply List.eq_nil_iff_forall_not_mem.2
  intro t ht
  obtain ⟨u, hu, _⟩ := (mem_run_ahead _ _ _).1 ht
  exact hmem u (List.mem_of_mem_head? hu)

/-- A match at index 0 is the leftmost match. -/
theorem search_zero (r : Regex) (s : Str) (t : MState)
    (h : (r.run ⟨0, s, none, none⟩).head? = some t) : r.search 0 s = some (0, t) := by
  cases s with
  | nil => simp [Regex.search, h]
  | cons c cs => simp [Regex.search, h]

/-- In `name:value`, the pattern `ARGUMENT_NAME` matches the name, at index 0. -/
theorem ARGUMENT_NAME_search (a v : Str) (ha : isWord a) :
    ∃ t, ARGUMENT_NAME.search 0 (a ++ ':' :: v) = some (0, t) ∧ t.cap1 = some a ∧
      t.rest = ':' :: v := by
  obtain ⟨hne, hall⟩ := ha
  have hw : ∀ c ∈ a, isWordChar c = true := by simpa [List.all_eq_true] using hall
  have hmem : ∀ t, t ∈ ARGUMENT_NAME.run ⟨0, a ++ ':' :: v, none, none⟩ →
      t.cap1 = some a ∧ t.rest = ':' :: v := by
    intro t ht
    unfold ARGUMENT_NAME at ht
    obtain ⟨m, hm, ht⟩ := (mem_run_seq _ _ _ _).1 ht
    obtain ⟨w, r, hwne, hsplit, hw', rfl⟩ := (mem_run_group_word _ _).1 hm
    simp only at hsplit
    cases r with
    | nil =>
      exfalso
      have : ([] : Str) ≠ [] := by
        have h2 := congrArg List.length hsplit
        obtain ⟨h3, h4⟩ := prefix_unique isWordChar a w (':' :: v) [] hw hw'
          (by intro c hc; simp only [List.head?_cons, Option.some.injEq] at hc; subst hc; decide)
          (head_nil_not _) hsplit
        cases h4
      exact this rfl
    | cons x xs =>
      by_cases hx : isWordChar x = true
      · rw [colonAhead_run_word _ x xs rfl hx] at ht
        cases ht
      · obtain ⟨h3, h4⟩ := prefix_unique isWordChar a w (':' :: v) (x :: xs) hw hw'
          (by intro c hc; simp only [List.head?_cons, Option.some.injEq] at hc; subst hc; decide)
          (by intro c hc; simp only [List.head?_cons, Option.some.injEq] at hc; subst hc
              simpa using hx) hsplit
        subst h3
        rw [← h4] at ht
        rw [colonAhead_run _ v rfl] at ht
        simp only [List.mem_singleton] at ht
        subst ht
        exact ⟨rfl, rfl⟩
  have hex : ⟨0 + a.length, ':' :: v, some a, none⟩ ∈
      ARGUMENT_NAME.run ⟨0, a ++ ':' :: v, none, none⟩ := by
    unfold ARGUMENT_NAME
    refine (mem_run_seq _ _ _ _).2 ⟨⟨0 + a.length, ':' :: v, some a, none⟩, ?_, ?_⟩
    · exact (mem_run_group_word _ _).2 ⟨a, _, hne, rfl, hw, rfl⟩
    · rw [colonAhead_run _ v rfl]; exact List.mem_singleton_self _
  cases hrun : ARGUMENT_NAME.run ⟨0, a ++ ':' :: v, none, none⟩ with
  | nil => rw [hrun] at hex; cases hex
  | cons t ts =>
    have ht := hmem t (by rw [hrun]; exact List.mem_cons_self _ _)
    exact ⟨t, search_zero _ _ _ (by rw [hrun]; rfl), ht.1, ht.2⟩

/-- The rewrite of `name:value` puts the name between double quotes. -/
theorem replaceQuoted_name (a v : Str) (ha : isWord a) :
    ARGUMENT_NAME.replaceQuoted (a ++ ':' :: v) = '"' :: (a ++ '"' :: ':' :: v) := by
  obtain ⟨t, hs, h1, h2⟩ := ARGUMENT_NAME_search a v ha
  unfold Regex.replaceQuoted
  rw [hs]
  simp [h1, h2]

namespace JSON

/-- A word between double quotes is read as that word. -/
theorem parseString_word (a rest : Str) (ha : ∀ c ∈ a, isWordChar c = true) :
    parseString (a ++ '"' :: rest) = .ok (a, rest) := by
  induction a with
  | nil =>
    show parseString ('"' :: rest) = _
    unfold parseString
    simp
  | cons c cs ih =>
    have hc := isWordChar_range c (ha c (List.mem_cons_self _ _))
    have h1 : c ≠ '"' := by
      rintro rfl
      have : ('"' : Char).toNat = 34 := rfl
      omega
    have h2 : c ≠ '\\' := by
      rintro rfl
      exact absurd (ha _ (List.mem_cons_self _ _)) (by decide)
    have h3 : ¬ c.toNat < 0x20 := by omega
    rw [List.cons_append]
    unfold parseString
    simp only [h1, h2, h3, if_false]
    rw [ih (fun x hx => ha x (List.mem_cons_of_mem _ hx))]

/-- A closing brace cannot continue a number. -/
theorem delimited_brace : Delimited ['}'] := by
  intro c hc
  simp only [List.head?_cons, Option.some.injEq] at hc
  subst hc
  decide

/-- A successful `JSON.parse` is a successful `parseValue` that leaves only
white space. -/
theorem parse_ok (text : Str) (value : Value) (h : parse text = .ok value) :
    ∃ r, parseValue (text.length + 1) (skipWs text) = .ok (value, r) ∧ skipWs r = [] := by
  unfold parse at h
  cases hp : parseValue (text.length + 1) (skipWs text) with
  | error err => rw [hp] at h; simp at h
  | ok p =>
    obtain ⟨w, r⟩ := p
    rw [hp] at h
    simp only at h
    cases hs : skipWs r with
    | nil =>
      rw [hs] at h
      simp only [Except.ok.injEq] at h
      subst h
      exact ⟨r, rfl, hs⟩
    | cons c cs => rw [hs] at h; simp at h

/-- The object `{"a":v}` with a word `a` and a JSON text `v` decodes to the
object whose only property is `a`, with the value of `v`. -/
theorem parseValue_single (a v : Str) (value : Value) (ha : ∀ c ∈ a, isWordChar c = true)
    (hv : parse v = .ok value) (n : Nat) (hn : v.length + 3 ≤ n) :
    parseValue n ('{' :: '"' :: (a ++ '"' :: ':' :: (v ++ ['}']))) =
      .ok (.obj [(a, value)], []) := by
  obtain ⟨r, hp, hr⟩ := parse_ok v value hv
  obtain ⟨k, rfl⟩ : ∃ k, n = k + 1 + 1 := ⟨n - 2, by omega⟩
  have hne : skipWs v ≠ [] := by
    intro e; rw [e] at hp; exact parseValue_nil _ _ hp
  have hval := (parse_append ['}'] delimited_brace (v.length + 1)).1 (skipWs v) value r k hp
    (by omega)
  have hdef : defineProp [] a value = [(a, value)] := by
    unfold defineProp
    simp only [hasProp, List.any_nil, Bool.false_eq_true, if_false]
    cases arrayIndex a <;> simp [insertIndex]
  simp only [parseValue]
  simp only [show ¬ ('{' : Char) = '}' from by decide, if_true, if_false,
    skipWs, show isWs '"' = false from by decide, show ¬ ('"' : Char) = '}' from by decide,
    Bool.false_eq_true]
  simp only [parseMembers, if_true, parseString_word a _ ha, skipWs,
    show isWs ':' = false from by decide, Bool.false_eq_true, if_false]
  rw [skipWs_append_of_ne v ['}'] hne, hval]
  simp only [skipWs_append_nil r ['}'] hr, skipWs, show isWs '}' = false from by decide,
    Bool.false_eq_true, if_false, show ¬ ('}' : Char) = ',' from by decide, if_true, hdef]

/-- The text `{"a":v}` decodes to the object whose only property is `a`, with
the value of `v`. -/
theorem parse_single (a v : Str) (value : Value) (ha : ∀ c ∈ a, isWordChar c = true)
    (hv : parse v = .ok value) :
    parse ('{' :: '"' :: (a ++ '"' :: ':' :: (v ++ ['}']))) = .ok (.obj [(a, value)]) := by
  unfold parse
  have hs : skipWs ('{' :: '"' :: (a ++ '"' :: ':' :: (v ++ ['}']))) =
      '{' :: '"' :: (a ++ '"' :: ':' :: (v ++ ['}'])) := by
    simp only [skipWs, show isWs '{' = false from by decide, Bool.false_eq_true, if_false]
  rw [hs, parseValue_single a v value ha hv _ (by simp; omega)]
  rfl

end JSON

/-- The result of `buildField` on a key that matches `ARGUMENTS` with
arguments. -/
theorem buildField_args (key : Str) (children : List Field) (metadata : Option Metadata)
    (c₁ : Option Str) (args : Str) (hmodern : ARGUMENTS.exec key = some (c₁, some args)) :
    buildField key children metadata =
      match JSON.parse (argumentsJSON args) with
      | .ok decoded => .ok (.mk (c₁.getD []) (some (callsOf decoded)) children metadata)
      | .error reason => .error (.MalformedArguments key reason) := by
  have htest := not_legacy_of_modern key _ hmodern
  obtain ⟨w, _, _, hkey⟩ := ARGUMENTS_exec_inv key _ _ hmodern
  rcases hkey with ⟨_, h⟩ | ⟨body, hne, _, _, h⟩
  · cases h
  · cases h
    cases args with
    | nil => exact absurd rfl hne
    | cons c cs =>
      simp only [buildField, htest, hmodern, Bool.false_eq_true, if_false, argumentsJSON,
        callsOf, Field.build, Option.getD_some]

/-- C1, amended. For every modern-dialect key `name(a:v)` with one bare argument
name `a` and a value text `v` without line terminators that `JSON.parse`
decodes, `buildField` succeeds and returns the field name `name` with exactly
one call, named `a` and carrying the decoded value. -/
theorem buildField_single_argument (name a v : Str) (value : Value) (children : List Field)
    (metadata : Option Metadata) (hname : isWord name) (ha : isWord a) (hv : isDotText v)
    (hvalue : JSON.parse v = .ok value) :
    buildField (name ++ '(' :: (a ++ ':' :: v ++ [')'])) children metadata =
      .ok (.mk name (some [{ name := a, value := value }]) children metadata) := by
  have hw : ∀ c ∈ a, isWordChar c = true := by simpa [List.all_eq_true] using ha.2
  have hbody : isDotText (a ++ ':' :: v) := by
    simp only [isDotText, List.all_eq_true] at hv ⊢
    intro c hc
    simp only [List.mem_append, List.mem_cons] at hc
    rcases hc with hc | rfl | hc
    · exact isDotChar_of_isWordChar c (hw c hc)
    · decide
    · exact hv c hc
  have hne : a ++ ':' :: v ≠ [] := by simp
  have hexec := ARGUMENTS_exec_args name (a ++ ':' :: v) hname hne hbody
  rw [buildField_args _ children metadata _ _ hexec]
  have hjson : JSON.parse (argumentsJSON (a ++ ':' :: v)) = .ok (.obj [(a, value)]) := by
    unfold argumentsJSON
    rw [replaceQuoted_name a v ha]
    have := JSON.parse_single a v value hw hvalue
    simpa using this
  rw [hjson]
  simp [callsOf, Object.keys, Value.get]

/-- C5. For every key that matches the modern pattern with an argument text,
`buildField` raises `MalformedArguments`, with the key and the decoder's
reason, exactly when the rewritten argument text between braces fails to decode;
and it returns a descriptor only when the text decodes, the calls being those
of the decoded object. -/
theorem buildField_malformedArguments (key : Str) (c₁ : Option Str) (args : Str)
    (children : List Field) (metadata : Option Metadata)
    (hmodern : ARGUMENTS.exec key = some (c₁, some args)) :
    (∀ reason, buildField key children metadata = .error (.MalformedArguments key reason) ↔
        JSON.parse (argumentsJSON args) = .error reason) ∧
      (∀ field, buildField key children metadata = .ok field ↔
        ∃ decoded, JSON.parse (argumentsJSON args) = .ok decoded ∧
          field = .mk (c₁.getD []) (some (callsOf decoded)) children metadata) := by
  rw [buildField_args key children metadata c₁ args hmodern]
  cases JSON.parse (argumentsJSON args) with
  | error err => simp
  | ok decoded =>
    refine ⟨fun reason => ⟨fun h => (by cases h), fun h => (by cases h)⟩, fun field => ⟨?_, ?_⟩⟩
    · intro h
      cases h
      exact ⟨decoded, rfl, rfl⟩
    · rintro ⟨d, hd, rfl⟩
      cases hd
      rfl

/-- The value stored under a key of a decoded object is found by property
access. -/
theorem get_of_mem_keys (decoded : Value) (name : Str) (h : name ∈ Object.keys decoded) :
    ∃ value, decoded.get name = some value := by
  cases decoded with
  | obj props =>
    simp only [Object.keys, List.mem_map] at h
    obtain ⟨p, hp, rfl⟩ := h
    simp only [Value.get]
    cases hf : props.find? (fun q => q.1 == p.1) with
    | none =>
      have := List.find?_eq_none.1 hf p hp
      simp at this
    | some q => exact ⟨q.2, rfl⟩
  | _ => simp [Object.keys] at h

/-- C6, amended. Every call value produced from a modern-dialect key is the
value that `JSON.parse` decoded for the argument of that name, of whatever kind
(null, boolean, number, string, array or object): the calls are named after the
keys of the decoded object, in order, and each carries the value stored there. -/
theorem modern_call_values (key : Str) (c₁ : Option Str) (args : Str) (children : List Field)
    (metadata : Option Metadata) (field : Field)
    (hmodern : ARGUMENTS.exec key = some (c₁, some args))
    (hfield : buildField key children metadata = .ok field) :
    ∃ decoded calls, JSON.parse (argumentsJSON args) = .ok decoded ∧
      field.calls = some calls ∧ calls.map Call.name = Object.keys decoded ∧
      ∀ c ∈ calls, decoded.get c.name = some c.value := by
  rw [buildField_args key children metadata c₁ args hmodern] at hfield
  cases hp : JSON.parse (argumentsJSON args) with
  | error err => rw [hp] at hfield; cases hfield
  | ok decoded =>
    rw [hp] at hfield
    simp only [Except.ok.injEq] at hfield
    subst hfield
    refine ⟨decoded, callsOf decoded, rfl, rfl, ?_, ?_⟩
    · simp [callsOf, Function.comp_def]
    · intro c hc
      simp only [callsOf, List.mem_map] at hc
      obtain ⟨name, hname, rfl⟩ := hc
      obtain ⟨value, hvalue⟩ := get_of_mem_keys decoded name hname
      simp [hvalue]

set_option maxRecDepth 100000 in
/-- C1 fails at the key of the spec: `friends(orderby:importance,first:10)` is
rejected with `MalformedArguments`, the decoder stopping at the bare word
`importance`. -/
theorem buildField_multi_argument_counterexample :
    buildField "friends(orderby:importance,first:10)".toList [] none =
      .error (.MalformedArguments "friends(orderby:importance,first:10)".toList
        (.unexpectedToken 'i')) := by
  have h₁ : ARGUMENTS.exec "friends(orderby:importance,first:10)".toList =
      some (some "friends".toList, some "orderby:importance,first:10".toList) := by decide
  have h₂ : argumentsJSON "orderby:importance,first:10".toList =
      "\x7b\"orderby\":importance,first:10\x7d".toList := by decide
  have h₃ : JSON.parse "\x7b\"orderby\":importance,first:10\x7d".toList =
      .error (.unexpectedToken 'i') := rfl
  rw [buildField_args _ [] none _ _ h₁, h₂, h₃]

set_option maxRecDepth 100000 in
/-- The rewrite quotes the first bare argument name only (the pattern has no `g`
flag): with JSON values and two bare names, `JSON.parse` stops at the second
name and the key is rejected. -/
theorem buildField_second_bare_name :
    buildField "friends(orderby:\"importance\",first:10)".toList [] none =
      .error (.MalformedArguments "friends(orderby:\"importance\",first:10)".toList
        (.unexpectedToken 'f')) := by
  have h₁ : ARGUMENTS.exec "friends(orderby:\"importance\",first:10)".toList =
      some (some "friends".toList, some "orderby:\"importance\",first:10".toList) := by decide
  have h₂ : argumentsJSON "orderby:\"importance\",first:10".toList =
      "\x7b\"orderby\":\"importance\",first:10\x7d".toList := by decide
  have h₃ : JSON.parse "\x7b\"orderby\":\"importance\",first:10\x7d".toList =
      .error (.unexpectedToken 'f') := rfl
  rw [buildField_args _ [] none _ _ h₁, h₂, h₃]

set_option maxRecDepth 100000 in
/-- C1, amended, at the keys `friends(first:10)` and
`friends(orderby:"importance")`. -/
theorem buildField_single_argument_witness :
    buildField "friends(first:10)".toList [] none =
        .ok (.mk "friends".toList
          (some [{ name := "first".toList, value := .num "10".toList }]) [] none) ∧
      buildField "friends(orderby:\"importance\")".toList [] none =
        .ok (.mk "friends".toList
          (some [{ name := "orderby".toList, value := .str "importance".toList }]) [] none) :=
  ⟨buildField_single_argument "friends".toList "first".toList "10".toList (.num "10".toList)
      [] none (by decide) (by decide) (by decide) rfl,
    buildField_single_argument "friends".toList "orderby".toList "\"importance\"".toList
      (.str "importance".toList) [] none (by decide) (by decide) (by decide) rfl⟩

set_option maxRecDepth 100000 in
/-- C5, at the key `friends(orderby=importance)`: the text `{orderby=importance}`
does not decode, and `MalformedArguments` is raised. -/
theorem buildField_malformedArguments_witness :
    buildField "friends(orderby=importance)".toList [] none =
      .error (.MalformedArguments "friends(orderby=importance)".toList
        (.unexpectedToken 'o')) :=
  ((buildField_malformedArguments "friends(orderby=importance)".toList
      (some "friends".toList) "orderby=importance".toList [] none (by decide)).1
    (.unexpectedToken 'o')).2 (by
      have h : argumentsJSON "orderby=importance".toList = "\x7borderby=importance\x7d".toList := by
        decide
      rw [h]; rfl)

set_option maxRecDepth 100000 in
/-- C6 fails at the key `friends(filter:{"a":1})`: it is not rejected, and the
value of its call is a nested object. -/
theorem nested_object_counterexample :
    buildField "friends(filter:\x7b\"a\":1\x7d)".toList [] none =
      .ok (.mk "friends".toList
        (some [{ name := "filter".toList,
                 value := .obj [("a".toList, .num "1".toList)] }]) [] none) := by
  have h₁ : ARGUMENTS.exec "friends(filter:\x7b\"a\":1\x7d)".toList =
      some (some "friends".toList, some "filter:\x7b\"a\":1\x7d".toList) := by decide
  have h₂ : argumentsJSON "filter:\x7b\"a\":1\x7d".toList = "\x7b\"filter\":\x7b\"a\":1\x7d\x7d".toList := by
    decide
  have h₃ : JSON.parse "\x7b\"filter\":\x7b\"a\":1\x7d\x7d".toList =
      .ok (.obj [("filter".toList, .obj [("a".toList, .num "1".toList)])]) := rfl
  rw [buildField_args _ [] none _ _ h₁, h₂, h₃]
  rfl

set_option maxRecDepth 100000 in
/-- C6, amended, at the key `friends(after:null,first:[1,"a"])` with quoted
names: the calls carry the decoded null and the decoded array. -/
theorem modern_call_values_witness :
    ∃ decoded calls,
      JSON.parse (argumentsJSON "\"after\":null,\"first\":[1,\"a\"]".toList) = .ok decoded ∧
      (Field.mk "friends".toList
          (some [{ name := "after".toList, value := .null },
            { name := "first".toList,
              value := .arr [.num "1".toList, .str "a".toList] }]) [] none).calls =
        some calls ∧
      calls.map Call.name = Object.keys decoded ∧
      ∀ c ∈ calls, decoded.get c.name = some c.value :=
  modern_call_values "friends(\"after\":null,\"first\":[1,\"a\"])".toList
    (some "friends".toList) "\"after\":null,\"first\":[1,\"a\"]".toList [] none _ (by decide) (by
      have h₁ : ARGUMENTS.exec "friends(\"after\":null,\"first\":[1,\"a\"])".toList =
          some (some "friends".toList, some "\"after\":null,\"first\":[1,\"a\"]".toList) := by
        decide
      have h₂ : argumentsJSON "\"after\":null,\"first\":[1,\"a\"]".toList =
          "\x7b\"after\":null,\"first\":[1,\"a\"]\x7d".toList := by decide
      have h₃ : JSON.parse "\x7b\"after\":null,\"first\":[1,\"a\"]\x7d".toList =
          .ok (.obj [("after".toList, .null),
            ("first".toList, .arr [.num "1".toList, .str "a".toList])]) := rfl
      rw [buildField_args _ [] none _ _ h₁, h₂, h₃]
      rfl)

set_option maxRecDepth 100000 in
/-- C2, at the keys `friends.orderby(importance).first(10)` and
`friends.range(1,2)`. -/
theorem buildField_legacy_witness :
    buildField "friends.orderby(importance).first(10)".toList [] none =
        .ok (.mk "friends".toList
          (some [{ name := "orderby".toList, value := .str "importance".toList },
            { name := "first".toList, value := .str "10".toList }]) [] none) ∧
      buildField "friends.range(1,2)".toList [] none =
        .ok (.mk "friends".toList
          (some [{ name := "range".toList,
                   value := .arr [.str "1".toList, .str "2".toList] }]) [] none) :=
  ⟨(buildField_legacy "friends".toList
      [("orderby".toList, "importance".toList), ("first".toList, "10".toList)] [] none
      (by decide) (by decide) (by decide)).2 (by decide),
    (buildField_legacy "friends".toList [("range".toList, "1,2".toList)] [] none
      (by decide) (by decide) (by decide)).2 (by decide)⟩

set_option maxRecDepth 100000 in
/-- C3, at the key `friends`, alone and with the value `[{name: "a"}]` stored at
it. -/
theorem buildField_bare_word_witness :
    buildField "friends".toList [] none = .ok (.mk "friends".toList none [] none) ∧
      ∀ field, inferField exampleConfig (.arr [.obj [("name".toList, .str "a".toList)]])
          "friends".toList = .ok field →
        field.name = "friends".toList ∧ field.calls = none :=
  ⟨(buildField_bare_word "friends".toList [] none (by decide) (by decide)).1,
    fun field => (buildField_bare_word "friends".toList [] none (by decide) (by decide)).2
      exampleConfig _ field⟩

set_option maxRecDepth 100000 in
/-- C4, at the keys `friends.badsegment`, `friends()` and the empty key. -/
theorem buildField_malformedKey_witness :
    buildField "friends.badsegment".toList [] none =
        .error (.MalformedKey "friends.badsegment".toList) ∧
      buildField "friends()".toList [] none = .error (.MalformedKey "friends()".toList) ∧
      buildField [] [] none = .error (.MalformedKey []) :=
  ⟨buildField_malformedKey _ [] none (by decide) (by decide),
    buildField_malformedKey _ [] none (by decide) (by decide),
    buildField_malformedKey _ [] none (by decide) (by decide)⟩

set_option maxRecDepth 100000 in
/-- C7, at the record `{name: "a"}` stored under the key `node`. -/
theorem inferField_node_witness :
    inferField exampleConfig (.obj [("name".toList, .str "a".toList)]) "node".toList =
      .ok (.mk "node".toList none
        [.mk "name".toList none [] none,
          .mk "id".toList none [] (some { plural := false, parentType := some "Node".toList })]
        none) :=
  (inferField_node exampleConfig (.obj [("name".toList, .str "a".toList)]) _).2
    ⟨[.mk "name".toList none [] none], .mk "node".toList none [] none, rfl, rfl, rfl, rfl, rfl⟩

set_option maxRecDepth 100000 in
/-- C8 fails at the key `id` with an array value: the descriptor's metadata is
`{parentType: "Node"}`, without the plural flag. -/
theorem plural_counterexample :
    inferField exampleConfig (.arr [.str "a".toList, .str "b".toList]) "id".toList =
      .ok (.mk "id".toList none []
        (some { plural := false, parentType := some "Node".toList })) := rfl

set_option maxRecDepth 100000 in
/-- C8, amended, at the key `friends` with an empty array as its value. -/
theorem inferField_plural_witness :
    inferField exampleConfig (.arr []) "friends".toList =
        .ok (.mk "friends".toList none [] (some { plural := true, parentType := none })) ∧
      (some ({ plural := true, parentType := none } : Metadata)).map Metadata.plural =
        some true :=
  ⟨rfl, ((inferField_plural exampleConfig (.arr []) "friends".toList
      (.mk "friends".toList none [] (some { plural := true, parentType := none })) rfl).1).2
    ⟨rfl, by decide⟩⟩

set_option maxRecDepth 100000 in
/-- C9, at the key `friends`: a second element, even one with a malformed key,
does not change the result. -/
theorem inferField_array_first_witness :
    inferField exampleConfig (.arr [.obj [("name".toList, .str "a".toList)]]) "friends".toList =
        inferField exampleConfig
          (.arr [.obj [("name".toList, .str "a".toList)], .obj [("a.b".toList, .null)]])
          "friends".toList ∧
      inferField exampleConfig (.arr [.null, .obj [("a.b".toList, .null)]]) "friends".toList =
        .ok (.mk "friends".toList none []
          (some { plural := true, parentType := none })) :=
  ⟨(inferField_array_first exampleConfig "friends".toList).1 _ _ _,
    ((inferField_array_first exampleConfig "friends".toList).2.2
      [.null, .obj [("a.b".toList, .null)]] _ (Or.inr ⟨_, _, rfl, rfl⟩)).2
      ⟨.mk "friends".toList none [] none, rfl, rfl⟩⟩

set_option maxRecDepth 100000 in
/-- C10, at the record `{__dataID__: {"a.b": null}, name: "a", friends: []}`:
two descriptors, for `name` and `friends`, and the reserved key is not
visited. -/
theorem inferRelayFieldsFromData_fields_witness :
    [Field.mk "name".toList none [] none,
        Field.mk "friends".toList none [] (some { plural := true, parentType := none })].length =
        (visitedProps exampleConfig [("__dataID__".toList, .obj [("a.b".toList, .null)]),
          ("name".toList, .str "a".toList), ("friends".toList, .arr [])]).length ∧
      inferRelayFieldsFromData exampleConfig
          (.obj [("name".toList, .str "a".toList), ("friends".toList, .arr [])]) =
        .ok [.mk "name".toList none [] none,
          .mk "friends".toList none [] (some { plural := true, parentType := none })] :=
  have h := inferRelayFieldsFromData_fields exampleConfig
    [("__dataID__".toList, .obj [("a.b".toList, .null)]),
      ("name".toList, .str "a".toList), ("friends".toList, .arr [])]
    [.mk "name".toList none [] none,
      .mk "friends".toList none [] (some { plural := true, parentType := none })] rfl
  ⟨h.1, h.2.2⟩

/-! ## The dialects and the special keys -/

/-- C17. No key matches both the legacy pattern `DEPRECATED_CALLS` and the
modern pattern `ARGUMENTS`, so the classification of a key is the same whichever
pattern is tested first. -/
theorem dialects_exclusive (key : Str) :
    ¬ (DEPRECATED_CALLS.test key = true ∧ (ARGUMENTS.exec key).isSome = true) ∧
      classify key = classifyModernFirst key := by
  have hex : ¬ (DEPRECATED_CALLS.test key = true ∧ (ARGUMENTS.exec key).isSome = true) := by
    rintro ⟨h₁, h₂⟩
    cases hm : ARGUMENTS.exec key with
    | none => rw [hm] at h₂; cases h₂
    | some c =>
      have := not_legacy_of_modern key c hm
      rw [this] at h₁; cases h₁
  refine ⟨hex, ?_⟩
  unfold classify classifyModernFirst
  cases h₁ : DEPRECATED_CALLS.test key <;> cases h₂ : (ARGUMENTS.exec key).isSome
  · rfl
  · rfl
  · rfl
  · exact absurd ⟨h₁, h₂⟩ hex

/-- C18. For the key `EDGES` (a name other than `NODE`) and every value,
`inferField` returns a descriptor exactly when the structural inference of the
value and the decoding of the key succeed, and then its children are the
structurally inferred children followed by one synthetic child named `cursor`,
without calls, children or metadata, and its own metadata is what the structural
step produced: `{plural: true}` for an array, none otherwise. -/
theorem inferField_edges (cfg : Config) (value : Value) (field : Field)
    (hdistinct : cfg.EDGES ≠ cfg.NODE) :
    inferField cfg value cfg.EDGES = .ok field ↔
      ∃ children base, structuralChildren cfg value = .ok children ∧
        buildField cfg.EDGES [] none = .ok base ∧
        field = .mk base.name base.calls
          (children ++ [.mk ['c', 'u', 'r', 's', 'o', 'r'] none [] none])
          (if value.isArray then some { plural := true, parentType := none } else none) := by
  rw [inferField_eq]
  have haug : augmentation cfg cfg.EDGES = [.mk ['c', 'u', 'r', 's', 'o', 'r'] none [] none] := by
    simp [augmentation, hdistinct, cursorField, Field.build]
  have hmeta : ∀ m, finalMetadata cfg cfg.EDGES m = m := by
    intro m; simp [finalMetadata, isIdentityKey]
  have hstruct : structuralMetadata value =
      if value.isArray then some { plural := true, parentType := none } else none := by
    cases value <;> rfl
  cases hs : structuralChildren cfg value with
  | error err =>
    simp only
    constructor
    · intro h; cases h
    · rintro ⟨_, _, h, _⟩; cases h
  | ok children =>
    simp only
    rw [finishField_eq, haug, hmeta, buildField_ok_iff, hstruct]
    constructor
    · rintro ⟨base, hb, rfl⟩
      exact ⟨children, base, rfl, hb, rfl⟩
    · rintro ⟨children', base, hc, hb, rfl⟩
      cases hc
      exact ⟨base, hb, rfl⟩

/-- C19, amended. For the identity key (`ID`, a name other than `NODE` and
`EDGES`) and every value, `inferField` returns a descriptor exactly when the
structural inference and the decoding of the key succeed; its children are
exactly the structurally inferred ones and its metadata is
`{parentType: NODE_TYPE}` alone, whatever the structural step had set.  For a
key that is none of `NODE`, `EDGES`, `ID` the children and the metadata are
exactly those of the structural step. -/
theorem inferField_identity (cfg : Config) (value : Value) (key : Str) (field : Field) :
    (isIdentityKey cfg key →
      (inferField cfg value key = .ok field ↔
        ∃ children base, structuralChildren cfg value = .ok children ∧
          buildField key [] none = .ok base ∧
          field = .mk base.name base.calls children
            (some { plural := false, parentType := some cfg.NODE_TYPE }))) ∧
      (key ≠ cfg.NODE → key ≠ cfg.EDGES → key ≠ cfg.ID →
        (inferField cfg value key = .ok field ↔
          ∃ children base, structuralChildren cfg value = .ok children ∧
            buildField key [] none = .ok base ∧
            field = .mk base.name base.calls children (structuralMetadata value))) := by
  have key_step : ∀ (aug : List Field) (md : Option Metadata),
      augmentation cfg key = aug → finalMetadata cfg key (structuralMetadata value) = md →
      aug = [] →
      (inferField cfg value key = .ok field ↔
        ∃ children base, structuralChildren cfg value = .ok children ∧
          buildField key [] none = .ok base ∧
          field = .mk base.name base.calls children md) := by
    intro aug md haug hmd hnil
    rw [inferField_eq]
    cases hs : structuralChildren cfg value with
    | error err =>
      simp only
      constructor
      · intro h; cases h
      · rintro ⟨_, _, h, _⟩; cases h
    | ok children =>
      simp only
      rw [finishField_eq, haug, hmd, hnil, List.append_nil, buildField_ok_iff]
      constructor
      · rintro ⟨base, hb, rfl⟩
        exact ⟨children, base, rfl, hb, rfl⟩
      · rintro ⟨children', base, hc, hb, rfl⟩
        cases hc
        exact ⟨base, hb, rfl⟩
  constructor
  · intro hid
    apply key_step _ _ rfl
    · simp [finalMetadata, hid]
    · simp [augmentation, hid.2.1, hid.2.2]
  · intro h₁ h₂ h₃
    apply key_step _ _ rfl
    · simp [finalMetadata, isIdentityKey, h₃]
    · simp [augmentation, h₁, h₂]

/-! ## Legacy keys -/

/-- A segment is rejected with `MalformedKey`, carrying the whole key. -/
theorem legacyCall_error (key s : Str) (e : RelayError) (h : legacyCall key s = .error e) :
    e = .MalformedKey key ∧ DEPRECATED_CALL.exec s = none := by
  unfold legacyCall at h
  cases hx : DEPRECATED_CALL.exec s with
  | none =>
    rw [hx] at h
    simp only [Except.error.injEq] at h
    exact ⟨h.symm, rfl⟩
  | some c => rw [hx] at h; cases h

/-- A segment is decoded exactly when `DEPRECATED_CALL` matches it. -/
theorem legacyCall_ok_iff (key s : Str) :
    (∃ call, legacyCall key s = .ok call) ↔ (DEPRECATED_CALL.exec s).isSome = true := by
  unfold legacyCall
  cases DEPRECATED_CALL.exec s with
  | none => simp
  | some c => simp

/-- The segments of a key are decoded together, in order, when the pattern
`DEPRECATED_CALL` matches each of them; otherwise the key is rejected. -/
theorem mapM_legacyCall_cases (key : Str) (parts : List Str) :
    ((∀ s ∈ parts, (DEPRECATED_CALL.exec s).isSome = true) ∧
        ∃ calls, parts.mapM (legacyCall key) = .ok calls ∧
          List.Forall₂ (fun s call => legacyCall key s = .ok call) parts calls) ∨
      ((∃ s ∈ parts, DEPRECATED_CALL.exec s = none) ∧
        parts.mapM (legacyCall key) = .error (.MalformedKey key)) := by
  induction parts with
  | nil => exact Or.inl ⟨by simp, [], rfl, List.Forall₂.nil⟩
  | cons s ss ih =>
    rw [List.mapM_cons]
    cases hs : legacyCall key s with
    | error e =>
      obtain ⟨rfl, hnone⟩ := legacyCall_error key s e hs
      exact Or.inr ⟨⟨s, List.mem_cons_self _ _, hnone⟩, rfl⟩
    | ok call =>
      have hsome := (legacyCall_ok_iff key s).1 ⟨call, hs⟩
      rcases ih with ⟨hall, calls, hm, hf⟩ | ⟨⟨t, ht, hnone⟩, hm⟩
      · refine Or.inl ⟨?_, call :: calls, ?_, List.Forall₂.cons hs hf⟩
        · intro x hx
          rcases List.mem_cons.1 hx with rfl | hx
          · exact hsome
          · exact hall x hx
        · rw [hm]; rfl
      · refine Or.inr ⟨⟨t, List.mem_cons_of_mem _ ht, hnone⟩, ?_⟩
        rw [hm]; rfl

/-- On a key that `DEPRECATED_CALLS` matches, `buildField` takes the word before
the first dot as the field name and decodes the other dot-separated parts. -/
theorem buildField_legacy_eq (key : Str) (children : List Field) (metadata : Option Metadata)
    (hlegacy : DEPRECATED_CALLS.test key = true) :
    ∃ w parts, isWord w ∧ parts ≠ [] ∧ split '.' key = w :: parts ∧
      buildField key children metadata =
        match parts.mapM (legacyCall key) with
        | .ok calls => .ok (.mk w (some calls) children metadata)
        | .error err => .error err := by
  obtain ⟨w, r, hw, hkey⟩ := DEPRECATED_CALLS_test_inv key hlegacy
  have hsplit : split '.' key = w :: split '.' r := by
    rw [hkey, split_append_sep _ _ _ (dot_not_mem_word w hw)]
  cases hr : split '.' r with
  | nil => exact absurd hr (split_ne_nil _ _)
  | cons p ps =>
    rw [hr] at hsplit
    refine ⟨w, p :: ps, hw, by simp, hsplit, ?_⟩
    simp only [buildField, hlegacy, if_true, hsplit, Field.build, Option.getD_some]

/-- The first occurrence of a character splits a text. -/
theorem exists_first (sep : Char) (x : Str) (h : sep ∈ x) :
    ∃ x₁ x₂, x = x₁ ++ sep :: x₂ ∧ sep ∉ x₁ := by
  induction x with
  | nil => cases h
  | cons c cs ih =>
    by_cases hc : c = sep
    · exact ⟨[], cs, by simp [hc], by simp⟩
    · have hcs : sep ∈ cs := by
        rcases List.mem_cons.1 h with e | e
        · exact absurd e.symm hc
        · exact e
      obtain ⟨x₁, x₂, rfl, hx₁⟩ := ih hcs
      refine ⟨c :: x₁, x₂, by simp, ?_⟩
      intro hmem
      rcases List.mem_cons.1 hmem with e | e
      · exact hc e.symm
      · exact hx₁ e

/-- A key that starts with a word and a dot does not match `ARGUMENTS`. -/
theorem ARGUMENTS_exec_dotted (f r : Str) (hf : isWord f) :
    ARGUMENTS.exec (f ++ '.' :: r) = none := by
  cases hm : ARGUMENTS.exec (f ++ '.' :: r) with
  | none => rfl
  | some c =>
    exfalso
    obtain ⟨w, hw, _, hkey⟩ := ARGUMENTS_exec_inv _ c.1 c.2 hm
    have hw1 : ∀ c ∈ w, isWordChar c = true := by simpa [List.all_eq_true] using hw.2
    have hf1 : ∀ c ∈ f, isWordChar c = true := by simpa [List.all_eq_true] using hf.2
    rcases hkey with ⟨hkey, _⟩ | ⟨body, _, _, hkey, _⟩
    · have e : f ++ '.' :: r = w ++ [] := by rw [List.append_nil]; exact hkey
      obtain ⟨_, h2⟩ := prefix_unique isWordChar f w _ _ hf1 hw1 (head_dot_not_word _)
        (head_nil_not _) e
      cases h2
    · obtain ⟨_, h2⟩ := prefix_unique isWordChar f w _ _ hf1 hw1 (head_dot_not_word _)
        (head_paren_not_word _) hkey
      cases h2

/-- C20. A key that matches the legacy pattern is accepted by `buildField`
exactly when `DEPRECATED_CALL` matches every dot-separated part after the first,
and is rejected with `MalformedKey`, carrying the key, otherwise.  Since the key
is split on every dot, a key `f.c(x)` whose argument `x` has a dot and no closing
parenthesis is rejected with `MalformedKey`, carrying the key. -/
theorem legacy_key_accepted_iff :
    (∀ (key : Str) (children : List Field) (metadata : Option Metadata),
        DEPRECATED_CALLS.test key = true →
        ((∃ field, buildField key children metadata = .ok field) ↔
            ∀ part ∈ (split '.' key).tail, (DEPRECATED_CALL.exec part).isSome = true) ∧
          ((∃ part ∈ (split '.' key).tail, DEPRECATED_CALL.exec part = none) →
            buildField key children metadata = .error (.MalformedKey key))) ∧
      (∀ (f c x : Str) (children : List Field) (metadata : Option Metadata),
        isWord f → isWord c → '.' ∈ x → ')' ∉ x →
        buildField (dottedKey f c x) children metadata =
          .error (.MalformedKey (dottedKey f c x))) := by
  constructor
  · intro key children metadata hlegacy
    obtain ⟨w, parts, _, _, hsplit, hb⟩ := buildField_legacy_eq key children metadata hlegacy
    rw [hsplit, List.tail_cons, hb]
    rcases mapM_legacyCall_cases key parts with ⟨hall, calls, hm, _⟩ | ⟨⟨s, hs, hnone⟩, hm⟩
    · rw [hm]
      refine ⟨⟨fun _ => hall, fun _ => ⟨_, rfl⟩⟩, ?_⟩
      rintro ⟨part, hp, hnone⟩
      have := hall part hp
      rw [hnone] at this; cases this
    · rw [hm]
      refine ⟨⟨?_, ?_⟩, fun _ => rfl⟩
      · rintro ⟨field, h⟩; cases h
      · intro hall
        have := hall s hs
        rw [hnone] at this; cases this
  · intro f c x children metadata hf hc hdot hparen
    cases htest : DEPRECATED_CALLS.test (dottedKey f c x) with
    | false =>
      exact buildField_unmatched _ _ _ htest (ARGUMENTS_exec_dotted f _ hf)
    | true =>
      obtain ⟨w, parts, _, _, hsplit, hb⟩ :=
        buildField_legacy_eq (dottedKey f c x) children metadata htest
      obtain ⟨x₁, x₂, rfl, hx₁⟩ := exists_first '.' x hdot
      have hkey : dottedKey f c (x₁ ++ '.' :: x₂) =
          f ++ '.' :: ((c ++ '(' :: x₁) ++ '.' :: (x₂ ++ [')'])) := by
        simp [dottedKey]
      have hp₁ : '.' ∉ c ++ '(' :: x₁ := by
        intro hmem
        simp only [List.mem_append, List.mem_cons] at hmem
        rcases hmem with h | h | h
        · exact dot_not_mem_word c hc h
        · revert h; decide
        · exact hx₁ h
      have hsplit' : split '.' (dottedKey f c (x₁ ++ '.' :: x₂)) =
          f :: (c ++ '(' :: x₁) :: split '.' (x₂ ++ [')']) := by
        rw [hkey, split_append_sep _ _ _ (dot_not_mem_word f hf), split_append_sep _ _ _ hp₁]
      rw [hsplit'] at hsplit
      obtain ⟨rfl, rfl⟩ := List.cons.inj hsplit
      have hnone : DEPRECATED_CALL.exec (c ++ '(' :: x₁) = none := by
        cases hm : DEPRECATED_CALL.exec (c ++ '(' :: x₁) with
        | none => rfl
        | some p =>
          exfalso
          obtain ⟨w', a, _, _, hshape, _, _⟩ := DEPRECATED_CALL_exec_inv _ p.1 p.2 hm
          have hmem : ')' ∈ c ++ '(' :: x₁ := by rw [hshape]; simp
          simp only [List.mem_append, List.mem_cons] at hmem
          rcases hmem with h | h | h
          · have := List.all_eq_true.1 hc.2 _ h
            revert this; decide
          · revert h; decide
          · exact hparen (by simp [h])
      rw [hb]
      rcases mapM_legacyCall_cases (dottedKey f c (x₁ ++ '.' :: x₂))
        ((c ++ '(' :: x₁) :: split '.' (x₂ ++ [')'])) with ⟨hall, _⟩ | ⟨_, hm⟩
      · have := hall _ (List.mem_cons_self _ _)
        rw [hnone] at this; cases this
      · rw [hm]

/-! ## Names in the tree -/

/-- The children inferred from an array are those of its first element. -/
theorem inferFirst_cons (cfg : Config) (first : Value) (rest : List Value) :
    inferFirst cfg (first :: rest) = inferRelayFieldsFromData cfg first := by
  cases first <;> rfl

/-- The keys visited in an array value are those of its first element. -/
theorem keysOfFirst_cons (cfg : Config) (first : Value) (rest : List Value) :
    keysOfFirst cfg (first :: rest) = visitedKeys cfg first := by
  cases first <;> rfl

/-- Structural induction on values, for a property of values and a property of
the elements of arrays and of the properties of objects. -/
theorem Value.induction (P : Value → Prop) (Q : List Value → Prop)
    (R : List (Str × Value) → Prop)
    (hnull : P .null) (hbool : ∀ b, P (.bool b)) (hnum : ∀ lit, P (.num lit))
    (hstr : ∀ s, P (.str s)) (harr : ∀ items, Q items → P (.arr items))
    (hobj : ∀ props, R props → P (.obj props))
    (hnil : Q []) (hcons : ∀ value rest, P value → Q rest → Q (value :: rest))
    (hnone : R []) (hprop : ∀ key value rest, P value → R rest → R ((key, value) :: rest)) :
    ∀ value, P value :=
  @Value.rec P Q R (fun p => P p.2) hnull hbool hnum hstr harr hobj hnil hcons hnone
    (fun p rest hp hr => hprop p.1 p.2 rest hp hr) (fun _ _ h => h)

/-- The descriptors of a concatenation of sequences of trees. -/
theorem nodesOf_append (xs ys : List Field) :
    Field.nodesOf (xs ++ ys) = Field.nodesOf xs ++ Field.nodesOf ys := by
  induction xs with
  | nil => simp [Field.nodesOf]
  | cons x xs ih => simp [Field.nodesOf, ih]

/-- The name under which `buildField` files a key is a word. -/
theorem buildField_name_word (key : Str) (children : List Field) (metadata : Option Metadata)
    (field : Field) (h : buildField key children metadata = .ok field) : isWord field.name := by
  cases htest : DEPRECATED_CALLS.test key with
  | true =>
    obtain ⟨w, parts, hw, _, _, hb⟩ := buildField_legacy_eq key children metadata htest
    rw [hb] at h
    cases hm : parts.mapM (legacyCall key) with
    | error err => rw [hm] at h; cases h
    | ok calls =>
      rw [hm] at h
      simp only [Except.ok.injEq] at h
      subst h
      exact hw
  | false =>
    cases hm : ARGUMENTS.exec key with
    | none => rw [buildField_unmatched key children metadata htest hm] at h; cases h
    | some c =>
      obtain ⟨c₁, c₂⟩ := c
      obtain ⟨w, hw, rfl, _⟩ := ARGUMENTS_exec_inv key c₁ c₂ hm
      cases c₂ with
      | none =>
        rw [buildField_plain key children metadata _ htest hm] at h
        simp only [Except.ok.injEq] at h
        subst h
        exact hw
      | some args =>
        rw [buildField_args key children metadata _ args hm] at h
        cases hp : JSON.parse (argumentsJSON args) with
        | error err => rw [hp] at h; cases h
        | ok decoded =>
          rw [hp] at h
          simp only [Except.ok.injEq] at h
          subst h
          exact hw

/-- The descriptors of what `inferField` returns for a key are named by words
when those of the structurally inferred children are. -/
theorem finishField_names (cfg : Config) (key : Str) (children : List Field)
    (metadata : Option Metadata) (field : Field)
    (hchildren : ∀ d ∈ Field.nodesOf children, isWord d.name)
    (h : finishField cfg key children metadata = .ok field) :
    ∀ d ∈ field.nodes, isWord d.name := by
  rw [finishField_eq] at h
  have hname := buildField_name_word _ _ _ _ h
  obtain ⟨base, _, rfl⟩ := (buildField_ok_iff _ _ _ _).1 h
  intro d hd
  simp only [Field.nodes, List.mem_cons, nodesOf_append, List.mem_append] at hd
  rcases hd with rfl | hd | hd
  · exact hname
  · exact hchildren d hd
  · unfold augmentation at hd
    split at hd
    · simp only [Field.nodesOf, idField, Field.build, Option.getD_none, Field.nodes,
        List.append_nil, List.mem_singleton] at hd
      subst hd
      show isWord ['i', 'd']
      decide
    · split at hd
      · simp only [Field.nodesOf, cursorField, Field.build, Option.getD_none, Field.nodes,
          List.append_nil, List.mem_singleton] at hd
        subst hd
        show isWord ['c', 'u', 'r', 's', 'o', 'r']
        decide
      · simp [Field.nodesOf] at hd

/-- C11. Every descriptor in a tree that `inferRelayFieldsFromData` returns, at
every depth and the synthetic `id` and `cursor` children included, has a name
that is a non-empty string of word characters; so the name has no dot and no
parenthesis. -/
theorem names_are_words (cfg : Config) (data : Value) (fields : List Field)
    (h : inferRelayFieldsFromData cfg data = .ok fields) :
    ∀ d ∈ Field.nodesOf fields,
      d.name ≠ [] ∧ d.name.all isWordChar = true ∧
        '.' ∉ d.name ∧ '(' ∉ d.name ∧ ')' ∉ d.name := by
  have key : ∀ value,
      (∀ fs, inferRelayFieldsFromData cfg value = .ok fs →
        ∀ d ∈ Field.nodesOf fs, isWord d.name) ∧
      (∀ k f, inferField cfg value k = .ok f → ∀ d ∈ f.nodes, isWord d.name) := by
    apply Value.induction
      (fun value =>
        (∀ fs, inferRelayFieldsFromData cfg value = .ok fs →
          ∀ d ∈ Field.nodesOf fs, isWord d.name) ∧
        (∀ k f, inferField cfg value k = .ok f → ∀ d ∈ f.nodes, isWord d.name))
      (fun items =>
        (∀ i fs, inferItems cfg i items = .ok fs → ∀ d ∈ Field.nodesOf fs, isWord d.name) ∧
        (∀ fs, inferFirst cfg items = .ok fs → ∀ d ∈ Field.nodesOf fs, isWord d.name))
      (fun props =>
        ∀ fs, inferProps cfg props = .ok fs → ∀ d ∈ Field.nodesOf fs, isWord d.name)
    · refine ⟨?_, ?_⟩
      · intro fs hfs; cases hfs; simp [Field.nodesOf]
      · intro k f hf
        exact finishField_names cfg k [] none f (by simp [Field.nodesOf]) hf
    · intro b
      refine ⟨?_, ?_⟩
      · intro fs hfs; cases hfs; simp [Field.nodesOf]
      · intro k f hf
        exact finishField_names cfg k [] none f (by simp [Field.nodesOf]) hf
    · intro lit
      refine ⟨?_, ?_⟩
      · intro fs hfs; cases hfs; simp [Field.nodesOf]
      · intro k f hf
        exact finishField_names cfg k [] none f (by simp [Field.nodesOf]) hf
    · intro s
      refine ⟨?_, ?_⟩
      · intro fs hfs; cases hfs; simp [Field.nodesOf]
      · intro k f hf
        exact finishField_names cfg k [] none f (by simp [Field.nodesOf]) hf
    · intro items ⟨hitems, hfirst⟩
      refine ⟨fun fs hfs => hitems 0 fs hfs, ?_⟩
      intro k f hf
      simp only [inferField] at hf
      cases hc : inferFirst cfg items with
      | error err => rw [hc] at hf; cases hf
      | ok children =>
        rw [hc] at hf
        exact finishField_names cfg k children _ f (hfirst children hc) hf
    · intro props hprops
      refine ⟨fun fs hfs => hprops fs hfs, ?_⟩
      intro k f hf
      simp only [inferField] at hf
      cases hc : inferProps cfg props with
      | error err => rw [hc] at hf; cases hf
      | ok children =>
        rw [hc] at hf
        exact finishField_names cfg k children _ f (hprops children hc) hf
    · refine ⟨?_, ?_⟩
      · intro i fs hfs
        simp only [inferItems, Except.ok.injEq] at hfs
        subst hfs; simp [Field.nodesOf]
      · intro fs hfs
        simp only [inferFirst, Except.ok.injEq] at hfs
        subst hfs; simp [Field.nodesOf]
    · intro value rest ⟨hdata, hfield⟩ ⟨hitems, _⟩
      refine ⟨?_, ?_⟩
      · intro i fs hfs
        simp only [inferItems] at hfs
        split at hfs
        · exact hitems (i + 1) fs hfs
        · cases hf : inferField cfg value (Nat.toDigits 10 i) with
          | error err => rw [hf] at hfs; cases hfs
          | ok f =>
            rw [hf] at hfs
            cases hr : inferItems cfg (i + 1) rest with
            | error err => rw [hr] at hfs; cases hfs
            | ok fs' =>
              rw [hr] at hfs
              simp only [Except.ok.injEq] at hfs
              subst hfs
              intro d hd
              simp only [Field.nodesOf, List.mem_append] at hd
              rcases hd with hd | hd
              · exact hfield _ f hf d hd
              · exact hitems (i + 1) fs' hr d hd
      · intro fs hfs
        rw [inferFirst_cons] at hfs
        exact hdata fs hfs
    · intro fs hfs
      simp only [inferProps, Except.ok.injEq] at hfs
      subst hfs; simp [Field.nodesOf]
    · intro k value rest ⟨_, hfield⟩ hprops fs hfs
      simp only [inferProps] at hfs
      split at hfs
      · exact hprops fs hfs
      · cases hf : inferField cfg value k with
        | error err => rw [hf] at hfs; cases hfs
        | ok f =>
          rw [hf] at hfs
          cases hr : inferProps cfg rest with
          | error err => rw [hr] at hfs; cases hfs
          | ok fs' =>
            rw [hr] at hfs
            simp only [Except.ok.injEq] at hfs
            subst hfs
            intro d hd
            simp only [Field.nodesOf, List.mem_append] at hd
            rcases hd with hd | hd
            · exact hfield _ f hf d hd
            · exact hprops fs' hr d hd
  intro d hd
  have hw := (key data).1 fields h d hd
  refine ⟨hw.1, hw.2, dot_not_mem_word _ hw, ?_, ?_⟩
  · intro hm
    have := List.all_eq_true.1 hw.2 _ hm
    revert this; decide
  · intro hm
    have := List.all_eq_true.1 hw.2 _ hm
    revert this; decide

/-! ## Errors of the traversal -/

/-- Whether `buildField` rejects a key, and with which error, does not depend on
the children and the metadata. -/
theorem buildField_error_iff (key : Str) (children : List Field) (metadata : Option Metadata)
    (err : RelayError) :
    buildField key children metadata = .error err ↔ buildField key [] none = .error err := by
  cases h₀ : buildField key [] none with
  | ok base =>
    have := (buildField_ok_iff key children metadata _).2 ⟨base, h₀, rfl⟩
    rw [this]
    constructor <;> intro h <;> cases h
  | error e₀ =>
    cases h₁ : buildField key children metadata with
    | ok field =>
      obtain ⟨base, hb, _⟩ := (buildField_ok_iff key children metadata field).1 h₁
      rw [h₀] at hb; cases hb
    | error e₁ =>
      have he : e₁ = e₀ := by
        cases htest : DEPRECATED_CALLS.test key with
        | true =>
          obtain ⟨w, parts, _, _, hs, hb⟩ := buildField_legacy_eq key children metadata htest
          obtain ⟨w', parts', _, _, hs', hb'⟩ := buildField_legacy_eq key [] none htest
          rw [hs] at hs'
          obtain ⟨rfl, rfl⟩ := List.cons.inj hs'
          rw [hb] at h₁
          rw [hb'] at h₀
          cases hm : parts.mapM (legacyCall key) with
          | ok calls => rw [hm] at h₁; cases h₁
          | error e =>
            rw [hm] at h₁ h₀
            cases h₁; cases h₀; rfl
        | false =>
          cases hm : ARGUMENTS.exec key with
          | none =>
            rw [buildField_unmatched key children metadata htest hm] at h₁
            rw [buildField_unmatched key [] none htest hm] at h₀
            cases h₁; cases h₀; rfl
          | some c =>
            obtain ⟨c₁, c₂⟩ := c
            cases c₂ with
            | none =>
              rw [buildField_plain key children metadata _ htest hm] at h₁; cases h₁
            | some args =>
              rw [buildField_args key children metadata _ args hm] at h₁
              rw [buildField_args key [] none _ args hm] at h₀
              cases hp : JSON.parse (argumentsJSON args) with
              | ok decoded => rw [hp] at h₁; cases h₁
              | error e =>
                rw [hp] at h₁ h₀
                cases h₁; cases h₀; rfl
      rw [he]

/-- The error of `buildField` on a key, whatever the children and metadata. -/
theorem errorOf_buildField (key : Str) (children : List Field) (metadata : Option Metadata) :
    errorOf (buildField key children metadata) = firstError [key] := by
  simp only [firstError]
  cases h₀ : buildField key [] none with
  | ok base =>
    rw [(buildField_ok_iff key children metadata _).2 ⟨base, h₀, rfl⟩]
    rfl
  | error e₀ =>
    rw [(buildField_error_iff key children metadata e₀).2 h₀]
    rfl

/-- The error of the second half of `inferField`. -/
theorem errorOf_finishField (cfg : Config) (key : Str) (children : List Field)
    (metadata : Option Metadata) :
    errorOf (finishField cfg key children metadata) = firstError [key] := by
  rw [finishField_eq, errorOf_buildField]

/-- The first error of a concatenation of key lists. -/
theorem firstError_append (xs ys : List Str) :
    firstError (xs ++ ys) =
      match firstError xs with
      | some err => some err
      | none => firstError ys := by
  induction xs with
  | nil => rfl
  | cons x xs ih =>
    simp only [List.cons_append, firstError]
    cases buildField x [] none with
    | error err => rfl
    | ok f => exact ih

/-- The error of a result followed by the second half of `inferField`. -/
theorem errorOf_then_finish (cfg : Config) (key : Str) (metadata : Option Metadata)
    (a : Except RelayError (List Field)) (xs : List Str) :
    errorOf a = firstError xs →
    errorOf (match a with
      | .error err => (.error err : Except RelayError Field)
      | .ok children => finishField cfg key children metadata) = firstError (xs ++ [key]) := by
  intro ha
  rw [firstError_append, ← ha]
  cases a with
  | error err => rfl
  | ok children => exact errorOf_finishField cfg key children metadata

/-- The call `inferRelayFieldsFromData(data)` fails exactly when `buildField`
rejects a visited key, and then with the error of the first one. -/
theorem errorOf_infer (cfg : Config) (data : Value) :
    errorOf (inferRelayFieldsFromData cfg data) = firstError (visitedKeys cfg data) := by
  have key : ∀ value,
      errorOf (inferRelayFieldsFromData cfg value) = firstError (visitedKeys cfg value) ∧
      ∀ k, errorOf (inferField cfg value k) = firstError (keysOfField cfg value k) := by
    apply Value.induction
      (fun value =>
        errorOf (inferRelayFieldsFromData cfg value) = firstError (visitedKeys cfg value) ∧
        ∀ k, errorOf (inferField cfg value k) = firstError (keysOfField cfg value k))
      (fun items =>
        (∀ i, errorOf (inferItems cfg i items) = firstError (keysOfItems cfg i items)) ∧
        errorOf (inferFirst cfg items) = firstError (keysOfFirst cfg items))
      (fun props => errorOf (inferProps cfg props) = firstError (keysOfProps cfg props))
    · exact ⟨rfl, fun k => errorOf_finishField cfg k [] none⟩
    · intro b; exact ⟨rfl, fun k => errorOf_finishField cfg k [] none⟩
    · intro lit; exact ⟨rfl, fun k => errorOf_finishField cfg k [] none⟩
    · intro s; exact ⟨rfl, fun k => errorOf_finishField cfg k [] none⟩
    · intro items ⟨hitems, hfirst⟩
      refine ⟨hitems 0, fun k => ?_⟩
      simp only [inferField, keysOfField]
      exact errorOf_then_finish cfg k _ _ _ hfirst
    · intro props hprops
      refine ⟨hprops, fun k => ?_⟩
      simp only [inferField, keysOfField]
      exact errorOf_then_finish cfg k _ _ _ hprops
    · exact ⟨fun i => rfl, rfl⟩
    · intro value rest ⟨hdata, hfield⟩ ⟨hitems, _⟩
      refine ⟨fun i => ?_, ?_⟩
      · simp only [inferItems, keysOfItems]
        split
        · exact hitems (i + 1)
        · rw [firstError_append, ← hfield (Nat.toDigits 10 i), ← hitems (i + 1)]
          cases inferField cfg value (Nat.toDigits 10 i) with
          | error err => rfl
          | ok f => cases inferItems cfg (i + 1) rest <;> rfl
      · rw [inferFirst_cons, keysOfFirst_cons]
        exact hdata
    · rfl
    · intro k value rest ⟨_, hfield⟩ hprops
      simp only [inferProps, keysOfProps]
      split
      · exact hprops
      · rw [firstError_append, ← hfield k, ← hprops]
        cases inferField cfg value k with
        | error err => rfl
        | ok f => cases inferProps cfg rest <;> rfl
  exact (key data).1

/-- The first error of a list of keys is the error of one of them. -/
theorem firstError_some (keys : List Str) (err : RelayError) (h : firstError keys = some err) :
    ∃ key ∈ keys, buildField key [] none = .error err := by
  induction keys with
  | nil => cases h
  | cons k ks ih =>
    simp only [firstError] at h
    cases hb : buildField k [] none with
    | error e =>
      rw [hb] at h
      simp only [Option.some.injEq] at h
      subst h
      exact ⟨k, List.mem_cons_self _ _, hb⟩
    | ok f =>
      rw [hb] at h
      obtain ⟨key, hk, hkey⟩ := ih h
      exact ⟨key, List.mem_cons_of_mem _ hk, hkey⟩

/-- No key of a list is rejected exactly when the list has no first error. -/
theorem firstError_none_iff (keys : List Str) :
    firstError keys = none ↔ ∀ key ∈ keys, ∃ f, buildField key [] none = .ok f := by
  induction keys with
  | nil => simp [firstError]
  | cons k ks ih =>
    simp only [firstError]
    cases hb : buildField k [] none with
    | error e =>
      simp only [reduceCtorEq, false_iff]
      intro hall
      obtain ⟨f, hf⟩ := hall k (List.mem_cons_self _ _)
      rw [hb] at hf; cases hf
    | ok f =>
      simp only [ih]
      constructor
      · intro hall key hkey
        rcases List.mem_cons.1 hkey with rfl | hkey
        · exact ⟨f, hb⟩
        · exact hall key hkey
      · intro hall key hkey
        exact hall key (List.mem_cons_of_mem _ hkey)

/-- C13. Inference is all or nothing.  If `buildField` accepts every key that
the traversal visits, `inferRelayFieldsFromData` returns a tree.  If it rejects
a visited key, the whole call fails and returns no tree; the error is that of a
rejected visited key (the first in the order of the visit), so it is the key's
own `MalformedKey` or `MalformedArguments` error when no other visited key is
rejected with a different one. -/
theorem inference_all_or_nothing (cfg : Config) (data : Value) :
    ((∀ key ∈ visitedKeys cfg data, ∃ f, buildField key [] none = .ok f) →
        ∃ fields, inferRelayFieldsFromData cfg data = .ok fields) ∧
      (∀ key ∈ visitedKeys cfg data, ∀ err, buildField key [] none = .error err →
        (∃ key' ∈ visitedKeys cfg data, ∃ err', buildField key' [] none = .error err' ∧
            inferRelayFieldsFromData cfg data = .error err') ∧
          ((∀ key' ∈ visitedKeys cfg data, ∀ err', buildField key' [] none = .error err' →
              err' = err) →
            inferRelayFieldsFromData cfg data = .error err)) ∧
      errorOf (inferRelayFieldsFromData cfg data) = firstError (visitedKeys cfg data) := by
  have hmain := errorOf_infer cfg data
  refine ⟨?_, ?_, hmain⟩
  · intro hall
    have hnone := (firstError_none_iff _).2 hall
    rw [hnone] at hmain
    cases hr : inferRelayFieldsFromData cfg data with
    | ok fields => exact ⟨fields, rfl⟩
    | error e => rw [hr] at hmain; cases hmain
  · intro key hkey err hrej
    have hsome : ∃ e, firstError (visitedKeys cfg data) = some e := by
      cases hf : firstError (visitedKeys cfg data) with
      | some e => exact ⟨e, rfl⟩
      | none =>
        obtain ⟨f, hf'⟩ := (firstError_none_iff _).1 hf key hkey
        rw [hrej] at hf'; cases hf'
    obtain ⟨e, he⟩ := hsome
    obtain ⟨key', hkey', hrej'⟩ := firstError_some _ e he
    have hfail : inferRelayFieldsFromData cfg data = .error e := by
      rw [he] at hmain
      cases hr : inferRelayFieldsFromData cfg data with
      | ok fields => rw [hr] at hmain; cases hmain
      | error e' =>
        rw [hr] at hmain
        simp only [errorOf, Option.some.injEq] at hmain
        rw [hmain]
    refine ⟨⟨key', hkey', e, hrej', hfail⟩, ?_⟩
    intro huniq
    rw [← huniq key' hkey' e hrej']
    exact hfail

/-! ## Aliases -/

/-- The digits of base 16 are word characters. -/
theorem digitChar_word (d : Nat) (h : d < 16) : isWordChar (Nat.digitChar d) = true := by
  revert d
  decide

/-- The digits added by `Nat.toDigitsCore` in base 16 are word characters. -/
theorem toDigitsCore_word (fuel n : Nat) (ds : List Char)
    (hds : ∀ c ∈ ds, isWordChar c = true) :
    ∀ c ∈ Nat.toDigitsCore 16 fuel n ds, isWordChar c = true := by
  induction fuel generalizing n ds with
  | zero => simpa [Nat.toDigitsCore] using hds
  | succ fuel ih =>
    have hd : isWordChar (Nat.digitChar (n % 16)) = true :=
      digitChar_word _ (Nat.mod_lt _ (by decide))
    have hds' : ∀ c ∈ Nat.digitChar (n % 16) :: ds, isWordChar c = true := by
      intro c hc
      rcases List.mem_cons.1 hc with rfl | hc
      · exact hd
      · exact hds c hc
    simp only [Nat.toDigitsCore]
    split
    · exact hds'
    · exact ih _ _ hds'

/-- The function `Nat.toDigitsCore` keeps the digits it is given. -/
theorem toDigitsCore_ne_nil (base fuel n : Nat) (ds : List Char) (hds : ds ≠ []) :
    Nat.toDigitsCore base fuel n ds ≠ [] := by
  induction fuel generalizing n ds with
  | zero => simpa [Nat.toDigitsCore] using hds
  | succ fuel ih =>
    simp only [Nat.toDigitsCore]
    split
    · simp
    · exact ih _ _ (by simp)

/-- A number written in base 16 is a word. -/
theorem toDigits_word (n : Nat) : isWord (Nat.toDigits 16 n) := by
  constructor
  · unfold Nat.toDigits
    simp only [Nat.toDigitsCore]
    split
    · simp
    · exact toDigitsCore_ne_nil _ _ _ _ (by simp)
  · rw [List.all_eq_true]
    exact toDigitsCore_word _ _ [] (by simp)

/-- The pattern `/^[\w-]+$/` matches the non-empty texts of alias characters. -/
theorem ALIAS_HEURISTIC_test (s : Str) (hne : s ≠ []) (hall : ∀ c ∈ s, isAliasChar c = true) :
    ALIAS_HEURISTIC.test s = true := by
  unfold ALIAS_HEURISTIC
  rw [test_bol]
  have hmem : (⟨0 + s.length, [], none, none⟩ : MState) ∈
      (Regex.seq (.plus false (.cls isAliasChar)) .eol).run ⟨0, s, none, none⟩ := by
    refine (mem_run_seq _ _ _ _).2 ⟨⟨0 + s.length, [], none, none⟩, ?_, ?_⟩
    · exact (mem_run_plus_cls _ _ _ _).2 ⟨s, [], hne, by simp, hall, rfl⟩
    · exact (mem_run_eol _ _).2 ⟨rfl, rfl⟩
  cases hrun : (Regex.seq (.plus false (.cls isAliasChar)) .eol).run ⟨0, s, none, none⟩ with
  | nil => rw [hrun] at hmem; cases hmem
  | cons _ _ => rfl

/-- An alias is a word or the input itself, a word too. -/
theorem alias_word (digest : Str → Nat) (s : Str) : isWord (generateRQLFieldAlias digest s) := by
  unfold generateRQLFieldAlias
  split
  · assumption
  · exact toDigits_word _

/-- C14, amended. For every string that is not a bare field name, in particular
for every field name with calls, a string with a dot, the alias is not equal to
the input. -/
theorem alias_ne_input (digest : Str → Nat) (s : Str) :
    (¬ isWord s → generateRQLFieldAlias digest s ≠ s) ∧
      ('.' ∈ s → generateRQLFieldAlias digest s ≠ s) := by
  have h : ¬ isWord s → generateRQLFieldAlias digest s ≠ s := by
    intro hs heq
    have := alias_word digest s
    rw [heq] at this
    exact hs this
  exact ⟨h, fun hdot => h (fun hw => dot_not_mem_word s hw hdot)⟩

/-- C15. For every field name without calls, a bare name, `generateRQLFieldAlias`
returns the input unchanged. -/
theorem alias_bare_name (digest : Str → Nat) (s : Str) (hne : s ≠ [])
    (hword : s.all isWordChar = true) : generateRQLFieldAlias digest s = s := by
  unfold generateRQLFieldAlias
  rw [if_pos ⟨hne, hword⟩]

/-- C16. For every input the alias is non-empty and made of word characters and
hyphens only: the pattern `/^[\w-]+$/` matches it. -/
theorem alias_charset (digest : Str → Nat) (s : Str) :
    generateRQLFieldAlias digest s ≠ [] ∧
      (generateRQLFieldAlias digest s).all isAliasChar = true ∧
      ALIAS_HEURISTIC.test (generateRQLFieldAlias digest s) = true := by
  obtain ⟨hne, hall⟩ := alias_word digest s
  have hall' : ∀ c ∈ generateRQLFieldAlias digest s, isAliasChar c = true := by
    intro c hc
    have := List.all_eq_true.1 hall c hc
    simp [isAliasChar, this]
  exact ⟨hne, List.all_eq_true.2 hall', ALIAS_HEURISTIC_test _ hne hall'⟩

/-! ## The order of the calls -/

namespace JSON

/-- The object that `parseMembers` builds is made of the members that
`parseMemberList` reads, defined one after the other. -/
theorem parseMembers_eq (n : Nat) : ∀ (acc : List (Str × Value)) (s : Str),
    parseMembers n acc s =
      match parseMemberList n s with
      | .ok (ms, r) => .ok (.obj (defineAll acc ms), r)
      | .error err => .error err := by
  induction n with
  | zero =>
    intro acc s
    simp only [parseMembers, parseMemberList]
    cases s <;> rfl
  | succ n ih =>
    intro acc s
    cases s with
    | nil => simp only [parseMembers, parseMemberList]
    | cons c cs =>
      simp only [parseMembers, parseMemberList]
      by_cases h1 : c = '"'
      · simp only [h1, if_true]
        cases parseString cs with
        | error err => rfl
        | ok p =>
          obtain ⟨k, r₁⟩ := p
          simp only
          cases skipWs r₁ with
          | nil => rfl
          | cons d ds =>
            simp only
            by_cases h2 : d = ':'
            · simp only [h2, if_true]
              cases parseValue n (skipWs ds) with
              | error err => rfl
              | ok q =>
                obtain ⟨v, r₂⟩ := q
                simp only
                cases skipWs r₂ with
                | nil => rfl
                | cons e es =>
                  simp only
                  by_cases h3 : e = ','
                  · simp only [h3, if_true]
                    rw [ih]
                    cases parseMemberList n (skipWs es) with
                    | error err => rfl
                    | ok w => rfl
                  · simp only [h3, if_false]
                    by_cases h4 : e = '}'
                    · simp only [h4, if_true]; rfl
                    · simp only [h4, if_false]
            · simp only [h2, if_false]
      · simp only [h1, if_false]

/-- An object text decodes to the object made of its members, defined one after
the other. -/
theorem parse_object (text : Str) (cs : Str) (h : skipWs text = '{' :: cs) :
    parse text =
      match members text with
      | .ok ms => .ok (.obj (defineAll [] ms))
      | .error err => .error err := by
  unfold parse members
  rw [h]
  simp only [parseValue, if_true]
  cases skipWs cs with
  | nil => rfl
  | cons d ds =>
    simp only
    by_cases h1 : d = '}'
    · simp only [h1, if_true]
      cases skipWs ds <;> rfl
    · simp only [h1, if_false]
      rw [parseMembers_eq]
      cases parseMemberList text.length (d :: ds) with
      | error err => rfl
      | ok w =>
        obtain ⟨ms, r⟩ := w
        simp only
        cases skipWs r <;> rfl

/-- Members with distinct names, none an array index, are defined in the order
in which they are written. -/
theorem defineAll_distinct (ms : List (Str × Value)) : ∀ (acc : List (Str × Value)),
    ((acc ++ ms).map (fun m => m.1)).Nodup → (∀ m ∈ ms, arrayIndex m.1 = none) →
    defineAll acc ms = acc ++ ms := by
  induction ms with
  | nil => intro acc _ _; simp [defineAll]
  | cons m ms ih =>
    intro acc hnodup hidx
    obtain ⟨k, v⟩ := m
    have hnot : hasProp acc k = false := by
      rw [Bool.eq_false_iff]
      intro hhas
      simp only [hasProp, List.any_eq_true, beq_iff_eq] at hhas
      obtain ⟨p, hp, hpk⟩ := hhas
      rw [List.map_append, List.nodup_append] at hnodup
      have h₁ : k ∈ acc.map (fun m => m.1) := List.mem_map.2 ⟨p, hp, hpk⟩
      have h₂ : k ∈ ((k, v) :: ms).map (fun m => m.1) :=
        List.mem_map.2 ⟨(k, v), List.mem_cons.2 (Or.inl rfl), rfl⟩
      exact hnodup.2.2 h₁ h₂
    have hdef : defineProp acc k v = acc ++ [(k, v)] := by
      unfold defineProp
      have hk : arrayIndex k = none := hidx (k, v) (List.mem_cons.2 (Or.inl rfl))
      rw [hnot, hk]
      simp
    show defineAll (defineProp acc k v) ms = _
    rw [hdef, ih (acc ++ [(k, v)]) (by simpa using hnodup)
      (fun m hm => hidx m (List.mem_cons_of_mem _ hm))]
    simp

end JSON

/-- In a property list with distinct names, property access finds each
property. -/
theorem find_of_nodup (props : List (Str × Value)) (hnodup : (props.map (fun m => m.1)).Nodup)
    (m : Str × Value) (hm : m ∈ props) : props.find? (fun p => p.1 == m.1) = some m := by
  induction props with
  | nil => cases hm
  | cons p ps ih =>
    simp only [List.map_cons, List.nodup_cons] at hnodup
    rcases List.mem_cons.1 hm with rfl | hm
    · simp
    · have hne : ¬ p.1 = m.1 := by
        intro e
        exact hnodup.1 (e ▸ List.mem_map.2 ⟨m, hm, rfl⟩)
      have hb : (p.1 == m.1) = false := by
        rw [Bool.eq_false_iff]; intro e; exact hne (beq_iff_eq.1 e)
      rw [List.find?_cons, hb]
      exact ih hnodup.2 hm

/-- The calls of an object whose properties have distinct names: one per
property, in order. -/
theorem callsOf_nodup (props : List (Str × Value))
    (hnodup : (props.map (fun m => m.1)).Nodup) :
    callsOf (.obj props) = props.map toCall := by
  simp only [callsOf, Object.keys, Value.get, List.map_map]
  apply List.map_congr_left
  intro m hm
  simp [find_of_nodup props hnodup m hm, toCall]

/-- C12, amended. In the legacy dialect the calls of an accepted key are one per
dot-separated part after the field name, in the order of the key.  In the modern
dialect they are the properties of the object built from the arguments as they
are written; so there is one call per argument, in the order of the key, when
the argument names are distinct and none is an array index. -/
theorem calls_in_order :
    (∀ (key : Str) (children : List Field) (metadata : Option Metadata) (field : Field),
        DEPRECATED_CALLS.test key = true → buildField key children metadata = .ok field →
        ∃ calls, field.calls = some calls ∧
          List.Forall₂ (fun part call => legacyCall key part = .ok call)
            (split '.' key).tail calls) ∧
      (∀ (key : Str) (c₁ : Option Str) (args : Str) (children : List Field)
          (metadata : Option Metadata) (field : Field),
        ARGUMENTS.exec key = some (c₁, some args) →
        buildField key children metadata = .ok field →
        ∃ ms, JSON.members (argumentsJSON args) = .ok ms ∧
          field.calls = some (callsOf (.obj (JSON.defineAll [] ms))) ∧
          ((ms.map (fun m => m.1)).Nodup → (∀ m ∈ ms, JSON.arrayIndex m.1 = none) →
            field.calls = some (ms.map toCall))) := by
  constructor
  · intro key children metadata field hlegacy h
    obtain ⟨w, parts, _, _, hsplit, hb⟩ := buildField_legacy_eq key children metadata hlegacy
    rw [hsplit, List.tail_cons]
    rw [hb] at h
    rcases mapM_legacyCall_cases key parts with ⟨_, calls, hm, hf⟩ | ⟨_, hm⟩
    · rw [hm] at h
      simp only [Except.ok.injEq] at h
      subst h
      exact ⟨calls, rfl, hf⟩
    · rw [hm] at h; cases h
  · intro key c₁ args children metadata field hmodern h
    rw [buildField_args key children metadata c₁ args hmodern] at h
    have hobj := JSON.parse_object (argumentsJSON args)
      (ARGUMENT_NAME.replaceQuoted args ++ ['}']) (by
        simp only [argumentsJSON, JSON.skipWs, show JSON.isWs '{' = false from by decide,
          Bool.false_eq_true, if_false])
    rw [hobj] at h
    cases hms : JSON.members (argumentsJSON args) with
    | error err => rw [hms] at h; cases h
    | ok ms =>
      rw [hms] at h
      simp only [Except.ok.injEq] at h
      subst h
      refine ⟨ms, rfl, rfl, ?_⟩
      intro hnodup hidx
      have hall := JSON.defineAll_distinct ms [] (by simpa using hnodup) hidx
      simp only [List.nil_append] at hall
      simp only [Field.calls, hall, callsOf_nodup ms hnodup]

/-! ## The properties at concrete inputs -/

set_option maxRecDepth 100000 in
/-- C11, at the record `{node: {"friends.first(2)": [{name: "a"}]}}`: the names
in the tree are `node`, `friends`, `name` and the synthetic `id`. -/
theorem names_are_words_witness :
    inferRelayFieldsFromData exampleConfig
        (.obj [("node".toList, .obj [("friends.first(2)".toList,
          .arr [.obj [("name".toList, .str "a".toList)]])])]) =
        .ok [.mk "node".toList none
          [.mk "friends".toList (some [{ name := "first".toList, value := .str "2".toList }])
              [.mk "name".toList none [] none] (some { plural := true, parentType := none }),
            .mk "id".toList none []
              (some { plural := false, parentType := some "Node".toList })] none] ∧
      ∀ d ∈ Field.nodesOf [.mk "node".toList none
          [.mk "friends".toList (some [{ name := "first".toList, value := .str "2".toList }])
              [.mk "name".toList none [] none] (some { plural := true, parentType := none }),
            .mk "id".toList none []
              (some { plural := false, parentType := some "Node".toList })] none],
        d.name ≠ [] ∧ d.name.all isWordChar = true ∧
          '.' ∉ d.name ∧ '(' ∉ d.name ∧ ')' ∉ d.name :=
  ⟨rfl, names_are_words exampleConfig
    (.obj [("node".toList, .obj [("friends.first(2)".toList,
      .arr [.obj [("name".toList, .str "a".toList)]])])]) _ rfl⟩

set_option maxRecDepth 100000 in
/-- C12 fails at the keys `friends("2":"a","1":"b")` and `friends("a":1,"a":2)`:
the first is accepted with the call `1` before the call `2`, the second with one
call for its two arguments. -/
theorem calls_order_counterexample :
    buildField "friends(\"2\":\"a\",\"1\":\"b\")".toList [] none =
        .ok (.mk "friends".toList
          (some [{ name := "1".toList, value := .str "b".toList },
            { name := "2".toList, value := .str "a".toList }]) [] none) ∧
      buildField "friends(\"a\":1,\"a\":2)".toList [] none =
        .ok (.mk "friends".toList
          (some [{ name := "a".toList, value := .num "2".toList }]) [] none) := by
  have h₁ : ARGUMENTS.exec "friends(\"2\":\"a\",\"1\":\"b\")".toList =
      some (some "friends".toList, some "\"2\":\"a\",\"1\":\"b\"".toList) := by decide
  have h₂ : argumentsJSON "\"2\":\"a\",\"1\":\"b\"".toList =
      "\x7b\"2\":\"a\",\"1\":\"b\"\x7d".toList := by decide
  have h₃ : JSON.parse "\x7b\"2\":\"a\",\"1\":\"b\"\x7d".toList =
      .ok (.obj [("1".toList, .str "b".toList), ("2".toList, .str "a".toList)]) := rfl
  have k₁ : ARGUMENTS.exec "friends(\"a\":1,\"a\":2)".toList =
      some (some "friends".toList, some "\"a\":1,\"a\":2".toList) := by decide
  have k₂ : argumentsJSON "\"a\":1,\"a\":2".toList = "\x7b\"a\":1,\"a\":2\x7d".toList := by
    decide
  have k₃ : JSON.parse "\x7b\"a\":1,\"a\":2\x7d".toList =
      .ok (.obj [("a".toList, .num "2".toList)]) := rfl
  constructor
  · rw [buildField_args _ [] none _ _ h₁, h₂, h₃]
    rfl
  · rw [buildField_args _ [] none _ _ k₁, k₂, k₃]
    rfl

set_option maxRecDepth 100000 in
/-- C12, amended, at the keys `friends("after":null,"first":10)` and
`friends.orderby(importance).first(10)`. -/
theorem calls_in_order_witness :
    (∃ ms, JSON.members (argumentsJSON "\"after\":null,\"first\":10".toList) = .ok ms ∧
        (Field.mk "friends".toList
            (some [{ name := "after".toList, value := .null },
              { name := "first".toList, value := .num "10".toList }]) [] none).calls =
          some (callsOf (.obj (JSON.defineAll [] ms))) ∧
        ((ms.map (fun m => m.1)).Nodup → (∀ m ∈ ms, JSON.arrayIndex m.1 = none) →
          (Field.mk "friends".toList
              (some [{ name := "after".toList, value := .null },
                { name := "first".toList, value := .num "10".toList }]) [] none).calls =
            some (ms.map toCall))) ∧
      ∃ calls,
        (Field.mk "friends".toList
            (some [{ name := "orderby".toList, value := .str "importance".toList },
              { name := "first".toList, value := .str "10".toList }]) [] none).calls =
          some calls ∧
        List.Forall₂
          (fun part call =>
            legacyCall "friends.orderby(importance).first(10)".toList part = .ok call)
          (split '.' "friends.orderby(importance).first(10)".toList).tail calls :=
  ⟨calls_in_order.2 "friends(\"after\":null,\"first\":10)".toList (some "friends".toList)
      "\"after\":null,\"first\":10".toList [] none _ (by decide) (by
        have h₁ : ARGUMENTS.exec "friends(\"after\":null,\"first\":10)".toList =
            some (some "friends".toList, some "\"after\":null,\"first\":10".toList) := by
          decide
        have h₂ : argumentsJSON "\"after\":null,\"first\":10".toList =
            "\x7b\"after\":null,\"first\":10\x7d".toList := by decide
        have h₃ : JSON.parse "\x7b\"after\":null,\"first\":10\x7d".toList =
            .ok (.obj [("after".toList, .null), ("first".toList, .num "10".toList)]) := rfl
        rw [buildField_args _ [] none _ _ h₁, h₂, h₃]
        rfl),
    calls_in_order.1 "friends.orderby(importance).first(10)".toList [] none _ (by decide) rfl⟩

set_option maxRecDepth 100000 in
/-- C13, at the record `{friends: [{"a.b": null}]}`, whose visited key `a.b` is
rejected, and at the record `{name: "a"}`, whose only key is accepted. -/
theorem inference_all_or_nothing_witness :
    inferRelayFieldsFromData exampleConfig
        (.obj [("friends".toList, .arr [.obj [("a.b".toList, .null)]])]) =
        .error (.MalformedKey "a.b".toList) ∧
      ∃ fields, inferRelayFieldsFromData exampleConfig
        (.obj [("name".toList, .str "a".toList)]) = .ok fields :=
  ⟨((inference_all_or_nothing exampleConfig
        (.obj [("friends".toList, .arr [.obj [("a.b".toList, .null)]])])).2.1
      "a.b".toList (by decide) (.MalformedKey "a.b".toList) rfl).2 (by
        intro key hkey err herr
        have hv : visitedKeys exampleConfig
            (.obj [("friends".toList, .arr [.obj [("a.b".toList, .null)]])]) =
            ["a.b".toList, "friends".toList] := by decide
        rw [hv] at hkey
        rcases List.mem_cons.1 hkey with rfl | hkey
        · have hb : buildField "a.b".toList [] none = .error (.MalformedKey "a.b".toList) :=
            rfl
          rw [hb] at herr
          cases herr
          rfl
        · rw [List.mem_singleton] at hkey
          subst hkey
          have hb : buildField "friends".toList [] none =
              .ok (.mk "friends".toList none [] none) := rfl
          rw [hb] at herr
          cases herr),
    (inference_all_or_nothing exampleConfig (.obj [("name".toList, .str "a".toList)])).1 (by
      intro key hkey
      have hv : visitedKeys exampleConfig (.obj [("name".toList, .str "a".toList)]) =
          ["name".toList] := by decide
      rw [hv, List.mem_singleton] at hkey
      subst hkey
      exact ⟨.mk "name".toList none [] none, rfl⟩)⟩

set_option maxRecDepth 100000 in
/-- C14 fails at the bare name `friends`, which is not empty and is its own
alias. -/
theorem alias_bare_counterexample :
    "friends".toList ≠ [] ∧
      generateRQLFieldAlias exampleDigest "friends".toList = "friends".toList :=
  ⟨by decide, by decide⟩

set_option maxRecDepth 100000 in
/-- C14, amended, at the inputs `friends.orderby(importance).first(10)` and
`friends.first(<count>)`. -/
theorem alias_ne_input_witness :
    generateRQLFieldAlias exampleDigest "friends.orderby(importance).first(10)".toList ≠
        "friends.orderby(importance).first(10)".toList ∧
      generateRQLFieldAlias exampleDigest "friends.first(<count>)".toList ≠
        "friends.first(<count>)".toList :=
  ⟨(alias_ne_input exampleDigest "friends.orderby(importance).first(10)".toList).2 (by decide),
    (alias_ne_input exampleDigest "friends.first(<count>)".toList).1 (by decide)⟩

set_option maxRecDepth 100000 in
/-- C15, at the bare names `friends` and `first_name2`. -/
theorem alias_bare_name_witness :
    generateRQLFieldAlias exampleDigest "friends".toList = "friends".toList ∧
      generateRQLFieldAlias exampleDigest "first_name2".toList = "first_name2".toList :=
  ⟨alias_bare_name exampleDigest "friends".toList (by decide) (by decide),
    alias_bare_name exampleDigest "first_name2".toList (by decide) (by decide)⟩

/-- C16, at the inputs `friends.first(<count>)` and `friends.orderby(=  e1 \ )`
of the test. -/
theorem alias_charset_witness :
    ALIAS_HEURISTIC.test
        (generateRQLFieldAlias exampleDigest "friends.first(<count>)".toList) = true ∧
      ALIAS_HEURISTIC.test
        (generateRQLFieldAlias exampleDigest "friends.orderby(=  e1 \\ )".toList) = true :=
  ⟨(alias_charset exampleDigest "friends.first(<count>)".toList).2.2,
    (alias_charset exampleDigest "friends.orderby(=  e1 \\ )".toList).2.2⟩

/-- C17, at the keys `friends.first(10)` and `friends(first:10)`. -/
theorem dialects_exclusive_witness :
    classify "friends.first(10)".toList = classifyModernFirst "friends.first(10)".toList ∧
      classify "friends(first:10)".toList = classifyModernFirst "friends(first:10)".toList :=
  ⟨(dialects_exclusive "friends.first(10)".toList).2,
    (dialects_exclusive "friends(first:10)".toList).2⟩

set_option maxRecDepth 100000 in
/-- C18, at the array `[{node: {name: "a"}}]` stored under the key `edges`. -/
theorem inferField_edges_witness :
    inferField exampleConfig
        (.arr [.obj [("node".toList, .obj [("name".toList, .str "a".toList)])]])
        "edges".toList =
      .ok (.mk "edges".toList none
        [.mk "node".toList none
            [.mk "name".toList none [] none,
              .mk "id".toList none []
                (some { plural := false, parentType := some "Node".toList })] none,
          .mk "cursor".toList none [] none]
        (some { plural := true, parentType := none })) :=
  (inferField_edges exampleConfig
      (.arr [.obj [("node".toList, .obj [("name".toList, .str "a".toList)])]]) _
      (by decide)).2
    ⟨[.mk "node".toList none
        [.mk "name".toList none [] none,
          .mk "id".toList none []
            (some { plural := false, parentType := some "Node".toList })] none],
      .mk "edges".toList none [] none, rfl, rfl, rfl⟩

set_option maxRecDepth 100000 in
/-- C19 fails at the key `id` with the array `[{name: "a"}]` as its value: the
structural step sets the plural flag, and the metadata of the descriptor is
`{parentType: "Node"}` without it. -/
theorem identity_counterexample :
    structuralMetadata (.arr [.obj [("name".toList, .str "a".toList)]]) =
        some { plural := true, parentType := none } ∧
      inferField exampleConfig (.arr [.obj [("name".toList, .str "a".toList)]]) "id".toList =
        .ok (.mk "id".toList none [.mk "name".toList none [] none]
          (some { plural := false, parentType := some "Node".toList })) :=
  ⟨rfl, rfl⟩

set_option maxRecDepth 100000 in
/-- C19, amended, at the key `id` with a string value and at the key `node(x:1)`
with the value null. -/
theorem inferField_identity_witness :
    inferField exampleConfig (.str "4".toList) "id".toList =
        .ok (.mk "id".toList none []
          (some { plural := false, parentType := some "Node".toList })) ∧
      inferField exampleConfig .null "node(x:1)".toList =
        .ok (.mk "node".toList (some [{ name := "x".toList, value := .num "1".toList }])
          [] none) :=
  ⟨((inferField_identity exampleConfig (.str "4".toList) "id".toList _).1 (by decide)).2
      ⟨[], .mk "id".toList none [] none, rfl, rfl, rfl⟩,
    ((inferField_identity exampleConfig .null "node(x:1)".toList _).2
        (by decide) (by decide) (by decide)).2
      ⟨[], .mk "node".toList (some [{ name := "x".toList, value := .num "1".toList }]) [] none,
        rfl, by
          have h₁ : ARGUMENTS.exec "node(x:1)".toList =
              some (some "node".toList, some "x:1".toList) := by decide
          have h₂ : argumentsJSON "x:1".toList = "\x7b\"x\":1\x7d".toList := by decide
          have h₃ : JSON.parse "\x7b\"x\":1\x7d".toList =
              .ok (.obj [("x".toList, .num "1".toList)]) := rfl
          rw [buildField_args _ [] none _ _ h₁, h₂, h₃]
          rfl, rfl⟩⟩

set_option maxRecDepth 100000 in
/-- C20, at the keys `friends.first(1.5)`, `friends.orderby(a.b)` and
`friends.first(10)`: the first two are rejected, the third is accepted. -/
theorem legacy_key_accepted_iff_witness :
    buildField "friends.first(1.5)".toList [] none =
        .error (.MalformedKey "friends.first(1.5)".toList) ∧
      buildField "friends.orderby(a.b)".toList [] none =
        .error (.MalformedKey "friends.orderby(a.b)".toList) ∧
      ∃ field, buildField "friends.first(10)".toList [] none = .ok field :=
  ⟨legacy_key_accepted_iff.2 "friends".toList "first".toList "1.5".toList [] none
      (by decide) (by decide) (by decide) (by decide),
    (legacy_key_accepted_iff.1 "friends.orderby(a.b)".toList [] none (by decide)).2
      ⟨"orderby(a".toList, by decide, by decide⟩,
    ((legacy_key_accepted_iff.1 "friends.first(10)".toList [] none (by decide)).1).2
      (by decide)⟩

end Relay
